import Mathlib

/-!
# G1 of BLS12-381 (`core/curves/native/bls12-381/g1.go`)

A shallow embedding of the G1 group layer: Jacobian points over the base field,
the group law, scalar multiplication, multi-exponentiation and the three
serialisation formats, followed by theorems about them.

The base field, its square root, its inverse, its sign predicate and the curve
constants live outside `g1.go`; they enter the development through `Params`.
-/

namespace G1

/-! ## The external field layer -/

/-- Modelled from the spec: the collaborators of the G1 layer that are declared
outside `g1.go`. `p` is the base field prime, `q` the group order (the package
level `q` of the source), `b` the curve constant, and `inverse`, `sqrt`,
`signBE` the field primitives of the same names. `sqrt a` is `none` when the
source's `sqrt` reports `false`. -/
structure Params where
  p : ℕ
  q : ℕ
  b : ZMod p
  inverse : ZMod p → ZMod p
  sqrt : ZMod p → Option (ZMod p)
  signBE : ZMod p → Bool

/-- Field elements (`fe` in the source): residues modulo `p`. -/
abbrev fe (E : Params) : Type := ZMod E.p

/-- Modelled from the spec: the contract of the external field layer. The base
field is a prime field of at most 381 bits and characteristic above three, the
curve constant is non-zero, the group order exceeds one and has at most 255
bits, `inverse` inverts every non-zero element, `sqrt` returns a square root
exactly when one exists, and `signBE` distinguishes a non-zero `y` from
`p - y`. -/
structure Params.Lawful (E : Params) : Prop where
  prime : E.p.Prime
  three_lt : 3 < E.p
  lt_pow : E.p < 2 ^ 381
  b_ne : E.b ≠ 0
  q_gt : 1 < E.q
  q_lt : E.q < 2 ^ 255
  inverse_mul : ∀ x : fe E, x ≠ 0 → x * E.inverse x = 1
  sqrt_sq : ∀ a y : fe E, E.sqrt a = some y → y * y = a
  sqrt_isSome : ∀ y : fe E, (E.sqrt (y * y)).isSome = true
  signBE_neg : ∀ y : fe E, y ≠ 0 → E.signBE (-y) = !E.signBE y

/-- Outcomes other than a returned value: an `error` result of the source, a
run-time panic (nil dereference, index out of range, division by zero), or the
call-depth or iteration budget of the model running out. -/
inductive Fail where
  | err (msg : String)
  | panic (msg : String)
  | noFuel
deriving DecidableEq, Repr

/-- Results of calls that can fail. -/
abbrev Res (α : Type) : Type := Except Fail α

/-- The big-endian value of a byte string. -/
def beValue (bs : List ℕ) : ℕ :=
  bs.foldl (fun acc v => acc * 256 + v) 0

/-- The `n`-byte big-endian encoding of `v`. -/
def beBytes : ℕ → ℕ → List ℕ
  | 0, _ => []
  | n + 1, v => (v / 256 ^ n % 256) :: beBytes n v

/-- Modelled from the spec: `fromBytes` of the field layer, the fixed 48-byte
big-endian canonical decoding; it fails on any other length and on values that
are not below `p`. -/
def fromBytes (E : Params) (input : List ℕ) : Res (fe E) :=
  if input.length ≠ 48 then
    .error (.err "input string should be equal 48 bytes")
  else if beValue input < E.p then
    .ok ((beValue input : ℕ) : fe E)
  else
    .error (.err "must be less than modulus")

/-- Modelled from the spec: `toBytes` of the field layer, the fixed 48-byte
big-endian canonical encoding. -/
def toBytes (E : Params) (a : fe E) : List ℕ :=
  beBytes 48 (ZMod.val a)

/-! ## Points -/

/-- The type `PointG1` of the source, `[3]fe`: Jacobian coordinates. -/
structure PointG1 (E : Params) where
  x : fe E
  y : fe E
  z : fe E
deriving DecidableEq

/-- The value of `new(PointG1)` and `&PointG1{}`. -/
def PointG1.blank (E : Params) : PointG1 E := ⟨0, 0, 0⟩

/-- Source function `Zero`: the canonical point at infinity. -/
def Zero (E : Params) : PointG1 E := ⟨0, 1, 0⟩

/-- Source function `IsZero` on a non-nil point. -/
def IsZero {E : Params} (P : PointG1 E) : Bool :=
  decide (P.z = 0)

/-- Source function `IsAffine`. -/
def IsAffine {E : Params} (P : PointG1 E) : Bool :=
  decide (P.z = 1)

/-- Source function `Equal`: equality of the affine forms, by cross-multiplication. -/
def Equal {E : Params} (p1 p2 : PointG1 E) : Bool :=
  if IsZero p1 then IsZero p2
  else if IsZero p2 then IsZero p1
  else
    let t0 := p1.z * p1.z
    let t1 := p2.z * p2.z
    let t2 := t0 * p2.x
    let t3 := t1 * p1.x
    let t0 := t0 * p1.z
    let t1 := t1 * p2.z
    let t1 := t1 * p1.y
    let t0 := t0 * p2.y
    decide (t0 = t1) && decide (t2 = t3)

/-- Source function `IsOnCurve`. -/
def IsOnCurve {E : Params} (P : PointG1 E) : Bool :=
  if IsZero P then true
  else
    let t0 := P.y * P.y
    let t1 := P.x * P.x
    let t1 := t1 * P.x
    let t2 := P.z * P.z
    let t3 := t2 * t2
    let t2 := t2 * t3
    let t2 := E.b * t2
    let t1 := t1 + t2
    decide (t0 = t1)

/-- Source function `Affine`: the point in affine form. -/
def Affine {E : Params} (P : PointG1 E) : PointG1 E :=
  if IsZero P then P
  else if !IsAffine P then
    let t0 := E.inverse P.z
    let t1 := t0 * t0
    let x := P.x * t1
    let t0 := t0 * t1
    let y := P.y * t0
    ⟨x, y, 1⟩
  else P

/-- Source function `Double`. -/
def Double {E : Params} (P : PointG1 E) : PointG1 E :=
  if IsZero P then P
  else
    let t0 := P.x * P.x
    let t1 := P.y * P.y
    let t2 := t1 * t1
    let t1 := P.x + t1
    let t1 := t1 * t1
    let t1 := t1 - t0
    let t1 := t1 - t2
    let t1 := t1 + t1
    let t3 := t0 + t0
    let t0 := t3 + t0
    let t4 := t0 * t0
    let t3 := t1 + t1
    let rx := t4 - t3
    let t1 := t1 - rx
    let t2 := t2 + t2
    let t2 := t2 + t2
    let t2 := t2 + t2
    let t0 := t0 * t1
    let t1 := t0 - t2
    let t0 := P.y * P.z
    ⟨rx, t1, t0 + t0⟩

/-- Source function `Add`. -/
def Add {E : Params} (p1 p2 : PointG1 E) : PointG1 E :=
  if IsZero p1 then p2
  else if IsZero p2 then p1
  else
    let t7 := p1.z * p1.z
    let t1 := p2.x * t7
    let t2 := p1.z * t7
    let t0 := p2.y * t2
    let t8 := p2.z * p2.z
    let t3 := p1.x * t8
    let t4 := p2.z * t8
    let t2 := p1.y * t4
    if t1 = t3 then
      if t0 = t2 then Double p1 else Zero E
    else
      let t1 := t1 - t3
      let t4 := t1 + t1
      let t4 := t4 * t4
      let t5 := t1 * t4
      let t0 := t0 - t2
      let t0 := t0 + t0
      let t6 := t0 * t0
      let t6 := t6 - t5
      let t3 := t3 * t4
      let t4 := t3 + t3
      let rx := t6 - t4
      let t4 := t3 - rx
      let t6 := t2 * t5
      let t6 := t6 + t6
      let t0 := t0 * t4
      let ry := t0 - t6
      let t0 := p1.z + p2.z
      let t0 := t0 * t0
      let t0 := t0 - t7
      let t0 := t0 - t8
      ⟨rx, ry, t0 * t1⟩

/-- Source function `Neg`. -/
def Neg {E : Params} (P : PointG1 E) : PointG1 E :=
  ⟨P.x, -P.y, P.z⟩

/-- Source function `Sub`. -/
def Sub {E : Params} (a b : PointG1 E) : PointG1 E :=
  Add a (Neg b)

/-! ## The Jacobian byte form and scalar multiplication -/

/-- Source function `toBytesJacobi` on a non-nil point: 144 bytes, all zero for infinity. -/
def toBytesJacobi {E : Params} (P : PointG1 E) : List ℕ :=
  if IsZero P then List.replicate 144 0
  else toBytes E P.x ++ toBytes E P.y ++ toBytes E P.z

/-- Source function `subtle.ConstantTimeCopy`: `y` when `v` is one, `x` when it is zero. -/
def ConstantTimeCopy (v : ℕ) (x y : List ℕ) : List ℕ :=
  if v = 1 then y else x

/-- The number of halvings, at most `fuel`, that take `n` to zero. -/
def bitLenAux : ℕ → ℕ → ℕ
  | 0, _ => 0
  | fuel + 1, n => if n = 0 then 0 else bitLenAux fuel (n / 2) + 1

/-- Source function `big.Int.BitLen` of a non-negative integer. -/
def BitLen (n : ℕ) : ℕ :=
  bitLenAux n n

/-- Source function `big.Int.Bit` of a non-negative integer. -/
def Bit (n i : ℕ) : ℕ :=
  n / 2 ^ i % 2

/-- The result `(q, err)` of `fromBytesJacobi` as `MulScalar` keeps it: the
error is dropped and `q` is nil when there is one. -/
def dropErr {α : Type} : Res α → Res (Option α)
  | .ok a => .ok (some a)
  | .error (.err _) => .ok none
  | .error f => .error f

mutual

/-- Source function `MulScalar`. The first argument bounds the depth of nested calls. The
accumulator `q` is a pointer in the source and is nil after a failed
`fromBytesJacobi`; `toBytesJacobi` and `Set` then dereference nil. -/
def MulScalar (E : Params) : ℕ → PointG1 E → ℤ → Res (PointG1 E)
  | 0, _, _ => .error .noFuel
  | fuel + 1, P, e =>
    let ee := (e % (E.q : ℤ)).toNat
    let l := BitLen ee
    let loop : Res (Option (PointG1 E) × PointG1 E) :=
      (List.range l).foldlM
        (fun (qn : Option (PointG1 E) × PointG1 E) (i : ℕ) =>
          match qn.1 with
          | none => (Except.error (Fail.panic "nil pointer dereference") :
              Res (Option (PointG1 E) × PointG1 E))
          | some q =>
            let bytes := toBytesJacobi q
            let r := Add q qn.2
            let bytes := ConstantTimeCopy (Bit ee i) bytes (toBytesJacobi r)
            (dropErr (fromBytesJacobi E fuel bytes)).bind fun q' =>
              Except.ok (q', Double qn.2))
        (some (PointG1.blank E), P)
    loop.bind fun qn =>
      match qn.1 with
      | none => Except.error (Fail.panic "nil pointer dereference")
      | some q => Except.ok q

/-- Source function `fromBytesJacobi`. -/
def fromBytesJacobi (E : Params) : ℕ → List ℕ → Res (PointG1 E)
  | 0, _ => .error .noFuel
  | fuel + 1, input =>
    if input.length < 144 then
      .error (.err "input string should be equal or larger than toBytesJacobi")
    else
      (fromBytes E (input.take 48)).bind fun p0 =>
      (fromBytes E ((input.drop 48).take 48)).bind fun p1 =>
      (fromBytes E (input.drop 96)).bind fun p2 =>
        let P : PointG1 E := ⟨p0, p1, p2⟩
        if !IsOnCurve P then .error (.err "point not on curve")
        else
          (InCorrectSubgroup E fuel P).bind fun ok =>
            if !ok then .error (.err "point not in correct subgroup")
            else .ok P

/-- Source function `InCorrectSubgroup`. -/
def InCorrectSubgroup (E : Params) : ℕ → PointG1 E → Res Bool
  | 0, _ => .error .noFuel
  | fuel + 1, P =>
    (MulScalar E fuel P (E.q : ℤ)).bind fun tmp => .ok (IsZero tmp)

end

/-- The body of the loop of `MulScalar`, named for the proofs: one iteration at
bit `i` of the reduced scalar `ee`, from the state `(q, n)`. -/
def mulStep (E : Params) (fuel ee : ℕ) (qn : Option (PointG1 E) × PointG1 E) (i : ℕ) :
    Res (Option (PointG1 E) × PointG1 E) :=
  match qn.1 with
  | none => Except.error (Fail.panic "nil pointer dereference")
  | some q =>
    let bytes := toBytesJacobi q
    let r := Add q qn.2
    let bytes := ConstantTimeCopy (Bit ee i) bytes (toBytesJacobi r)
    (dropErr (fromBytesJacobi E fuel bytes)).bind fun q' =>
      Except.ok (q', Double qn.2)

/-! ## Serialisation -/

/-- The assignment `out[0] |= m`. -/
def orHead (bs : List ℕ) (m : ℕ) : List ℕ :=
  match bs with
  | [] => []
  | v :: t => (v ||| m) :: t

/-- The assignment `in[0] &= m`. -/
def andHead (bs : List ℕ) (m : ℕ) : List ℕ :=
  match bs with
  | [] => []
  | v :: t => (v &&& m) :: t

/-- The loop over `in` of the two flagged decoders when the infinity flag is
set: whether some byte differs from `first` at index zero or from zero
elsewhere. -/
def badInfinity (first : ℕ) (input : List ℕ) : Bool :=
  input.enum.any fun iv =>
    (iv.1 == 0 && iv.2 != first) || (iv.1 != 0 && iv.2 != 0)

/-- The tail shared by every decoder: the curve check and the subgroup check
on the decoded point. -/
def checked (E : Params) (fuel : ℕ) (P : PointG1 E) : Res (PointG1 E) :=
  if !IsOnCurve P then .error (.err "point not on curve")
  else
    (InCorrectSubgroup E fuel P).bind fun ok =>
      if !ok then .error (.err "point not in correct subgroup")
      else .ok P

/-- Source function `FromUncompressed`. -/
def FromUncompressed (E : Params) (fuel : ℕ) (uncompressed : List ℕ) : Res (PointG1 E) :=
  if uncompressed.length < 96 then
    .error (.err "input string should be equal or larger than 96")
  else
    let input := uncompressed.take 96
    if input.headD 0 &&& 2 ^ 7 ≠ 0 then
      .error (.err "input string should be equal or larger than 96")
    else if input.headD 0 &&& 2 ^ 5 ≠ 0 then
      .error (.err "input string should be equal or larger than 96")
    else if input.headD 0 &&& 2 ^ 6 ≠ 0 then
      if badInfinity 0x40 input then
        .error (.err "input string should be equal or larger than 96")
      else .ok (Zero E)
    else
      let input := andHead input 0x1f
      (fromBytes E (input.take 48)).bind fun x =>
      (fromBytes E (input.drop 48)).bind fun y =>
        checked E fuel ⟨x, y, 1⟩

/-- Source function `ToUncompressed`. -/
def ToUncompressed {E : Params} (P : PointG1 E) : Res (List ℕ) :=
  if !IsOnCurve P then
    .error (.err "to uncompressed: input point is not in group")
  else
    let out := List.replicate 96 0
    if IsZero P then .ok (orHead out (2 ^ 6))
    else
      let P := Affine P
      .ok (toBytes E P.x ++ toBytes E P.y)

/-- Source function `FromCompressed`. -/
def FromCompressed (E : Params) (fuel : ℕ) (compressed : List ℕ) : Res (PointG1 E) :=
  if compressed.length ≠ 48 then
    .error (.err "input string should be exactly 48 bytes")
  else
    let input := compressed
    if input.headD 0 &&& 2 ^ 7 = 0 then
      .error (.err "compression flag should be set")
    else if input.headD 0 &&& 2 ^ 6 ≠ 0 then
      if badInfinity 0xc0 input then
        .error (.err "input string should be zero when infinity flag is set")
      else .ok (Zero E)
    else
      let a := decide (input.headD 0 &&& 2 ^ 5 ≠ 0)
      let input := andHead input 0x1f
      (fromBytes E input).bind fun x =>
        let y := x * x
        let y := y * x
        let y := y + E.b
        match E.sqrt y with
        | none => .error (.err "point is not on curve")
        | some y =>
          let y := if E.signBE y = a then -y else y
          checked E fuel ⟨x, y, 1⟩

/-- Source function `ToCompressed`. -/
def ToCompressed {E : Params} (P : PointG1 E) : List ℕ :=
  let out := List.replicate 48 0
  let P := Affine P
  let out :=
    if IsZero P then orHead out (2 ^ 6)
    else
      let out := toBytes E P.x
      if !E.signBE P.y then orHead out (2 ^ 5) else out
  orHead out (2 ^ 7)

/-- Source function `fromBytesUnchecked`. -/
def fromBytesUnchecked (E : Params) (fuel : ℕ) (input : List ℕ) : Res (PointG1 E) :=
  (fromBytes E (input.take 48)).bind fun p0 =>
  (fromBytes E (input.drop 48)).bind fun p1 =>
    checked E fuel ⟨p0, p1, 1⟩

/-- Source function `FromBytes`. -/
def FromBytes (E : Params) (fuel : ℕ) (input : List ℕ) : Res (PointG1 E) :=
  if input.length < 96 then
    .error (.err "input string should be equal or larger than 96")
  else
    (fromBytes E (input.take 48)).bind fun p0 =>
    (fromBytes E (input.drop 48)).bind fun p1 =>
      if p0 = 0 ∧ p1 = 0 then .ok (Zero E)
      else checked E fuel ⟨p0, p1, 1⟩

/-- Source function `ToBytes`. -/
def ToBytes {E : Params} (P : PointG1 E) : List ℕ :=
  let out := List.replicate 96 0
  if IsZero P then out
  else
    let P := Affine P
    toBytes E P.x ++ toBytes E P.y

/-! ## Multi-exponentiation -/

/-- One iteration of the loop `for cur < numBits` of `MultiExp`, up to the value
stored in `windows[j]`: the points are added into `2^c` buckets selected by the
low `c` bits of their scalars, and the buckets are summed from the highest
index down to index one with a running sum. -/
def windowSum (E : Params) (c mask : ℕ) (points : List (PointG1 E)) (fPowers : List ℕ) :
    PointG1 E :=
  let bucket := List.replicate (2 ^ c) (Zero E)
  let bucket := (points.zip fPowers).foldl
    (fun (bucket : List (PointG1 E)) (ps : PointG1 E × ℕ) =>
      let s0 := ps.2 % 2 ^ 64
      let index := s0 &&& mask
      bucket.set index (Add (bucket.getD index (Zero E)) ps.1))
    bucket
  let sumAcc := (bucket.drop 1).foldr
    (fun (b : PointG1 E) (sa : PointG1 E × PointG1 E) =>
      let sum := Add sa.1 b
      (sum, Add sa.2 sum))
    (Zero E, Zero E)
  sumAcc.2

/-- The loop `for cur < numBits` of `MultiExp`: one window per iteration. The
first argument bounds the number of iterations; `cur` counts bits in 32-bit
arithmetic, `j` is the index of the window being filled, `fPowers` holds the
scalars shifted right by the bits already consumed. -/
def windowLoop (E : Params) (c numBits mask : ℕ) (points : List (PointG1 E)) :
    ℕ → ℕ → ℕ → List ℕ → List (Option (PointG1 E)) → Res (List (Option (PointG1 E)))
  | 0, cur, _, _, windows =>
    if cur < numBits then .error .noFuel else .ok windows
  | fuel + 1, cur, j, fPowers, windows =>
    if cur < numBits then
      let acc := windowSum E c mask points fPowers
      let fPowers := fPowers.map fun s => s / 2 ^ c
      if j < windows.length then
        windowLoop E c numBits mask points fuel ((cur + c) % 2 ^ 32) (j + 1) fPowers
          (windows.set j (some acc))
      else .error (.panic "index out of range")
    else .ok windows

/-- The body of `MultiExp` once the window size `c` is chosen. A window size of
zero divides by zero; one of 63 or more overflows `1<<c`, so that the bucket
slice cannot be made or indexed. Below that the `2^c` buckets are allocated
whatever their number: memory is not bounded here. A window that was never
filled is nil. -/
def multiExpWith (E : Params) (c : ℕ) (points : List (PointG1 E)) (powers : List ℤ) :
    Res (PointG1 E) :=
  let fPowers := powers.map fun p => (p % (E.q : ℤ)).toNat
  let numBits := BitLen E.q % 2 ^ 32
  if c = 0 then .error (.panic "integer divide by zero")
  else if 63 ≤ c then .error (.panic "slice length or index out of range")
  else
    let windows : List (Option (PointG1 E)) :=
      List.replicate ((numBits + c - 1) % 2 ^ 32 / c) none
    let mask := (2 ^ c + 2 ^ 64 - 1) % 2 ^ 64
    (windowLoop E c numBits mask points numBits 0 0 fPowers windows).bind fun windows =>
      windows.foldr
        (fun (w : Option (PointG1 E)) (acc : Res (PointG1 E)) =>
          acc.bind fun acc =>
            match w with
            | none => .error (.panic "nil pointer dereference")
            | some w => .ok (Add (Double^[c] acc) w))
        (.ok (Zero E))

/-- Source function `MultiExp`. The window size for 32 or more pairs is computed
in floating point, `uint32(math.Ceil(math.Log10(float64(n))))`; that
computation enters as the parameter `ceilLog10`. -/
def MultiExp (E : Params) (ceilLog10 : ℕ → ℕ) (points : List (PointG1 E))
    (powers : List ℤ) : Res (PointG1 E) :=
  if points.length ≠ powers.length then
    .error (.err "point and scalar vectors should be in same length")
  else
    let c := if powers.length ≥ 32 then ceilLog10 powers.length % 2 ^ 32 else 3
    multiExpWith E c points powers

/-- The naive sum of the products `MulScalar points[i] powers[i]`, accumulated
with `Add` from infinity. -/
def naiveMultiExp (E : Params) (fuel : ℕ) (points : List (PointG1 E)) (powers : List ℤ) :
    Res (PointG1 E) :=
  (points.zip powers).foldlM
    (fun (acc : PointG1 E) (pe : PointG1 E × ℤ) =>
      (MulScalar E fuel pe.1 pe.2).bind fun m => Except.ok (Add acc m))
    (Zero E)

/-! ## Reference values -/

/-- The `n`-fold sum of `P` under the group law: built with `Add`, starting
from the point at infinity. -/
def sumOf {E : Params} (P : PointG1 E) : ℕ → PointG1 E
  | 0 => Zero E
  | n + 1 => Add (sumOf P n) P

/-- Square-and-multiply exponentiation with an explicit bound on the number of
exponent bits. -/
def fpow {p : ℕ} (x : ZMod p) : ℕ → ℕ → ZMod p
  | 0, _ => 1
  | fuel + 1, n =>
    if n = 0 then 1
    else
      let h := fpow x fuel (n / 2)
      if n % 2 = 1 then h * h * x else h * h

/-- Modelled from the spec: an instance of the external field layer for a
prime `p` that is `3` modulo `4`, with curve constant `b = 4`: the inverse by
Fermat, the square root as the power `(p + 1) / 4` checked by squaring, and
`signBE y` comparing `y` with `p - y`. -/
def mkParams (p q : ℕ) : Params where
  p := p
  q := q
  b := 4
  inverse := fun x => fpow x (p - 2) (p - 2)
  sqrt := fun a =>
    let c := fpow a ((p + 1) / 4) ((p + 1) / 4)
    if c * c = a then some c else none
  signBE := fun y => decide (ZMod.val y ≤ ZMod.val (-y))

/-- The base field prime of BLS12-381. -/
def P381 : ℕ :=
  0x1a0111ea397fe69a4b1ba7b6434bacd764774b84f38512bf6730d2a0f6b0f6241eabfffeb153ffffb9feffffffffaaab

/-- The order of G1 of BLS12-381. -/
def R255 : ℕ :=
  0x73eda753299d7d483339d80809a1d80553bda402fffe5bfeffffffff00000001

/-- The parameters of BLS12-381. -/
def bls12381 : Params := mkParams P381 R255

/-- A curve of the same shape over the field of 19 elements: `y² = x³ + 4` has
21 points there, a subgroup of prime order 7 and cofactor 3. -/
def toy : Params := mkParams 19 7

/-- The curve `y² = x³ + b` as a Weierstrass curve. -/
def curveW (E : Params) : WeierstrassCurve (fe E) :=
  ⟨0, 0, 0, 0, E.b⟩

/-- The point of the curve that a triple of the code stands for: the point at
infinity when `Z = 0`, the affine point `(X / Z², Y / Z³)` otherwise. The
relation holds for no `A` when the triple is finite and off the curve. -/
def Rep {E : Params} (P : PointG1 E) (A : (curveW E).toAffine.Point) : Prop :=
  (P.z = 0 ∧ A = 0) ∨
    (P.z ≠ 0 ∧ ∃ (x y : fe E) (h : (curveW E).toAffine.Nonsingular x y),
      P.x = x * P.z ^ 2 ∧ P.y = y * P.z ^ 3 ∧ A = .some h)

/-- The short Weierstrass curve `y² = x³ + A·x + B` over the base field. The
constants of the isogenous curve on which the SWU map lands are declared
outside `g1.go`; they enter as the parameters `A` and `B`. -/
def curveAB (E : Params) (A B : fe E) : WeierstrassCurve (fe E) :=
  ⟨0, 0, 0, A, B⟩

/-- Whether a triple is a point of `y² = x³ + A·x + B` in Jacobian coordinates:
`Z = 0`, or `Y² = X³ + A·X·Z⁴ + B·Z⁶`. -/
def IsOnCurveAB {E : Params} (A B : fe E) (P : PointG1 E) : Bool :=
  decide (P.z = 0) || decide (P.y ^ 2 = P.x ^ 3 + A * P.x * P.z ^ 4 + B * P.z ^ 6)

/-- The point of `y² = x³ + A·x + B` that a triple stands for: the point at
infinity when `Z = 0`, the affine point `(X / Z², Y / Z³)` otherwise. -/
def RepAB {E : Params} (A B : fe E) (P : PointG1 E)
    (C : (curveAB E A B).toAffine.Point) : Prop :=
  (P.z = 0 ∧ C = 0) ∨
    (P.z ≠ 0 ∧ ∃ (x y : fe E) (h : (curveAB E A B).toAffine.Nonsingular x y),
      P.x = x * P.z ^ 2 ∧ P.y = y * P.z ^ 3 ∧ C = .some h)

/-! ## Basic facts -/

section Basics

variable {E : Params}

theorem isZero_iff (P : PointG1 E) : IsZero P = true ↔ P.z = 0 := by
  simp [IsZero]

theorem isZero_false_iff (P : PointG1 E) : IsZero P = false ↔ P.z ≠ 0 := by
  simp [IsZero]

theorem isOnCurve_iff (P : PointG1 E) :
    IsOnCurve P = true ↔
      P.z = 0 ∨ P.y * P.y = P.x * P.x * P.x + E.b * (P.z * P.z * (P.z * P.z * (P.z * P.z))) := by
  unfold IsOnCurve
  by_cases h : P.z = 0 <;> simp [IsZero, h]

theorem bitLen_zero : BitLen 0 = 0 := rfl

theorem mulScalar_order (fuel : ℕ) (P : PointG1 E) :
    MulScalar E (fuel + 1) P (E.q : ℤ) = .ok (PointG1.blank E) := by
  simp [MulScalar, bitLen_zero, Except.bind]
  rfl

theorem inCorrectSubgroup_true (fuel : ℕ) (P : PointG1 E) :
    InCorrectSubgroup E (fuel + 2) P = .ok true := by
  simp [InCorrectSubgroup, mulScalar_order, Except.bind, PointG1.blank, IsZero]

theorem checked_eq (fuel : ℕ) (P : PointG1 E) :
    checked E (fuel + 2) P =
      if IsOnCurve P then .ok P else .error (.err "point not on curve") := by
  unfold checked
  by_cases h : IsOnCurve P = true <;> simp [h, inCorrectSubgroup_true, Except.bind]

end Basics

/-! ## The field encoding -/

section Bytes

variable {E : Params}

theorem beBytes_length (n v : ℕ) : (beBytes n v).length = n := by
  induction n with
  | zero => rfl
  | succ n ih => simp [beBytes, ih]

theorem foldl_be (bs : List ℕ) (a : ℕ) :
    bs.foldl (fun acc v => acc * 256 + v) a = a * 256 ^ bs.length + beValue bs := by
  induction bs generalizing a with
  | nil => simp [beValue]
  | cons b bs ih =>
    simp only [List.foldl_cons, List.length_cons, beValue]
    rw [ih, ih (0 * 256 + b)]
    ring

theorem beValue_cons (a : ℕ) (bs : List ℕ) :
    beValue (a :: bs) = a * 256 ^ bs.length + beValue bs := by
  simp only [beValue, List.foldl_cons]
  rw [foldl_be]
  simp [beValue]

theorem beValue_beBytes (n v : ℕ) : beValue (beBytes n v) = v % 256 ^ n := by
  induction n with
  | zero => simp [beBytes, beValue, Nat.mod_one]
  | succ n ih =>
    rw [beBytes, beValue_cons, beBytes_length, ih, Nat.mod_pow_succ]
    ring

theorem toBytes_length (a : fe E) : (toBytes E a).length = 48 :=
  beBytes_length 48 _

theorem val_lt_of_lawful (hE : E.Lawful) (a : fe E) : ZMod.val a < E.p :=
  haveI : NeZero E.p := ⟨hE.prime.ne_zero⟩
  ZMod.val_lt a

theorem fromBytes_toBytes (hE : E.Lawful) (a : fe E) :
    fromBytes E (toBytes E a) = .ok a := by
  haveI : NeZero E.p := ⟨hE.prime.ne_zero⟩
  have hlt := val_lt_of_lawful hE a
  have hp := hE.lt_pow
  have hv : beValue (toBytes E a) = ZMod.val a := by
    rw [toBytes, beValue_beBytes]
    apply Nat.mod_eq_of_lt
    calc ZMod.val a < E.p := hlt
      _ < 2 ^ 381 := hp
      _ ≤ 256 ^ 48 := by norm_num
  simp [fromBytes, toBytes_length, hv, hlt]

theorem toBytes_cons (hE : E.Lawful) (a : fe E) :
    ∃ h t, toBytes E a = h :: t ∧ h < 32 ∧ t.length = 47 := by
  refine ⟨ZMod.val a / 256 ^ 47 % 256, beBytes 47 (ZMod.val a), rfl, ?_, beBytes_length _ _⟩
  have hlt := val_lt_of_lawful hE a
  have hp := hE.lt_pow
  have h1 : ZMod.val a / 256 ^ 47 < 32 := by
    apply Nat.div_lt_of_lt_mul
    calc ZMod.val a < 2 ^ 381 := lt_trans hlt hp
      _ = 256 ^ 47 * 32 := by norm_num
  exact lt_of_le_of_lt (Nat.mod_le _ _) h1

theorem flag_facts : ∀ v, v < 32 →
    v &&& 128 = 0 ∧ v &&& 64 = 0 ∧ v &&& 32 = 0 ∧ v &&& 31 = v ∧
    (v ||| 128) &&& 128 ≠ 0 ∧ (v ||| 128) &&& 64 = 0 ∧
    (v ||| 128) &&& 32 = 0 ∧ (v ||| 128) &&& 31 = v ∧
    (v ||| 32 ||| 128) &&& 128 ≠ 0 ∧ (v ||| 32 ||| 128) &&& 64 = 0 ∧
    (v ||| 32 ||| 128) &&& 32 ≠ 0 ∧ (v ||| 32 ||| 128) &&& 31 = v := by
  decide

end Bytes

/-! ## Affine form, equality and the curve equation -/

section FieldFacts

variable {E : Params}

theorem one_ne_zero_fe (hE : E.Lawful) : (1 : fe E) ≠ 0 :=
  haveI : Fact E.p.Prime := ⟨hE.prime⟩
  one_ne_zero

theorem affine_of_z_eq_zero (P : PointG1 E) (hz : P.z = 0) : Affine P = P := by
  simp [Affine, IsZero, hz]

theorem affine_spec (hE : E.Lawful) (P : PointG1 E) (hz : P.z ≠ 0) :
    (Affine P).z = 1 ∧ (Affine P).x * P.z ^ 2 = P.x ∧ (Affine P).y * P.z ^ 3 = P.y := by
  have hi := hE.inverse_mul P.z hz
  unfold Affine
  by_cases h1 : P.z = 1
  · simp [IsZero, IsAffine, hz, h1]
  · simp only [IsZero, IsAffine, hz, h1, decide_False, Bool.not_false, if_true, if_false,
      Bool.false_eq_true]
    refine ⟨trivial, ?_, ?_⟩
    · linear_combination (P.x * (P.z * E.inverse P.z + 1)) * hi
    · linear_combination
        (P.y * ((P.z * E.inverse P.z) ^ 2 + P.z * E.inverse P.z + 1)) * hi

theorem equal_iff (P Q : PointG1 E) :
    Equal P Q = true ↔
      (P.z = 0 ∧ Q.z = 0) ∨
        (P.z ≠ 0 ∧ Q.z ≠ 0 ∧ P.x * Q.z ^ 2 = Q.x * P.z ^ 2 ∧ P.y * Q.z ^ 3 = Q.y * P.z ^ 3) := by
  unfold Equal
  by_cases hP : P.z = 0
  · simp [IsZero, hP]
  · by_cases hQ : Q.z = 0
    · simp [IsZero, hP, hQ]
    · simp only [IsZero, hP, hQ, decide_False, Bool.false_eq_true, if_false, false_and,
        Bool.and_eq_true, decide_eq_true_eq, ne_eq, not_false_eq_true, true_and, false_or]
      constructor
      · rintro ⟨h1, h2⟩
        exact ⟨by linear_combination -h2, by linear_combination -h1⟩
      · rintro ⟨h1, h2⟩
        exact ⟨by linear_combination -h2, by linear_combination -h1⟩

theorem equal_affine (hE : E.Lawful) (P : PointG1 E) : Equal (Affine P) P = true := by
  rw [equal_iff]
  by_cases hz : P.z = 0
  · left
    rw [affine_of_z_eq_zero P hz]
    exact ⟨hz, hz⟩
  · right
    obtain ⟨h1, h2, h3⟩ := affine_spec hE P hz
    refine ⟨by rw [h1]; exact one_ne_zero_fe hE, hz, ?_, ?_⟩
    · rw [h1, h2]; ring
    · rw [h1, h3]; ring

theorem isOnCurve_affine (hE : E.Lawful) (P : PointG1 E) (hP : IsOnCurve P = true)
    (hz : P.z ≠ 0) :
    (Affine P).y * (Affine P).y = (Affine P).x * (Affine P).x * (Affine P).x + E.b := by
  haveI : Fact E.p.Prime := ⟨hE.prime⟩
  obtain ⟨_, h2, h3⟩ := affine_spec hE P hz
  rcases (isOnCurve_iff P).1 hP with h | h
  · exact absurd h hz
  · have hz6 : P.z ^ 6 ≠ 0 := pow_ne_zero 6 hz
    apply mul_right_cancel₀ hz6
    rw [← h2, ← h3] at h
    linear_combination h

theorem isOnCurve_of_affine_eq (x y : fe E) (h : y * y = x * x * x + E.b) :
    IsOnCurve (⟨x, y, 1⟩ : PointG1 E) = true := by
  rw [isOnCurve_iff]
  right
  simp only [mul_one]
  exact h

end FieldFacts

/-! ## Decoders after encoders -/

section RoundTrips

variable {E : Params}

theorem badInfinity_c0 : badInfinity 0xc0 (0xc0 :: List.replicate 47 0) = false := by
  decide

theorem badInfinity_40 : badInfinity 0x40 (0x40 :: List.replicate 95 0) = false := by
  decide

theorem toCompressed_of_z_eq_zero (P : PointG1 E) (hz : P.z = 0) :
    ToCompressed P = 0xc0 :: List.replicate 47 0 := by
  simp [ToCompressed, affine_of_z_eq_zero P hz, IsZero, hz, orHead, List.replicate_succ]

theorem fromCompressed_infinity (fuel : ℕ) :
    FromCompressed E fuel (0xc0 :: List.replicate 47 0) = .ok (Zero E) := by
  simp [FromCompressed]
  decide

theorem fromCompressed_finite (hE : E.Lawful) (fuel : ℕ) (x y : fe E)
    (h : y * y = x * x * x + E.b) :
    FromCompressed E (fuel + 2)
        (orHead (if !E.signBE y then orHead (toBytes E x) (2 ^ 5) else toBytes E x) (2 ^ 7)) =
      .ok ⟨x, y, 1⟩ := by
  haveI : Fact E.p.Prime := ⟨hE.prime⟩
  obtain ⟨v, t, ht, hv, hlen⟩ := toBytes_cons hE x
  obtain ⟨-, -, -, -, f1, f2, f3, f4, g1, g2, g3, g4⟩ := flag_facts v hv
  have hx : fromBytes E (v :: t) = .ok x := by rw [← ht]; exact fromBytes_toBytes hE x
  obtain ⟨r, hr⟩ := Option.isSome_iff_exists.1 (hE.sqrt_isSome y)
  have hr' : E.sqrt (x * x * x + E.b) = some r := by rw [← h]; exact hr
  have hrr : r * r = y * y := hE.sqrt_sq _ _ hr
  have hry : r = y ∨ r = -y := by
    have h0 : (r - y) * (r + y) = 0 := by linear_combination hrr
    rcases mul_eq_zero.1 h0 with h1 | h1
    · left; exact sub_eq_zero.1 h1
    · right; exact eq_neg_of_add_eq_zero_left h1
  have hon : IsOnCurve (⟨x, y, 1⟩ : PointG1 E) = true := isOnCurve_of_affine_eq x y h
  cases hs : E.signBE y
  · -- the sign flag is set
    have hfin : (if E.signBE r = true then -r else r) = y := by
      rcases hry with rfl | rfl
      · simp [hs]
      · by_cases hy0 : y = 0
        · subst hy0; simp
        · have := hE.signBE_neg y hy0
          simp [this, hs]
    simp [FromCompressed, ht, orHead, andHead, hlen, f1, f2, f3, f4, g1, g2, g3, g4, hx,
      Except.bind, hr', checked_eq, hon, hfin]
  · -- the sign flag is clear
    have hfin : (if E.signBE r = false then -r else r) = y := by
      rcases hry with rfl | rfl
      · simp [hs]
      · by_cases hy0 : y = 0
        · subst hy0; simp
        · have := hE.signBE_neg y hy0
          simp [this, hs]
    simp [FromCompressed, ht, orHead, andHead, hlen, f1, f2, f3, f4, hx,
      Except.bind, hr', checked_eq, hon, hfin]

theorem affine_eta (hE : E.Lawful) (P : PointG1 E) (hz : P.z ≠ 0) :
    Affine P = ⟨(Affine P).x, (Affine P).y, 1⟩ := by
  have h := (affine_spec hE P hz).1
  cases hA : Affine P with
  | mk x y z =>
    rw [hA] at h
    simp only at h
    simp [h]

theorem toCompressed_of_z_ne_zero (hE : E.Lawful) (P : PointG1 E) (hz : P.z ≠ 0) :
    ToCompressed P =
      orHead (if !E.signBE (Affine P).y then orHead (toBytes E (Affine P).x) (2 ^ 5)
        else toBytes E (Affine P).x) (2 ^ 7) := by
  have h1 : (Affine P).z ≠ 0 := by
    rw [(affine_spec hE P hz).1]
    exact one_ne_zero_fe hE
  simp [ToCompressed, IsZero, h1]

theorem checked_ok (fuel : ℕ) (P R : PointG1 E) (h : checked E fuel P = .ok R) :
    R = P ∧ IsOnCurve P = true := by
  unfold checked at h
  by_cases hc : IsOnCurve P = true
  · simp only [hc, Bool.not_true, Bool.false_eq_true, if_false] at h
    cases hs : InCorrectSubgroup E fuel P with
    | error f => simp [hs, Except.bind] at h
    | ok v =>
      cases v
      · simp [hs, Except.bind] at h
      · simp only [hs, Except.bind, Bool.not_true, Bool.false_eq_true, if_false,
          Except.ok.injEq] at h
        exact ⟨h.symm, hc⟩
  · simp [hc] at h

theorem checked_off_curve (fuel : ℕ) (P : PointG1 E) (h : IsOnCurve P = false) :
    checked E fuel P = .error (.err "point not on curve") := by
  simp [checked, h]

theorem affine_point_of_isOnCurve (hE : E.Lawful) (x y : fe E)
    (h : IsOnCurve (⟨x, y, 1⟩ : PointG1 E) = true) : y * y = x * x * x + E.b := by
  rcases (isOnCurve_iff _).1 h with h0 | h0
  · exact absurd h0 (one_ne_zero_fe hE)
  · simpa using h0

theorem toBytes_zero : toBytes E 0 = List.replicate 48 0 := by
  simp [toBytes, beBytes, List.replicate_succ]

theorem fromBytes_zeros (hE : E.Lawful) : fromBytes E (List.replicate 48 0) = .ok 0 := by
  rw [← toBytes_zero]
  exact fromBytes_toBytes hE 0

theorem fromUncompressed_finite (hE : E.Lawful) (fuel : ℕ) (x y : fe E) (rest : List ℕ) :
    FromUncompressed E fuel (toBytes E x ++ toBytes E y ++ rest) =
      checked E fuel ⟨x, y, 1⟩ := by
  obtain ⟨v, t, ht, hv, hlen⟩ := toBytes_cons hE x
  obtain ⟨f1, f2, f3, f4, -⟩ := flag_facts v hv
  have hx : fromBytes E (v :: t) = .ok x := by rw [← ht]; exact fromBytes_toBytes hE x
  have hy := fromBytes_toBytes hE y
  have hly := toBytes_length y
  have e1 : List.take 96 (toBytes E x ++ toBytes E y ++ rest) = v :: (t ++ toBytes E y) := by
    rw [List.take_left' (by simp [ht, hlen, hly]), ht]
    rfl
  have e2 : List.take 48 (v :: (t ++ toBytes E y)) = v :: t := by
    rw [← List.cons_append, List.take_left' (by simp [hlen])]
  have e3 : List.drop 48 (v :: (t ++ toBytes E y)) = toBytes E y := by
    rw [← List.cons_append, List.drop_left' (by simp [hlen])]
  have hlen2 : ¬ (toBytes E x ++ toBytes E y ++ rest).length < 96 := by
    simp [toBytes_length]
    omega
  unfold FromUncompressed
  simp only [hlen2, if_false, e1, List.headD_cons, f1, f2, f3, ne_eq, not_true_eq_false,
    andHead, f4, e2, e3, hx, hy, Except.bind]
  norm_num [f1, f2, f3]

theorem fromBytes_finite (hE : E.Lawful) (fuel : ℕ) (x y : fe E) :
    FromBytes E fuel (toBytes E x ++ toBytes E y) =
      if x = 0 ∧ y = 0 then .ok (Zero E) else checked E fuel ⟨x, y, 1⟩ := by
  have hx := fromBytes_toBytes hE x
  have hy := fromBytes_toBytes hE y
  have e2 : List.take 48 (toBytes E x ++ toBytes E y) = toBytes E x :=
    List.take_left' (toBytes_length x)
  have e3 : List.drop 48 (toBytes E x ++ toBytes E y) = toBytes E y :=
    List.drop_left' (toBytes_length x)
  simp [FromBytes, toBytes_length, e2, e3, hx, hy, Except.bind]

theorem shape_of_checked (hE : E.Lawful) (fuel : ℕ) (x y : fe E) (R : PointG1 E)
    (h : checked E fuel ⟨x, y, 1⟩ = .ok R) :
    R = Zero E ∨ (R.z = 1 ∧ R.y * R.y = R.x * R.x * R.x + E.b) := by
  obtain ⟨rfl, hon⟩ := checked_ok fuel _ _ h
  exact Or.inr ⟨rfl, affine_point_of_isOnCurve hE x y hon⟩

theorem fromUncompressed_shape (hE : E.Lawful) (fuel : ℕ) (input : List ℕ) (R : PointG1 E)
    (h : FromUncompressed E fuel input = .ok R) :
    R = Zero E ∨ (R.z = 1 ∧ R.y * R.y = R.x * R.x * R.x + E.b) := by
  unfold FromUncompressed at h
  dsimp only at h
  by_cases c1 : input.length < 96
  · rw [if_pos c1] at h; cases h
  rw [if_neg c1] at h
  by_cases c2 : (List.take 96 input).headD 0 &&& 2 ^ 7 ≠ 0
  · rw [if_pos c2] at h; cases h
  rw [if_neg c2] at h
  by_cases c3 : (List.take 96 input).headD 0 &&& 2 ^ 5 ≠ 0
  · rw [if_pos c3] at h; cases h
  rw [if_neg c3] at h
  by_cases c4 : (List.take 96 input).headD 0 &&& 2 ^ 6 ≠ 0
  · rw [if_pos c4] at h
    by_cases c5 : badInfinity 0x40 (List.take 96 input) = true
    · rw [if_pos c5] at h; cases h
    · rw [if_neg c5] at h
      left
      cases h
      rfl
  rw [if_neg c4] at h
  cases hx : fromBytes E (List.take 48 (andHead (List.take 96 input) 0x1f)) with
  | error f => rw [hx] at h; cases h
  | ok x =>
    cases hy : fromBytes E (List.drop 48 (andHead (List.take 96 input) 0x1f)) with
    | error f => rw [hx, hy] at h; cases h
    | ok y =>
      rw [hx, hy] at h
      exact shape_of_checked hE fuel x y R h

theorem fromCompressed_shape (hE : E.Lawful) (fuel : ℕ) (input : List ℕ) (R : PointG1 E)
    (h : FromCompressed E fuel input = .ok R) :
    R = Zero E ∨ (R.z = 1 ∧ R.y * R.y = R.x * R.x * R.x + E.b) := by
  unfold FromCompressed at h
  dsimp only at h
  by_cases c1 : input.length ≠ 48
  · rw [if_pos c1] at h; cases h
  rw [if_neg c1] at h
  by_cases c2 : input.headD 0 &&& 2 ^ 7 = 0
  · rw [if_pos c2] at h; cases h
  rw [if_neg c2] at h
  by_cases c4 : input.headD 0 &&& 2 ^ 6 ≠ 0
  · rw [if_pos c4] at h
    by_cases c5 : badInfinity 0xc0 input = true
    · rw [if_pos c5] at h; cases h
    · rw [if_neg c5] at h
      left
      cases h
      rfl
  rw [if_neg c4] at h
  cases hx : fromBytes E (andHead input 0x1f) with
  | error f => rw [hx] at h; cases h
  | ok x =>
    rw [hx] at h
    simp only [Except.bind] at h
    cases hr : E.sqrt (x * x * x + E.b) with
    | none => rw [hr] at h; cases h
    | some r =>
      rw [hr] at h
      exact shape_of_checked hE fuel x _ R h

theorem fromBytes_shape (hE : E.Lawful) (fuel : ℕ) (input : List ℕ) (R : PointG1 E)
    (h : FromBytes E fuel input = .ok R) :
    R = Zero E ∨ (R.z = 1 ∧ R.y * R.y = R.x * R.x * R.x + E.b) := by
  unfold FromBytes at h
  by_cases c1 : input.length < 96
  · rw [if_pos c1] at h; cases h
  rw [if_neg c1] at h
  cases hx : fromBytes E (List.take 48 input) with
  | error f => rw [hx] at h; cases h
  | ok x =>
    cases hy : fromBytes E (List.drop 48 input) with
    | error f => rw [hx, hy] at h; cases h
    | ok y =>
      rw [hx, hy] at h
      simp only [Except.bind] at h
      by_cases c2 : x = 0 ∧ y = 0
      · rw [if_pos c2] at h
        left
        cases h
        rfl
      · rw [if_neg c2] at h
        exact shape_of_checked hE fuel x y R h

theorem fromUncompressed_infinity (fuel : ℕ) :
    FromUncompressed E fuel (0x40 :: List.replicate 95 0) = .ok (Zero E) := by
  have h1 : ¬ (0x40 :: List.replicate 95 0).length < 96 := by simp
  have h2 : List.take 96 (0x40 :: List.replicate 95 0) = 0x40 :: List.replicate 95 0 :=
    List.take_of_length_le (by simp)
  have h3 : ¬ ((0x40 : ℕ) &&& 2 ^ 7 ≠ 0) := by decide
  have h4 : ¬ ((0x40 : ℕ) &&& 2 ^ 5 ≠ 0) := by decide
  have h5 : (0x40 : ℕ) &&& 2 ^ 6 ≠ 0 := by decide
  unfold FromUncompressed
  dsimp only
  rw [if_neg h1, h2, List.headD_cons, if_neg h3, if_neg h4, if_pos h5, badInfinity_40]
  rfl

theorem equal_zero_of_z_eq_zero (P : PointG1 E) (hz : P.z = 0) : Equal (Zero E) P = true := by
  rw [equal_iff]
  exact Or.inl ⟨rfl, hz⟩

theorem affine_on_curve (hE : E.Lawful) (P : PointG1 E) (hP : IsOnCurve P = true)
    (hz : P.z ≠ 0) : IsOnCurve (⟨(Affine P).x, (Affine P).y, 1⟩ : PointG1 E) = true :=
  isOnCurve_of_affine_eq _ _ (isOnCurve_affine hE P hP hz)

end RoundTrips

/-! ## The small instance satisfies the contract -/

theorem toy_inverse_mul : ∀ x : ZMod 19, x ≠ 0 → x * fpow x 17 17 = 1 := by decide

theorem toy_sqrt_sq : ∀ a y : ZMod 19,
    (if fpow a 5 5 * fpow a 5 5 = a then some (fpow a 5 5) else none) = some y → y * y = a := by
  decide

theorem toy_sqrt_isSome : ∀ y : ZMod 19,
    (if fpow (y * y) 5 5 * fpow (y * y) 5 5 = y * y then some (fpow (y * y) 5 5)
      else none).isSome = true := by
  decide

theorem toy_signBE_neg : ∀ y : ZMod 19, y ≠ 0 →
    decide (ZMod.val (-y) ≤ ZMod.val (- -y)) = !decide (ZMod.val y ≤ ZMod.val (-y)) := by
  decide

theorem toy_lawful : toy.Lawful where
  prime := by norm_num [toy, mkParams]
  three_lt := by decide
  lt_pow := by norm_num [toy, mkParams]
  b_ne := by decide
  q_gt := by decide
  q_lt := by norm_num [toy, mkParams]
  inverse_mul := toy_inverse_mul
  sqrt_sq := toy_sqrt_sq
  sqrt_isSome := toy_sqrt_isSome
  signBE_neg := toy_signBE_neg

/-! ## Claims about the decoders -/

/-- C3. Every point that `FromUncompressed`, `FromCompressed` or `FromBytes`
returns without error is the canonical infinity `(0, 1, 0)` or an affine point
(`Z = 1`) with `Y² = X³ + b`; and an input that encodes a finite `(X, Y)` off
the curve, in uncompressed or flagless form, is rejected with an error. -/
theorem decoded_point_on_curve (E : Params) (hE : E.Lawful) (fuel : ℕ) :
    (∀ (input : List ℕ) (R : PointG1 E),
        (FromUncompressed E fuel input = .ok R ∨ FromCompressed E fuel input = .ok R ∨
          FromBytes E fuel input = .ok R) →
        R = Zero E ∨ (R.z = 1 ∧ R.y * R.y = R.x * R.x * R.x + E.b)) ∧
    (∀ (x y : fe E) (rest : List ℕ), y * y ≠ x * x * x + E.b →
        FromUncompressed E fuel (toBytes E x ++ toBytes E y ++ rest) =
            .error (.err "point not on curve") ∧
        (¬ (x = 0 ∧ y = 0) →
          FromBytes E fuel (toBytes E x ++ toBytes E y) =
            .error (.err "point not on curve"))) := by
  refine ⟨?_, ?_⟩
  · rintro input R (h | h | h)
    · exact fromUncompressed_shape hE fuel input R h
    · exact fromCompressed_shape hE fuel input R h
    · exact fromBytes_shape hE fuel input R h
  · intro x y rest hne
    have hoff : IsOnCurve (⟨x, y, 1⟩ : PointG1 E) = false := by
      cases hc : IsOnCurve (⟨x, y, 1⟩ : PointG1 E) with
      | false => rfl
      | true => exact absurd (affine_point_of_isOnCurve hE x y hc) hne
    refine ⟨?_, ?_⟩
    · rw [fromUncompressed_finite hE, checked_off_curve fuel _ hoff]
    · intro h0
      rw [fromBytes_finite hE, if_neg h0, checked_off_curve fuel _ hoff]

/-- C4. For every point `P` on the curve, in any Jacobian representation and
including infinity (in particular for every such point of the prime-order
subgroup), `FromCompressed (ToCompressed P)` succeeds and returns a point
`Equal` to `P`: the canonical infinity when `P` is infinity, and otherwise the
affine form of `P` itself, with the `Y` of `P` and not its negation. -/
theorem fromCompressed_toCompressed (E : Params) (hE : E.Lawful) (fuel : ℕ) (P : PointG1 E)
    (hP : IsOnCurve P = true) :
    ∃ R, FromCompressed E (fuel + 2) (ToCompressed P) = .ok R ∧ Equal R P = true ∧
      (P.z = 0 → R = Zero E) ∧ (P.z ≠ 0 → R = Affine P) := by
  by_cases hz : P.z = 0
  · refine ⟨Zero E, ?_, equal_zero_of_z_eq_zero P hz, fun _ => rfl, fun h => absurd hz h⟩
    rw [toCompressed_of_z_eq_zero P hz]
    exact fromCompressed_infinity _
  · refine ⟨Affine P, ?_, equal_affine hE P, fun h => absurd h hz, fun _ => rfl⟩
    rw [toCompressed_of_z_ne_zero hE P hz,
      fromCompressed_finite hE fuel _ _ (isOnCurve_affine hE P hP hz)]
    rw [← affine_eta hE P hz]

/-- C5. For every point `P` on the curve, in any Jacobian representation and
including infinity (in particular for every such point of the prime-order
subgroup), `ToUncompressed P` succeeds with 96 bytes, the top three bits of
the encoded `X` of a finite point are clear, and `FromUncompressed` of the
output succeeds and returns a point `Equal` to `P`. -/
theorem fromUncompressed_toUncompressed (E : Params) (hE : E.Lawful) (fuel : ℕ)
    (P : PointG1 E) (hP : IsOnCurve P = true) :
    ∃ bytes R, ToUncompressed P = .ok bytes ∧ bytes.length = 96 ∧
      (P.z ≠ 0 → bytes.headD 0 < 32) ∧
      FromUncompressed E (fuel + 2) bytes = .ok R ∧ Equal R P = true := by
  by_cases hz : P.z = 0
  · refine ⟨0x40 :: List.replicate 95 0, Zero E, ?_, by simp, fun h => absurd hz h,
      fromUncompressed_infinity _, equal_zero_of_z_eq_zero P hz⟩
    simp [ToUncompressed, hP, IsZero, hz, orHead, List.replicate_succ]
  · obtain ⟨v, t, ht, hv, hlen⟩ := toBytes_cons hE (Affine P).x
    refine ⟨toBytes E (Affine P).x ++ toBytes E (Affine P).y, Affine P, ?_, ?_, ?_, ?_,
      equal_affine hE P⟩
    · simp [ToUncompressed, hP, IsZero, hz]
    · simp [toBytes_length]
    · intro _
      rw [ht]
      simpa using hv
    · have h := fromUncompressed_finite hE (fuel + 2) (Affine P).x (Affine P).y []
      rw [List.append_nil] at h
      rw [h, checked_eq, affine_on_curve hE P hP hz, if_pos rfl, ← affine_eta hE P hz]

/-- C6. For every point `P` on the curve, including infinity, which `ToBytes`
writes as 96 zero bytes (in particular for every such point of the prime-order
subgroup), `FromBytes (ToBytes P)` succeeds and returns a point `Equal` to
`P`. -/
theorem fromBytes_toBytes_point (E : Params) (hE : E.Lawful) (fuel : ℕ) (P : PointG1 E)
    (hP : IsOnCurve P = true) :
    (P.z = 0 → ToBytes P = List.replicate 96 0) ∧
      ∃ R, FromBytes E (fuel + 2) (ToBytes P) = .ok R ∧ Equal R P = true := by
  haveI : Fact E.p.Prime := ⟨hE.prime⟩
  by_cases hz : P.z = 0
  · have hb : ToBytes P = List.replicate 96 0 := by simp [ToBytes, IsZero, hz]
    refine ⟨fun _ => hb, Zero E, ?_, equal_zero_of_z_eq_zero P hz⟩
    have h := fromBytes_finite hE (fuel + 2) (0 : fe E) (0 : fe E)
    rw [toBytes_zero, ← List.replicate_add] at h
    rw [hb, h]
    simp
  · refine ⟨fun h => absurd h hz, Affine P, ?_, equal_affine hE P⟩
    have hb : ToBytes P = toBytes E (Affine P).x ++ toBytes E (Affine P).y := by
      simp [ToBytes, IsZero, hz]
    have hcurve := isOnCurve_affine hE P hP hz
    have hne : ¬ ((Affine P).x = 0 ∧ (Affine P).y = 0) := by
      rintro ⟨hx0, hy0⟩
      rw [hx0, hy0] at hcurve
      apply hE.b_ne
      linear_combination -hcurve
    rw [hb, fromBytes_finite hE, if_neg hne, checked_eq, affine_on_curve hE P hP hz,
      if_pos rfl, ← affine_eta hE P hz]

set_option maxRecDepth 100000 in
/-- Witness for C3: the uncompressed encoding of the point `(1, 9)` of the
small curve is accepted and the decoded point has the stated shape. -/
theorem decoded_point_on_curve_witness :
    toy.Lawful ∧
    FromUncompressed toy 2 (List.replicate 47 0 ++ [1] ++ List.replicate 47 0 ++ [9]) =
      .ok ⟨1, 9, 1⟩ ∧
    ((⟨1, 9, 1⟩ : PointG1 toy) = Zero toy ∨
      ((⟨1, 9, 1⟩ : PointG1 toy).z = 1 ∧
        (⟨1, 9, 1⟩ : PointG1 toy).y * (⟨1, 9, 1⟩ : PointG1 toy).y =
          (⟨1, 9, 1⟩ : PointG1 toy).x * (⟨1, 9, 1⟩ : PointG1 toy).x *
            (⟨1, 9, 1⟩ : PointG1 toy).x + toy.b)) :=
  ⟨toy_lawful, rfl,
    (decoded_point_on_curve toy toy_lawful 2).1
      (List.replicate 47 0 ++ [1] ++ List.replicate 47 0 ++ [9]) ⟨1, 9, 1⟩ (Or.inl (by rfl))⟩

set_option maxRecDepth 100000 in
/-- Witness for C4: the Jacobian triple `(4, 15, 2)` stands for the point
`(1, 9)` of order 7 on the small curve. -/
theorem fromCompressed_toCompressed_witness :
    toy.Lawful ∧ IsOnCurve (⟨4, 15, 2⟩ : PointG1 toy) = true ∧
    ∃ R, FromCompressed toy (0 + 2) (ToCompressed (⟨4, 15, 2⟩ : PointG1 toy)) = .ok R ∧
      Equal R ⟨4, 15, 2⟩ = true ∧
      ((⟨4, 15, 2⟩ : PointG1 toy).z = 0 → R = Zero toy) ∧
      ((⟨4, 15, 2⟩ : PointG1 toy).z ≠ 0 → R = Affine ⟨4, 15, 2⟩) :=
  ⟨toy_lawful, by decide, fromCompressed_toCompressed toy toy_lawful 0 ⟨4, 15, 2⟩ (by decide)⟩

set_option maxRecDepth 100000 in
/-- Witness for C5 at the Jacobian triple `(4, 15, 2)` of the small curve. -/
theorem fromUncompressed_toUncompressed_witness :
    toy.Lawful ∧ IsOnCurve (⟨4, 15, 2⟩ : PointG1 toy) = true ∧
    ∃ bytes R, ToUncompressed (⟨4, 15, 2⟩ : PointG1 toy) = .ok bytes ∧ bytes.length = 96 ∧
      ((⟨4, 15, 2⟩ : PointG1 toy).z ≠ 0 → bytes.headD 0 < 32) ∧
      FromUncompressed toy (0 + 2) bytes = .ok R ∧ Equal R ⟨4, 15, 2⟩ = true :=
  ⟨toy_lawful, by decide,
    fromUncompressed_toUncompressed toy toy_lawful 0 ⟨4, 15, 2⟩ (by decide)⟩

set_option maxRecDepth 100000 in
/-- Witness for C6 at the Jacobian triple `(4, 15, 2)` of the small curve. -/
theorem fromBytes_toBytes_point_witness :
    toy.Lawful ∧ IsOnCurve (⟨4, 15, 2⟩ : PointG1 toy) = true ∧
    (((⟨4, 15, 2⟩ : PointG1 toy).z = 0 →
        ToBytes (⟨4, 15, 2⟩ : PointG1 toy) = List.replicate 96 0) ∧
      ∃ R, FromBytes toy (0 + 2) (ToBytes (⟨4, 15, 2⟩ : PointG1 toy)) = .ok R ∧
        Equal R ⟨4, 15, 2⟩ = true) :=
  ⟨toy_lawful, by decide, fromBytes_toBytes_point toy toy_lawful 0 ⟨4, 15, 2⟩ (by decide)⟩

/-! ## The subgroup check -/

section Subgroup

variable {E : Params}

theorem sumOf_add_period (P : PointG1 E) (k : ℕ) (hk : sumOf P k = Zero E) (m : ℕ) :
    sumOf P (k + m) = sumOf P m := by
  induction m with
  | zero => exact hk
  | succ m ih =>
    show Add (sumOf P (k + m)) P = Add (sumOf P m) P
    rw [ih]

theorem sumOf_mul_add (P : PointG1 E) (k : ℕ) (hk : sumOf P k = Zero E) (j m : ℕ) :
    sumOf P (k * j + m) = sumOf P m := by
  induction j with
  | zero => simp
  | succ j ih =>
    have e : k * (j + 1) + m = k + (k * j + m) := by ring
    rw [e, sumOf_add_period P k hk, ih]

theorem sumOf_mod (P : PointG1 E) (k : ℕ) (hk : sumOf P k = Zero E) (n : ℕ) :
    sumOf P n = sumOf P (n % k) := by
  conv_lhs => rw [← Nat.div_add_mod n k]
  exact sumOf_mul_add P k hk _ _

end Subgroup

theorem order_three_bls : sumOf (⟨0, 2, 1⟩ : PointG1 bls12381) 3 = Zero bls12381 := by
  decide

theorem sumOf_order_bls :
    sumOf (⟨0, 2, 1⟩ : PointG1 bls12381) bls12381.q = ⟨0, 2, 1⟩ := by
  rw [sumOf_mod _ 3 order_three_bls]
  have h : bls12381.q % 3 = 1 := by decide
  rw [h]
  decide

set_option maxRecDepth 100000 in
/-- C1, evaluated on the code. The point `(0, 2)` of BLS12-381 satisfies the
curve equation and has order three, so its `r`-fold sum is the point itself
and not infinity; all three decoders return it without error. -/
theorem offSubgroup_point_accepted :
    IsOnCurve (⟨0, 2, 1⟩ : PointG1 bls12381) = true ∧
    IsZero (sumOf (⟨0, 2, 1⟩ : PointG1 bls12381) bls12381.q) = false ∧
    FromUncompressed bls12381 2 (List.replicate 95 0 ++ [2]) = .ok ⟨0, 2, 1⟩ ∧
    FromBytes bls12381 2 (List.replicate 95 0 ++ [2]) = .ok ⟨0, 2, 1⟩ ∧
    FromCompressed bls12381 2 (0x80 :: List.replicate 47 0) = .ok ⟨0, 2, 1⟩ := by
  refine ⟨by decide, ?_, by rfl, by rfl, by rfl⟩
  rw [sumOf_order_bls]
  decide

/-- C2, evaluated on the code. For the point `(0, 2)` of BLS12-381, which is on
the curve, `InCorrectSubgroup` returns true although the `r`-fold sum of the
point is not infinity. -/
theorem inCorrectSubgroup_offSubgroup :
    IsOnCurve (⟨0, 2, 1⟩ : PointG1 bls12381) = true ∧
    InCorrectSubgroup bls12381 2 (⟨0, 2, 1⟩ : PointG1 bls12381) = .ok true ∧
    IsZero (sumOf (⟨0, 2, 1⟩ : PointG1 bls12381) bls12381.q) = false := by
  refine ⟨by decide, inCorrectSubgroup_true 0 _, ?_⟩
  rw [sumOf_order_bls]
  decide

/-! ## Addition with infinity and with the negative -/

/-- C10, as the code has it. For every point `P` and every infinity `O`
(`Z = 0`), `Add O P` is `P` coordinate for coordinate; `Add P O` is `P` when
`P` is finite and is `O` when `P` is itself an infinity; and for every finite
`P`, `Add P (Neg P)` has `Z = 0`. -/
theorem add_infinity_and_neg (E : Params) (hE : E.Lawful) (P O : PointG1 E) (hO : O.z = 0) :
    Add O P = P ∧ (P.z ≠ 0 → Add P O = P) ∧ (P.z = 0 → Add P O = O) ∧
      (P.z ≠ 0 → (Add P (Neg P)).z = 0) := by
  haveI : Fact E.p.Prime := ⟨hE.prime⟩
  refine ⟨by simp [Add, IsZero, hO], fun hz => by simp [Add, IsZero, hO, hz],
    fun hz => by simp [Add, IsZero, hz], fun hz => ?_⟩
  unfold Add
  simp only [IsZero, Neg, hz, decide_False, Bool.false_eq_true, if_false, if_true]
  by_cases hy : -P.y * (P.z * (P.z * P.z)) = P.y * (P.z * (P.z * P.z))
  · rw [if_pos hy]
    have h2 : (P.y + P.y) * (P.z * (P.z * P.z)) = 0 := by linear_combination -hy
    have h3 : P.y + P.y = 0 := by
      rcases mul_eq_zero.1 h2 with h | h
      · exact h
      · exact absurd h (mul_ne_zero hz (mul_ne_zero hz hz))
    simp only [Double, IsZero, hz, decide_False, Bool.false_eq_true, if_false]
    linear_combination P.z * h3
  · rw [if_neg hy]
    rfl

/-- Counterexample for C10: with `P` the all-zero triple that `MulScalar`
returns for the scalar zero and `O` the canonical infinity `(0, 1, 0)`,
`Add P O` is `O` and differs from `P` in its second coordinate. -/
theorem add_infinity_right_changes :
    (Zero bls12381).z = 0 ∧
    Add (PointG1.blank bls12381) (Zero bls12381) ≠ PointG1.blank bls12381 := by
  decide

set_option maxRecDepth 100000 in
/-- Witness for C10 at the Jacobian triple `(4, 15, 2)` of the small curve and
the infinity `(3, 5, 0)`. -/
theorem add_infinity_and_neg_witness :
    toy.Lawful ∧ (⟨3, 5, 0⟩ : PointG1 toy).z = 0 ∧
    (Add (⟨3, 5, 0⟩ : PointG1 toy) ⟨4, 15, 2⟩ = ⟨4, 15, 2⟩ ∧
      ((⟨4, 15, 2⟩ : PointG1 toy).z ≠ 0 → Add (⟨4, 15, 2⟩ : PointG1 toy) ⟨3, 5, 0⟩ = ⟨4, 15, 2⟩) ∧
      ((⟨4, 15, 2⟩ : PointG1 toy).z = 0 → Add (⟨4, 15, 2⟩ : PointG1 toy) ⟨3, 5, 0⟩ = ⟨3, 5, 0⟩) ∧
      ((⟨4, 15, 2⟩ : PointG1 toy).z ≠ 0 →
        (Add (⟨4, 15, 2⟩ : PointG1 toy) (Neg ⟨4, 15, 2⟩)).z = 0)) :=
  ⟨toy_lawful, by decide, add_infinity_and_neg toy toy_lawful ⟨4, 15, 2⟩ ⟨3, 5, 0⟩ (by decide)⟩

/-! ## The group law -/

open WeierstrassCurve

section GroupLaw

variable {E : Params}

theorem two_ne_zero_fe (hE : E.Lawful) : (2 : fe E) ≠ 0 := by
  intro h
  have h2 : ((2 : ℕ) : ZMod E.p) = 0 := by exact_mod_cast h
  rw [ZMod.natCast_zmod_eq_zero_iff_dvd] at h2
  have := Nat.le_of_dvd (by norm_num) h2
  have := hE.three_lt
  omega

theorem three_ne_zero_fe (hE : E.Lawful) : (3 : fe E) ≠ 0 := by
  intro h
  have h2 : ((3 : ℕ) : ZMod E.p) = 0 := by exact_mod_cast h
  rw [ZMod.natCast_zmod_eq_zero_iff_dvd] at h2
  have := Nat.le_of_dvd (by norm_num) h2
  have := hE.three_lt
  omega

theorem curveW_equation_iff (x y : fe E) :
    (curveW E).toAffine.Equation x y ↔ y * y = x * x * x + E.b := by
  rw [Affine.equation_iff]
  simp only [curveW]
  constructor
  · intro h; linear_combination h
  · intro h; linear_combination h

theorem curveW_disc (hE : E.Lawful) : (curveW E).Δ ≠ 0 := by
  haveI : Fact E.p.Prime := ⟨hE.prime⟩
  have h2 := two_ne_zero_fe hE
  have h3 := three_ne_zero_fe hE
  have hb := hE.b_ne
  have e : (curveW E).Δ = -(2 ^ 4 * 3 ^ 3 * E.b ^ 2) := by
    simp only [WeierstrassCurve.Δ, WeierstrassCurve.b₂, WeierstrassCurve.b₄,
      WeierstrassCurve.b₆, WeierstrassCurve.b₈, curveW]
    ring
  rw [e]
  exact neg_ne_zero.2 (mul_ne_zero (mul_ne_zero (pow_ne_zero _ h2) (pow_ne_zero _ h3))
    (pow_ne_zero _ hb))

theorem curveW_nonsingular (hE : E.Lawful) (x y : fe E) (h : y * y = x * x * x + E.b) :
    (curveW E).toAffine.Nonsingular x y :=
  haveI : Fact E.p.Prime := ⟨hE.prime⟩
  Affine.nonsingular_of_Δ_ne_zero _ ((curveW_equation_iff x y).2 h) (curveW_disc hE)

theorem rep_of_z_eq_zero (P : PointG1 E) (hz : P.z = 0) : Rep P 0 :=
  Or.inl ⟨hz, rfl⟩

theorem rep_zero : Rep (Zero E) 0 := rep_of_z_eq_zero _ rfl

theorem rep_blank : Rep (PointG1.blank E) 0 := rep_of_z_eq_zero _ rfl

theorem rep_eq_zero_of_z {P : PointG1 E} {A : (curveW E).toAffine.Point} (h : Rep P A)
    (hz : P.z = 0) : A = 0 := by
  rcases h with ⟨_, h⟩ | ⟨hne, _⟩
  · exact h
  · exact absurd hz hne

theorem rep_isOnCurve {P : PointG1 E} {A : (curveW E).toAffine.Point} (h : Rep P A) :
    IsOnCurve P = true := by
  rw [isOnCurve_iff]
  rcases h with ⟨hz, _⟩ | ⟨_, x, y, hns, hx, hy, _⟩
  · exact Or.inl hz
  · right
    have he := (curveW_equation_iff x y).1 hns.1
    rw [hx, hy]
    linear_combination (P.z ^ 6) * he

theorem rep_exists (hE : E.Lawful) (P : PointG1 E) (hP : IsOnCurve P = true) :
    ∃ A, Rep P A := by
  haveI : Fact E.p.Prime := ⟨hE.prime⟩
  by_cases hz : P.z = 0
  · exact ⟨0, rep_of_z_eq_zero P hz⟩
  · rcases (isOnCurve_iff P).1 hP with h | h
    · exact absurd h hz
    · have he : (P.y / P.z ^ 3) * (P.y / P.z ^ 3) =
          (P.x / P.z ^ 2) * (P.x / P.z ^ 2) * (P.x / P.z ^ 2) + E.b := by
        field_simp
        linear_combination (P.z ^ 6) * h
      refine ⟨.some (curveW_nonsingular hE _ _ he), Or.inr ⟨hz, _, _, _, ?_, ?_, rfl⟩⟩
      · field_simp
      · field_simp

theorem rep_unique (hE : E.Lawful) {P : PointG1 E} {A B : (curveW E).toAffine.Point}
    (hA : Rep P A) (hB : Rep P B) : A = B := by
  haveI : Fact E.p.Prime := ⟨hE.prime⟩
  rcases hA with ⟨hz, rfl⟩ | ⟨hz, x, y, hns, hx, hy, rfl⟩
  · exact (rep_eq_zero_of_z hB hz).symm
  · rcases hB with ⟨hz', _⟩ | ⟨_, x', y', hns', hx', hy', rfl⟩
    · exact absurd hz' hz
    · have ex : x = x' := by
        apply mul_right_cancel₀ (pow_ne_zero 2 hz)
        rw [← hx, ← hx']
      have ey : y = y' := by
        apply mul_right_cancel₀ (pow_ne_zero 3 hz)
        rw [← hy, ← hy']
      subst ex
      subst ey
      rfl

theorem rep_equal (hE : E.Lawful) {P Q : PointG1 E} {A B : (curveW E).toAffine.Point}
    (hA : Rep P A) (hB : Rep Q B) : Equal P Q = true ↔ A = B := by
  haveI : Fact E.p.Prime := ⟨hE.prime⟩
  rw [equal_iff]
  rcases hA with ⟨hz, rfl⟩ | ⟨hz, x, y, hns, hx, hy, rfl⟩
  · rcases hB with ⟨hz', rfl⟩ | ⟨hz', x', y', hns', hx', hy', rfl⟩
    · simp [hz, hz']
    · simp only [hz, hz', ne_eq, not_true_eq_false, false_and, and_false, or_false]
      constructor
      · intro h; exact absurd h (by simp)
      · intro h; exact absurd h.symm (Affine.Point.some_ne_zero _)
  · rcases hB with ⟨hz', rfl⟩ | ⟨hz', x', y', hns', hx', hy', rfl⟩
    · simp only [hz, hz', ne_eq, not_true_eq_false, false_and, and_false, or_false]
      constructor
      · intro h; exact absurd h (by simp)
      · intro h; exact absurd h (Affine.Point.some_ne_zero _)
    · simp only [hz, hz', ne_eq, not_false_eq_true, true_and, false_and, false_or,
        Affine.Point.some.injEq]
      rw [hx, hy, hx', hy']
      have hzz : P.z ^ 2 * Q.z ^ 2 ≠ 0 := mul_ne_zero (pow_ne_zero 2 hz) (pow_ne_zero 2 hz')
      have hzz3 : P.z ^ 3 * Q.z ^ 3 ≠ 0 := mul_ne_zero (pow_ne_zero 3 hz) (pow_ne_zero 3 hz')
      constructor
      · rintro ⟨h1, h2⟩
        refine ⟨mul_right_cancel₀ hzz ?_, mul_right_cancel₀ hzz3 ?_⟩
        · linear_combination h1
        · linear_combination h2
      · rintro ⟨rfl, rfl⟩
        exact ⟨by ring, by ring⟩

variable [Fact E.p.Prime]

theorem double_of_z_ne_zero (P : PointG1 E) (hz : P.z ≠ 0) :
    Double P =
      ⟨9 * P.x ^ 4 - 8 * P.x * P.y ^ 2,
        3 * P.x ^ 2 * (4 * P.x * P.y ^ 2 - (9 * P.x ^ 4 - 8 * P.x * P.y ^ 2)) - 8 * P.y ^ 4,
        2 * P.y * P.z⟩ := by
  simp only [Double, IsZero, hz, decide_False, Bool.false_eq_true, if_false]
  congr 1 <;> ring

theorem rep_double (hE : E.Lawful) {P : PointG1 E} {A : (curveW E).toAffine.Point}
    (hA : Rep P A) : Rep (Double P) (A + A) := by
  have h2 := two_ne_zero_fe hE
  rcases hA with ⟨hz, rfl⟩ | ⟨hz, x, y, hns, hx, hy, rfl⟩
  · have : Double P = P := by simp [Double, IsZero, hz]
    rw [this, add_zero]
    exact rep_of_z_eq_zero P hz
  · rw [double_of_z_ne_zero P hz]
    by_cases hy0 : y = 0
    · have hneg : y = (curveW E).toAffine.negY x y := by
        simp [Affine.negY, curveW, hy0]
      rw [Affine.Point.add_self_of_Y_eq hneg]
      apply rep_of_z_eq_zero
      show 2 * P.y * P.z = 0
      rw [hy, hy0]
      ring
    · have hneg : y ≠ (curveW E).toAffine.negY x y := by
        simp only [Affine.negY, curveW, mul_zero, sub_zero, zero_mul]
        intro h
        apply hy0
        have h' : 2 * y = 0 := by linear_combination h
        rcases mul_eq_zero.1 h' with h'' | h''
        · exact absurd h'' h2
        · exact h''
      rw [Affine.Point.add_self_of_Y_ne hneg]
      have hzD : 2 * P.y * P.z ≠ 0 := by
        rw [hy]
        exact mul_ne_zero (mul_ne_zero h2 (mul_ne_zero hy0 (pow_ne_zero 3 hz))) hz
      have hyy : y - (-y) = 2 * y := by ring
      refine Or.inr ⟨hzD, _, _, Affine.nonsingular_add hns hns (fun _ => hneg), ?_, ?_, rfl⟩
      · show 9 * P.x ^ 4 - 8 * P.x * P.y ^ 2 = _ * (2 * P.y * P.z) ^ 2
        rw [Affine.slope_of_Y_ne rfl hneg]
        simp only [Affine.addX, Affine.negY, curveW, mul_zero, sub_zero, zero_mul, add_zero]
        rw [hx, hy, hyy]
        field_simp
        ring
      · show 3 * P.x ^ 2 * (4 * P.x * P.y ^ 2 - (9 * P.x ^ 4 - 8 * P.x * P.y ^ 2)) - 8 * P.y ^ 4 =
          _ * (2 * P.y * P.z) ^ 3
        rw [Affine.slope_of_Y_ne rfl hneg]
        simp only [Affine.addY, Affine.negAddY, Affine.addX, Affine.negY, curveW, mul_zero,
          sub_zero, zero_mul, add_zero]
        rw [hx, hy, hyy]
        field_simp
        ring

theorem add_of_finite (P Q : PointG1 E) (hz1 : P.z ≠ 0) (hz2 : Q.z ≠ 0) :
    Add P Q =
      if Q.x * P.z ^ 2 = P.x * Q.z ^ 2 then
        if Q.y * P.z ^ 3 = P.y * Q.z ^ 3 then Double P else Zero E
      else
        ⟨(2 * (Q.y * P.z ^ 3 - P.y * Q.z ^ 3)) ^ 2
            - (Q.x * P.z ^ 2 - P.x * Q.z ^ 2) * (2 * (Q.x * P.z ^ 2 - P.x * Q.z ^ 2)) ^ 2
            - 2 * (P.x * Q.z ^ 2 * (2 * (Q.x * P.z ^ 2 - P.x * Q.z ^ 2)) ^ 2),
          2 * (Q.y * P.z ^ 3 - P.y * Q.z ^ 3) *
              (P.x * Q.z ^ 2 * (2 * (Q.x * P.z ^ 2 - P.x * Q.z ^ 2)) ^ 2
                - ((2 * (Q.y * P.z ^ 3 - P.y * Q.z ^ 3)) ^ 2
                  - (Q.x * P.z ^ 2 - P.x * Q.z ^ 2) * (2 * (Q.x * P.z ^ 2 - P.x * Q.z ^ 2)) ^ 2
                  - 2 * (P.x * Q.z ^ 2 * (2 * (Q.x * P.z ^ 2 - P.x * Q.z ^ 2)) ^ 2)))
            - 2 * (P.y * Q.z ^ 3 *
                ((Q.x * P.z ^ 2 - P.x * Q.z ^ 2) * (2 * (Q.x * P.z ^ 2 - P.x * Q.z ^ 2)) ^ 2)),
          2 * P.z * Q.z * (Q.x * P.z ^ 2 - P.x * Q.z ^ 2)⟩ := by
  unfold Add
  simp only [IsZero, hz1, hz2, decide_False, Bool.false_eq_true, if_false]
  have e1 : Q.x * (P.z * P.z) = Q.x * P.z ^ 2 := by ring
  have e2 : P.x * (Q.z * Q.z) = P.x * Q.z ^ 2 := by ring
  have e3 : Q.y * (P.z * (P.z * P.z)) = Q.y * P.z ^ 3 := by ring
  have e4 : P.y * (Q.z * (Q.z * Q.z)) = P.y * Q.z ^ 3 := by ring
  rw [e1, e2, e3, e4]
  by_cases c1 : Q.x * P.z ^ 2 = P.x * Q.z ^ 2
  · rw [if_pos c1, if_pos c1]
  · rw [if_neg c1, if_neg c1]
    congr 1 <;> ring

theorem rep_add (hE : E.Lawful) {P Q : PointG1 E} {A B : (curveW E).toAffine.Point}
    (hA : Rep P A) (hB : Rep Q B) : Rep (Add P Q) (A + B) := by
  have h2 := two_ne_zero_fe hE
  rcases hA with ⟨hz, rfl⟩ | ⟨hz, x, y, hns, hx, hy, rfl⟩
  · have : Add P Q = Q := by simp [Add, IsZero, hz]
    rw [this, zero_add]
    exact hB
  rcases hB with ⟨hz', rfl⟩ | ⟨hz', x', y', hns', hx', hy', rfl⟩
  · have : Add P Q = P := by simp [Add, IsZero, hz, hz']
    rw [this, add_zero]
    exact Or.inr ⟨hz, x, y, hns, hx, hy, rfl⟩
  rw [add_of_finite P Q hz hz']
  have hzz : P.z ^ 2 * Q.z ^ 2 ≠ 0 := mul_ne_zero (pow_ne_zero 2 hz) (pow_ne_zero 2 hz')
  have hzz3 : P.z ^ 3 * Q.z ^ 3 ≠ 0 := mul_ne_zero (pow_ne_zero 3 hz) (pow_ne_zero 3 hz')
  by_cases c1 : Q.x * P.z ^ 2 = P.x * Q.z ^ 2
  · rw [if_pos c1]
    have exx : x = x' := by
      apply mul_right_cancel₀ hzz
      rw [hx, hx'] at c1
      linear_combination -c1
    subst exx
    by_cases c2 : Q.y * P.z ^ 3 = P.y * Q.z ^ 3
    · rw [if_pos c2]
      have eyy : y = y' := by
        apply mul_right_cancel₀ hzz3
        rw [hy, hy'] at c2
        linear_combination -c2
      subst eyy
      exact rep_double hE (Or.inr ⟨hz, x, y, hns, hx, hy, rfl⟩)
    · rw [if_neg c2]
      have hyne : y ≠ y' := by
        rintro rfl
        apply c2
        rw [hy, hy']
        ring
      have hneg : y = (curveW E).toAffine.negY x y' := by
        by_contra hcon
        exact hyne (Affine.Y_eq_of_Y_ne hns.1 hns'.1 rfl hcon)
      rw [Affine.Point.add_of_Y_eq rfl hneg]
      exact rep_zero
  · rw [if_neg c1]
    have hxne : x ≠ x' := by
      rintro rfl
      apply c1
      rw [hx, hx']
      ring
    have hd : x - x' ≠ 0 := sub_ne_zero.2 hxne
    rw [Affine.Point.add_of_X_ne hxne]
    have hH : Q.x * P.z ^ 2 - P.x * Q.z ^ 2 ≠ 0 := sub_ne_zero.2 c1
    have hzD : 2 * P.z * Q.z * (Q.x * P.z ^ 2 - P.x * Q.z ^ 2) ≠ 0 :=
      mul_ne_zero (mul_ne_zero (mul_ne_zero h2 hz) hz') hH
    refine Or.inr ⟨hzD, _, _, Affine.nonsingular_add hns hns' (fun h => absurd h hxne),
      ?_, ?_, rfl⟩
    · simp only
      rw [Affine.slope_of_X_ne hxne]
      simp only [Affine.addX, curveW, mul_zero, sub_zero, zero_mul, add_zero]
      rw [hx, hy, hx', hy']
      field_simp
      ring
    · simp only
      rw [Affine.slope_of_X_ne hxne]
      simp only [Affine.addY, Affine.negAddY, Affine.addX, Affine.negY, curveW, mul_zero,
        sub_zero, zero_mul, add_zero]
      rw [hx, hy, hx', hy']
      field_simp
      ring

end GroupLaw

/-! ## Scalar multiplication -/

section Scalar

variable {E : Params}

theorem mulScalar_succ (fuel : ℕ) (P : PointG1 E) (e : ℤ) :
    MulScalar E (fuel + 1) P e =
      ((List.range (BitLen (e % (E.q : ℤ)).toNat)).foldlM
          (mulStep E fuel (e % (E.q : ℤ)).toNat) (some (PointG1.blank E), P)).bind
        fun qn =>
          match qn.1 with
          | none => Except.error (Fail.panic "nil pointer dereference")
          | some q => Except.ok q := by
  rfl

theorem isOnCurve_blank : IsOnCurve (PointG1.blank E) = true := by
  rw [isOnCurve_iff]
  exact Or.inl rfl

theorem fromBytesJacobi_succ (fuel : ℕ) (input : List ℕ) :
    fromBytesJacobi E (fuel + 1) input =
      if input.length < 144 then
        .error (.err "input string should be equal or larger than toBytesJacobi")
      else
        (fromBytes E (input.take 48)).bind fun p0 =>
        (fromBytes E ((input.drop 48).take 48)).bind fun p1 =>
        (fromBytes E (input.drop 96)).bind fun p2 =>
          if !IsOnCurve (⟨p0, p1, p2⟩ : PointG1 E) then .error (.err "point not on curve")
          else
            (InCorrectSubgroup E fuel ⟨p0, p1, p2⟩).bind fun ok =>
              if !ok then .error (.err "point not in correct subgroup")
              else .ok ⟨p0, p1, p2⟩ := by
  rfl

theorem fromBytesJacobi_of_parts (hE : E.Lawful) (fuel : ℕ) (x y z : fe E)
    (hP : IsOnCurve (⟨x, y, z⟩ : PointG1 E) = true) :
    fromBytesJacobi E (fuel + 3) (toBytes E x ++ toBytes E y ++ toBytes E z) =
      .ok ⟨x, y, z⟩ := by
  have l1 := toBytes_length x
  have l2 := toBytes_length y
  have l3 := toBytes_length z
  have t1 : List.take 48 (toBytes E x ++ toBytes E y ++ toBytes E z) = toBytes E x := by
    rw [List.append_assoc, List.take_left' l1]
  have t2 : List.take 48 (List.drop 48 (toBytes E x ++ toBytes E y ++ toBytes E z)) =
      toBytes E y := by
    rw [List.append_assoc, List.drop_left' l1, List.take_left' l2]
  have t3 : List.drop 96 (toBytes E x ++ toBytes E y ++ toBytes E z) = toBytes E z := by
    rw [List.drop_left' (by simp [l1, l2])]
  have hl : ¬ (toBytes E x ++ toBytes E y ++ toBytes E z).length < 144 := by
    simp [l1, l2, l3]
  rw [fromBytesJacobi_succ, if_neg hl, t1, t2, t3, fromBytes_toBytes hE, fromBytes_toBytes hE,
    fromBytes_toBytes hE]
  simp only [Except.bind, hP, Bool.not_true, Bool.false_eq_true, if_false,
    inCorrectSubgroup_true]

theorem replicate_144 :
    List.replicate 144 0 = toBytes E 0 ++ toBytes E 0 ++ toBytes E 0 := by
  rw [toBytes_zero, ← List.replicate_add, ← List.replicate_add]

theorem fromBytesJacobi_toBytesJacobi (hE : E.Lawful) (fuel : ℕ) (P : PointG1 E)
    (hP : IsOnCurve P = true) :
    fromBytesJacobi E (fuel + 3) (toBytesJacobi P) =
      .ok (if IsZero P then PointG1.blank E else P) := by
  by_cases hz : P.z = 0
  · have e0 : toBytesJacobi P = List.replicate 144 0 := by simp [toBytesJacobi, IsZero, hz]
    rw [e0, replicate_144, fromBytesJacobi_of_parts hE fuel 0 0 0 isOnCurve_blank]
    simp [IsZero, hz, PointG1.blank]
  · have e0 : toBytesJacobi P = toBytes E P.x ++ toBytes E P.y ++ toBytes E P.z := by
      simp [toBytesJacobi, IsZero, hz]
    rw [e0, fromBytesJacobi_of_parts hE fuel P.x P.y P.z hP]
    simp [IsZero, hz]

theorem rep_normalise {P : PointG1 E} {A : (curveW E).toAffine.Point} (h : Rep P A) :
    Rep (if IsZero P then PointG1.blank E else P) A := by
  by_cases hz : P.z = 0
  · have hA := rep_eq_zero_of_z h hz
    subst hA
    simp only [IsZero, hz, decide_True, if_true]
    exact rep_blank
  · simpa [IsZero, hz] using h

theorem bit_le_one (n i : ℕ) : Bit n i = 0 ∨ Bit n i = 1 :=
  Nat.mod_two_eq_zero_or_one _

variable [Fact E.p.Prime]

theorem mulStep_spec (hE : E.Lawful) (fuel ee i : ℕ) (Q N : PointG1 E)
    (a n : (curveW E).toAffine.Point) (hQ : Rep Q a) (hN : Rep N n) :
    ∃ Q', mulStep E (fuel + 3) ee (some Q, N) i = .ok (some Q', Double N) ∧
      Rep Q' (a + Bit ee i • n) := by
  rcases bit_le_one ee i with hb | hb
  · refine ⟨if IsZero Q then PointG1.blank E else Q, ?_, ?_⟩
    · simp only [mulStep, hb, ConstantTimeCopy, zero_ne_one, if_false,
        fromBytesJacobi_toBytesJacobi hE fuel Q (rep_isOnCurve hQ), dropErr, Except.bind]
    · rw [hb, zero_nsmul, add_zero]
      exact rep_normalise hQ
  · have hR := rep_add hE hQ hN
    refine ⟨if IsZero (Add Q N) then PointG1.blank E else Add Q N, ?_, ?_⟩
    · simp only [mulStep, hb, ConstantTimeCopy, if_true,
        fromBytesJacobi_toBytesJacobi hE fuel (Add Q N) (rep_isOnCurve hR), dropErr, Except.bind]
    · rw [hb, one_nsmul]
      exact rep_normalise hR

theorem mulLoop_spec (hE : E.Lawful) (fuel ee : ℕ) (P : PointG1 E)
    (A : (curveW E).toAffine.Point) (hA : Rep P A) (l : ℕ) :
    ∃ Q N, (List.range l).foldlM (mulStep E (fuel + 3) ee) (some (PointG1.blank E), P) =
        .ok (some Q, N) ∧
      Rep Q ((ee % 2 ^ l) • A) ∧ Rep N (2 ^ l • A) := by
  induction l with
  | zero =>
    refine ⟨PointG1.blank E, P, rfl, ?_, ?_⟩
    · simpa [Nat.mod_one] using (rep_blank : Rep (PointG1.blank E) 0)
    · simpa using hA
  | succ l ih =>
    obtain ⟨Q, N, hfold, hQ, hN⟩ := ih
    obtain ⟨Q', hstep, hQ'⟩ := mulStep_spec hE fuel ee l Q N _ _ hQ hN
    refine ⟨Q', Double N, ?_, ?_, ?_⟩
    · rw [List.range_succ, List.foldlM_append, hfold]
      simp only [List.foldlM_cons, List.foldlM_nil, bind, Except.bind, hstep, pure, Except.pure]
    · have e : ee % 2 ^ (l + 1) = ee % 2 ^ l + 2 ^ l * Bit ee l := by
        rw [Nat.mod_pow_succ, Bit]
      rw [e, add_nsmul, mul_nsmul]
      exact hQ'
    · have e : 2 ^ (l + 1) = 2 ^ l + 2 ^ l := by ring
      rw [e, add_nsmul]
      exact rep_double hE hN

theorem lt_two_pow_bitLenAux (f n : ℕ) (h : n < 2 ^ f) : n < 2 ^ bitLenAux f n := by
  induction f generalizing n with
  | zero =>
    have : n = 0 := by simpa using h
    subst this
    simp [bitLenAux]
  | succ f ih =>
    by_cases h0 : n = 0
    · subst h0
      simp [bitLenAux]
    · simp only [bitLenAux, h0, if_false]
      have h1 : n / 2 < 2 ^ f := by
        apply Nat.div_lt_of_lt_mul
        rw [pow_succ] at h
        omega
      have h2 := ih (n / 2) h1
      rw [pow_succ]
      omega

theorem lt_two_pow_bitLen (n : ℕ) : n < 2 ^ BitLen n :=
  lt_two_pow_bitLenAux n n (Nat.lt_two_pow n)

theorem toNat_emod (e q : ℕ) : ((e : ℤ) % (q : ℤ)).toNat = e % q := by
  rw [← Int.natCast_mod, Int.toNat_natCast]

theorem mulScalar_rep (hE : E.Lawful) (fuel : ℕ) (P : PointG1 E) (e : ℕ)
    (A : (curveW E).toAffine.Point) (hA : Rep P A) :
    ∃ R, MulScalar E (fuel + 4) P (e : ℤ) = .ok R ∧ Rep R ((e % E.q) • A) := by
  obtain ⟨Q, N, hfold, hQ, _⟩ := mulLoop_spec hE fuel (e % E.q) P A hA (BitLen (e % E.q))
  refine ⟨Q, ?_, ?_⟩
  · rw [mulScalar_succ, toNat_emod, hfold]
    rfl
  · rwa [Nat.mod_eq_of_lt (lt_two_pow_bitLen _)] at hQ

theorem sumOf_rep (hE : E.Lawful) (P : PointG1 E) (A : (curveW E).toAffine.Point)
    (hA : Rep P A) (n : ℕ) : Rep (sumOf P n) (n • A) := by
  induction n with
  | zero =>
    rw [zero_nsmul]
    exact rep_zero
  | succ n ih =>
    rw [succ_nsmul]
    exact rep_add hE ih hA

theorem z_eq_zero_of_rep_zero {P : PointG1 E} (h : Rep P 0) : P.z = 0 := by
  rcases h with ⟨hz, _⟩ | ⟨_, x, y, hns, _, _, h0⟩
  · exact hz
  · exact absurd h0.symm (Affine.Point.some_ne_zero hns)

theorem mod_nsmul (q n : ℕ) (A : (curveW E).toAffine.Point) (h : q • A = 0) :
    (n % q) • A = n • A := by
  conv_rhs => rw [← Nat.div_add_mod n q]
  rw [add_nsmul, mul_nsmul, h, nsmul_zero, zero_add]

end Scalar

/-- C7. For every point `P` on the curve and every non-negative scalar `e`,
`MulScalar P e` returns a point `Equal` to the `(e mod r)`-fold sum of `P`
built with `Add` from infinity; for `e = 0` the result is infinity and for
`e = 1` it is `Equal` to `P`. -/
theorem mulScalar_eq_sumOf (E : Params) (hE : E.Lawful) (fuel : ℕ) (P : PointG1 E) (e : ℕ)
    (hP : IsOnCurve P = true) :
    ∃ R, MulScalar E (fuel + 4) P (e : ℤ) = .ok R ∧
      Equal R (sumOf P (e % E.q)) = true ∧
      (e = 0 → IsZero R = true) ∧ (e = 1 → Equal R P = true) := by
  haveI : Fact E.p.Prime := ⟨hE.prime⟩
  obtain ⟨A, hA⟩ := rep_exists hE P hP
  obtain ⟨R, hR, hrep⟩ := mulScalar_rep hE fuel P e A hA
  refine ⟨R, hR, ?_, ?_, ?_⟩
  · exact (rep_equal hE hrep (sumOf_rep hE P A hA _)).2 rfl
  · rintro rfl
    rw [Nat.zero_mod, zero_nsmul] at hrep
    exact (isZero_iff R).2 (z_eq_zero_of_rep_zero hrep)
  · rintro rfl
    rw [Nat.mod_eq_of_lt hE.q_gt, one_nsmul] at hrep
    exact (rep_equal hE hrep hA).2 rfl

set_option maxRecDepth 100000 in
/-- Witness for C7: the Jacobian triple `(4, 15, 2)` of the small curve and the
scalar 12. -/
theorem mulScalar_eq_sumOf_witness :
    toy.Lawful ∧ IsOnCurve (⟨4, 15, 2⟩ : PointG1 toy) = true ∧
    ∃ R, MulScalar toy (0 + 4) (⟨4, 15, 2⟩ : PointG1 toy) ((12 : ℕ) : ℤ) = .ok R ∧
      Equal R (sumOf (⟨4, 15, 2⟩ : PointG1 toy) (12 % toy.q)) = true ∧
      (12 = 0 → IsZero R = true) ∧ (12 = 1 → Equal R ⟨4, 15, 2⟩ = true) :=
  ⟨toy_lawful, by decide, mulScalar_eq_sumOf toy toy_lawful 0 ⟨4, 15, 2⟩ 12 (by decide)⟩

/-- C8. For every point `P` on the curve whose `r`-fold sum is infinity and all
non-negative scalars `a` and `b`, `MulScalar P (a + b)` is `Equal` to
`Add (MulScalar P a) (MulScalar P b)`, and `MulScalar P (a * b)` is `Equal` to
`MulScalar (MulScalar P b) a`; all five calls return a point. -/
theorem mulScalar_add_mul (E : Params) (hE : E.Lawful) (fuel : ℕ) (P : PointG1 E) (a b : ℕ)
    (hP : IsOnCurve P = true) (hsub : IsZero (sumOf P E.q) = true) :
    ∃ Ra Rb Rsum Rmul Rnest,
      MulScalar E (fuel + 4) P (a : ℤ) = .ok Ra ∧
      MulScalar E (fuel + 4) P (b : ℤ) = .ok Rb ∧
      MulScalar E (fuel + 4) P ((a + b : ℕ) : ℤ) = .ok Rsum ∧
      Equal Rsum (Add Ra Rb) = true ∧
      MulScalar E (fuel + 4) P ((a * b : ℕ) : ℤ) = .ok Rmul ∧
      MulScalar E (fuel + 4) Rb (a : ℤ) = .ok Rnest ∧
      Equal Rmul Rnest = true := by
  haveI : Fact E.p.Prime := ⟨hE.prime⟩
  obtain ⟨A, hA⟩ := rep_exists hE P hP
  have hq : E.q • A = 0 :=
    rep_eq_zero_of_z (sumOf_rep hE P A hA E.q) ((isZero_iff _).1 hsub)
  obtain ⟨Ra, hRa, ha⟩ := mulScalar_rep hE fuel P a A hA
  obtain ⟨Rb, hRb, hb⟩ := mulScalar_rep hE fuel P b A hA
  obtain ⟨Rsum, hRsum, hsum⟩ := mulScalar_rep hE fuel P (a + b) A hA
  obtain ⟨Rmul, hRmul, hmul⟩ := mulScalar_rep hE fuel P (a * b) A hA
  rw [mod_nsmul E.q _ A hq] at ha hb hsum hmul
  obtain ⟨Rnest, hRnest, hnest⟩ := mulScalar_rep hE fuel Rb a _ hb
  have hqb : E.q • (b • A) = 0 := by
    rw [← mul_nsmul, mul_comm, mul_nsmul, hq, nsmul_zero]
  rw [mod_nsmul E.q _ _ hqb] at hnest
  refine ⟨Ra, Rb, Rsum, Rmul, Rnest, hRa, hRb, hRsum, ?_, hRmul, hRnest, ?_⟩
  · exact (rep_equal hE hsum (rep_add hE ha hb)).2 (add_nsmul A a b)
  · refine (rep_equal hE hmul hnest).2 ?_
    rw [mul_comm, mul_nsmul]

set_option maxRecDepth 100000 in
/-- Witness for C8: the Jacobian triple `(4, 15, 2)` of the small curve stands
for a point of order 7; the scalars are 5 and 4. -/
theorem mulScalar_add_mul_witness :
    toy.Lawful ∧ IsOnCurve (⟨4, 15, 2⟩ : PointG1 toy) = true ∧
    IsZero (sumOf (⟨4, 15, 2⟩ : PointG1 toy) toy.q) = true ∧
    ∃ Ra Rb Rsum Rmul Rnest,
      MulScalar toy (0 + 4) (⟨4, 15, 2⟩ : PointG1 toy) ((5 : ℕ) : ℤ) = .ok Ra ∧
      MulScalar toy (0 + 4) (⟨4, 15, 2⟩ : PointG1 toy) ((4 : ℕ) : ℤ) = .ok Rb ∧
      MulScalar toy (0 + 4) (⟨4, 15, 2⟩ : PointG1 toy) ((5 + 4 : ℕ) : ℤ) = .ok Rsum ∧
      Equal Rsum (Add Ra Rb) = true ∧
      MulScalar toy (0 + 4) (⟨4, 15, 2⟩ : PointG1 toy) ((5 * 4 : ℕ) : ℤ) = .ok Rmul ∧
      MulScalar toy (0 + 4) Rb ((5 : ℕ) : ℤ) = .ok Rnest ∧
      Equal Rmul Rnest = true :=
  ⟨toy_lawful, by decide, by decide,
    mulScalar_add_mul toy toy_lawful 0 ⟨4, 15, 2⟩ 5 4 (by decide) (by decide)⟩

/-! ## Multi-exponentiation against the naive sum -/

section MultiExpFacts

variable {E : Params}

theorem isOnCurve_zero : IsOnCurve (Zero E) = true := rep_isOnCurve rep_zero

/-- An interpretation of the triples of the code in the group of the curve:
every triple on the curve stands for its point. -/
theorem exists_interp (hE : E.Lawful) :
    ∃ ι : PointG1 E → (curveW E).toAffine.Point, ∀ P, IsOnCurve P = true → Rep P (ι P) := by
  classical
  refine ⟨fun P => if h : IsOnCurve P = true then Classical.choose (rep_exists hE P h) else 0,
    fun P h => ?_⟩
  simp only [h, dif_pos]
  exact Classical.choose_spec (rep_exists hE P h)

variable [Fact E.p.Prime]

theorem interp_add (hE : E.Lawful) {ι : PointG1 E → (curveW E).toAffine.Point}
    (hι : ∀ P, IsOnCurve P = true → Rep P (ι P)) {P Q : PointG1 E}
    (hP : IsOnCurve P = true) (hQ : IsOnCurve Q = true) :
    IsOnCurve (Add P Q) = true ∧ ι (Add P Q) = ι P + ι Q := by
  have h := rep_add hE (hι P hP) (hι Q hQ)
  have hon := rep_isOnCurve h
  exact ⟨hon, rep_unique hE (hι _ hon) h⟩

theorem interp_double (hE : E.Lawful) {ι : PointG1 E → (curveW E).toAffine.Point}
    (hι : ∀ P, IsOnCurve P = true → Rep P (ι P)) {P : PointG1 E}
    (hP : IsOnCurve P = true) :
    IsOnCurve (Double P) = true ∧ ι (Double P) = 2 • ι P := by
  have h := rep_double hE (hι P hP)
  have hon := rep_isOnCurve h
  rw [two_nsmul]
  exact ⟨hon, rep_unique hE (hι _ hon) h⟩

omit [Fact E.p.Prime] in
theorem interp_zero (hE : E.Lawful) {ι : PointG1 E → (curveW E).toAffine.Point}
    (hι : ∀ P, IsOnCurve P = true → Rep P (ι P)) : ι (Zero E) = 0 :=
  rep_unique hE (hι _ isOnCurve_zero) rep_zero

theorem interp_double_iter (hE : E.Lawful) {ι : PointG1 E → (curveW E).toAffine.Point}
    (hι : ∀ P, IsOnCurve P = true → Rep P (ι P)) (c : ℕ) {P : PointG1 E}
    (hP : IsOnCurve P = true) :
    IsOnCurve (Double^[c] P) = true ∧ ι (Double^[c] P) = 2 ^ c • ι P := by
  induction c with
  | zero => simpa using hP
  | succ c ih =>
    rw [Function.iterate_succ_apply']
    obtain ⟨h1, h2⟩ := interp_double hE hι ih.1
    refine ⟨h1, ?_⟩
    rw [h2, ih.2, ← mul_nsmul, pow_succ]

omit [Fact E.p.Prime] in
theorem getD_set (B : List (PointG1 E)) (i k : ℕ) (v d : PointG1 E) (hi : i < B.length) :
    (B.set i v).getD k d = if i = k then v else B.getD k d := by
  rw [List.getD_eq_getElem?_getD, List.getD_eq_getElem?_getD, List.getElem?_set]
  by_cases h : i = k
  · rw [if_pos h, if_pos h, if_pos hi]
    rfl
  · rw [if_neg h, if_neg h]

omit [Fact E.p.Prime] in
theorem getD_mem_or (B : List (PointG1 E)) (k : ℕ) (d : PointG1 E) :
    B.getD k d ∈ B ∨ B.getD k d = d := by
  by_cases h : k < B.length
  · left
    rw [List.getD_eq_getElem _ _ h]
    exact List.getElem_mem h
  · right
    simp [List.getD_eq_getElem?_getD, List.getElem?_eq_none (not_lt.1 h)]

omit [Fact E.p.Prime] in
theorem isOnCurve_getD (B : List (PointG1 E)) (hB : ∀ b ∈ B, IsOnCurve b = true) (k : ℕ) :
    IsOnCurve (B.getD k (Zero E)) = true := by
  rcases getD_mem_or B k (Zero E) with h | h
  · exact hB _ h
  · rw [h]
    exact isOnCurve_zero

/-- The buckets of one window: after the pairs are distributed, the sum of the
buckets weighted by their index grows by index times point for every pair. -/
theorem bucket_fold (hE : E.Lawful) {ι : PointG1 E → (curveW E).toAffine.Point}
    (hι : ∀ P, IsOnCurve P = true → Rep P (ι P)) (n mask : ℕ)
    (hmask : ∀ s : ℕ, s % 2 ^ 64 &&& mask < n)
    (ps : List (PointG1 E × ℕ)) (hps : ∀ p ∈ ps, IsOnCurve p.1 = true)
    (B : List (PointG1 E)) (hlen : B.length = n) (hB : ∀ b ∈ B, IsOnCurve b = true) :
    (ps.foldl
        (fun (bucket : List (PointG1 E)) (ps : PointG1 E × ℕ) =>
          bucket.set (ps.2 % 2 ^ 64 &&& mask)
            (Add (bucket.getD (ps.2 % 2 ^ 64 &&& mask) (Zero E)) ps.1)) B).length = n ∧
      (∀ b ∈ ps.foldl
        (fun (bucket : List (PointG1 E)) (ps : PointG1 E × ℕ) =>
          bucket.set (ps.2 % 2 ^ 64 &&& mask)
            (Add (bucket.getD (ps.2 % 2 ^ 64 &&& mask) (Zero E)) ps.1)) B,
          IsOnCurve b = true) ∧
      ∑ k in Finset.range n, k • ι ((ps.foldl
        (fun (bucket : List (PointG1 E)) (ps : PointG1 E × ℕ) =>
          bucket.set (ps.2 % 2 ^ 64 &&& mask)
            (Add (bucket.getD (ps.2 % 2 ^ 64 &&& mask) (Zero E)) ps.1)) B).getD k (Zero E)) =
        ∑ k in Finset.range n, k • ι (B.getD k (Zero E)) +
          (ps.map fun p => (p.2 % 2 ^ 64 &&& mask) • ι p.1).sum := by
  induction ps generalizing B with
  | nil => exact ⟨hlen, hB, by simp⟩
  | cons p ps ih =>
    have hi : p.2 % 2 ^ 64 &&& mask < B.length := by rw [hlen]; exact hmask _
    have hp : IsOnCurve p.1 = true := hps p (List.mem_cons_self _ _)
    have hbi := isOnCurve_getD B hB (p.2 % 2 ^ 64 &&& mask)
    obtain ⟨hv, hιv⟩ := interp_add hE hι hbi hp
    have hB1 : ∀ b ∈ B.set (p.2 % 2 ^ 64 &&& mask)
        (Add (B.getD (p.2 % 2 ^ 64 &&& mask) (Zero E)) p.1), IsOnCurve b = true := by
      intro b hb
      rcases List.mem_or_eq_of_mem_set hb with h | h
      · exact hB b h
      · rw [h]; exact hv
    obtain ⟨h1, h2, h3⟩ := ih (fun q hq => hps q (List.mem_cons_of_mem _ hq))
      (B.set (p.2 % 2 ^ 64 &&& mask) (Add (B.getD (p.2 % 2 ^ 64 &&& mask) (Zero E)) p.1))
      (by rw [List.length_set, hlen]) hB1
    refine ⟨h1, h2, ?_⟩
    rw [List.foldl_cons, h3, List.map_cons, List.sum_cons, ← add_assoc]
    congr 1
    have e : ∀ k, k • ι ((B.set (p.2 % 2 ^ 64 &&& mask)
        (Add (B.getD (p.2 % 2 ^ 64 &&& mask) (Zero E)) p.1)).getD k (Zero E)) =
        k • ι (B.getD k (Zero E)) +
          (if p.2 % 2 ^ 64 &&& mask = k then k • ι p.1 else 0) := by
      intro k
      rw [getD_set B _ k _ _ hi]
      by_cases hk : p.2 % 2 ^ 64 &&& mask = k
      · rw [if_pos hk, if_pos hk, hιv, hk, nsmul_add]
      · rw [if_neg hk, if_neg hk, add_zero]
    simp only [e, Finset.sum_add_distrib]
    congr 1
    rw [Finset.sum_ite_eq, if_pos (Finset.mem_range.2 (hmask _))]

/-- The running-sum loop over the buckets: the accumulator ends as the sum of
the listed points weighted by one more than their index. -/
theorem sum_loop (hE : E.Lawful) {ι : PointG1 E → (curveW E).toAffine.Point}
    (hι : ∀ P, IsOnCurve P = true → Rep P (ι P))
    (L : List (PointG1 E)) (hL : ∀ b ∈ L, IsOnCurve b = true) :
    IsOnCurve (L.foldr
        (fun (b : PointG1 E) (sa : PointG1 E × PointG1 E) =>
          (Add sa.1 b, Add sa.2 (Add sa.1 b))) (Zero E, Zero E)).1 = true ∧
      IsOnCurve (L.foldr
        (fun (b : PointG1 E) (sa : PointG1 E × PointG1 E) =>
          (Add sa.1 b, Add sa.2 (Add sa.1 b))) (Zero E, Zero E)).2 = true ∧
      ι (L.foldr
        (fun (b : PointG1 E) (sa : PointG1 E × PointG1 E) =>
          (Add sa.1 b, Add sa.2 (Add sa.1 b))) (Zero E, Zero E)).1 =
        ∑ k in Finset.range L.length, ι (L.getD k (Zero E)) ∧
      ι (L.foldr
        (fun (b : PointG1 E) (sa : PointG1 E × PointG1 E) =>
          (Add sa.1 b, Add sa.2 (Add sa.1 b))) (Zero E, Zero E)).2 =
        ∑ k in Finset.range L.length, (k + 1) • ι (L.getD k (Zero E)) := by
  induction L with
  | nil =>
    simp only [List.foldr_nil, List.length_nil, Finset.range_zero, Finset.sum_empty]
    exact ⟨isOnCurve_zero, isOnCurve_zero, interp_zero hE hι, interp_zero hE hι⟩
  | cons b L ih =>
    obtain ⟨h1, h2, h3, h4⟩ := ih (fun q hq => hL q (List.mem_cons_of_mem _ hq))
    have hb : IsOnCurve b = true := hL b (List.mem_cons_self _ _)
    obtain ⟨hs, hιs⟩ := interp_add hE hι h1 hb
    obtain ⟨ha, hιa⟩ := interp_add hE hι h2 hs
    simp only [List.foldr_cons, List.length_cons]
    refine ⟨hs, ha, ?_, ?_⟩
    · rw [hιs, h3, Finset.sum_range_succ']
      simp only [List.getD_cons_succ, List.getD_cons_zero]
    · rw [hιa, hιs, h3, h4, Finset.sum_range_succ']
      simp only [List.getD_cons_succ, List.getD_cons_zero, zero_add, one_nsmul]
      have e : ∀ k, (k + 1 + 1) • ι (L.getD k (Zero E)) =
          (k + 1) • ι (L.getD k (Zero E)) + ι (L.getD k (Zero E)) := fun k => succ_nsmul _ _
      simp only [e, Finset.sum_add_distrib]
      abel

omit [Fact E.p.Prime] in
theorem getD_drop_one (B : List (PointG1 E)) (k : ℕ) (d : PointG1 E) :
    (B.drop 1).getD k d = B.getD (k + 1) d := by
  rw [List.getD_eq_getElem?_getD, List.getD_eq_getElem?_getD, List.getElem?_drop, add_comm]

omit [Fact E.p.Prime] in
theorem getD_replicate_self (n k : ℕ) (d : PointG1 E) : (List.replicate n d).getD k d = d := by
  rw [List.getD_eq_getElem?_getD, List.getElem?_replicate]
  by_cases h : k < n
  · rw [if_pos h]; rfl
  · rw [if_neg h]; rfl

theorem mask_index (c : ℕ) (hc : c ≤ 62) (s : ℕ) :
    s % 2 ^ 64 &&& (2 ^ c - 1) = s % 2 ^ c := by
  rw [Nat.and_pow_two_sub_one_eq_mod]
  exact Nat.mod_mod_of_dvd s (pow_dvd_pow 2 (by omega))

theorem sum_index_shift (f : ℕ → (curveW E).toAffine.Point) (n : ℕ) (hn : 0 < n) :
    ∑ k in Finset.range n, k • f k = ∑ k in Finset.range (n - 1), (k + 1) • f (k + 1) := by
  obtain ⟨m, rfl⟩ : ∃ m, n = m + 1 := ⟨n - 1, by omega⟩
  rw [Finset.sum_range_succ', zero_nsmul, add_zero, Nat.add_sub_cancel]

/-- The value of one window: the sum of the points weighted by the low `c`
bits of their current scalars. -/
theorem windowSum_spec (hE : E.Lawful) {ι : PointG1 E → (curveW E).toAffine.Point}
    (hι : ∀ P, IsOnCurve P = true → Rep P (ι P)) (c : ℕ) (hc : c ≤ 62)
    (points : List (PointG1 E)) (hpts : ∀ P ∈ points, IsOnCurve P = true) (F : List ℕ) :
    IsOnCurve (windowSum E c (2 ^ c - 1) points F) = true ∧
      ι (windowSum E c (2 ^ c - 1) points F) =
        ((points.zip F).map fun p => (p.2 % 2 ^ c) • ι p.1).sum := by
  have hmask : ∀ s : ℕ, s % 2 ^ 64 &&& (2 ^ c - 1) < 2 ^ c := by
    intro s
    rw [mask_index c hc]
    exact Nat.mod_lt _ (by positivity)
  have hps : ∀ p ∈ points.zip F, IsOnCurve p.1 = true := by
    intro p hp
    exact hpts _ (List.of_mem_zip hp).1
  obtain ⟨h1, h2, h3⟩ := bucket_fold hE hι (2 ^ c) (2 ^ c - 1) hmask (points.zip F) hps
    (List.replicate (2 ^ c) (Zero E)) (List.length_replicate _ _)
    (fun b hb => by rw [List.eq_of_mem_replicate hb]; exact isOnCurve_zero)
  obtain ⟨-, g2, -, g4⟩ := sum_loop hE hι _ (fun b hb => h2 b (List.mem_of_mem_drop hb))
  refine ⟨g2, ?_⟩
  unfold windowSum
  dsimp only
  rw [g4]
  have hpos : 0 < 2 ^ c := by positivity
  have e0 : ∑ k in Finset.range (2 ^ c),
      k • ι ((List.replicate (2 ^ c) (Zero E)).getD k (Zero E)) = 0 := by
    apply Finset.sum_eq_zero
    intro k _
    rw [getD_replicate_self, interp_zero hE hι, nsmul_zero]
  rw [e0, zero_add] at h3
  have e1 : ∀ p : PointG1 E × ℕ,
      (p.2 % 2 ^ 64 &&& (2 ^ c - 1)) • ι p.1 = (p.2 % 2 ^ c) • ι p.1 := by
    intro p
    rw [mask_index c hc]
  simp only [e1] at h3
  rw [← h3, List.length_drop, h1, sum_index_shift _ _ hpos]
  simp only [getD_drop_one]

omit [Fact E.p.Prime] in
theorem windowLoop_zero (c nb mask : ℕ) (pts : List (PointG1 E)) (cur j : ℕ) (F : List ℕ)
    (ws : List (Option (PointG1 E))) :
    windowLoop E c nb mask pts 0 cur j F ws =
      if cur < nb then .error .noFuel else .ok ws := by
  rfl

omit [Fact E.p.Prime] in
theorem windowLoop_succ (c nb mask : ℕ) (pts : List (PointG1 E)) (fuel cur j : ℕ)
    (F : List ℕ) (ws : List (Option (PointG1 E))) :
    windowLoop E c nb mask pts (fuel + 1) cur j F ws =
      if cur < nb then
        if j < ws.length then
          windowLoop E c nb mask pts fuel ((cur + c) % 2 ^ 32) (j + 1)
            (F.map fun s => s / 2 ^ c) (ws.set j (some (windowSum E c mask pts F)))
        else .error (.panic "index out of range")
      else .ok ws := by
  rfl

theorem window_count (c nb j : ℕ) (hc : 1 ≤ c) : c * j < nb ↔ j < (nb + c - 1) / c := by
  rw [Nat.lt_iff_add_one_le (m := j), Nat.le_div_iff_mul_le (by omega)]
  have e : (j + 1) * c = c * j + c := by ring
  rw [e]
  generalize c * j = x
  omega

omit [Fact E.p.Prime] in
theorem set_filled (ws : List (PointG1 E)) (m : ℕ) (v : PointG1 E) :
    (ws.map some ++ List.replicate (m + 1) none).set ws.length (some v) =
      (ws ++ [v]).map some ++ List.replicate m none := by
  rw [List.set_append_right _ _ (by simp)]
  simp [List.replicate_succ]

/-- The window loop fills every window: window `t` after the current one gets
the sum of the points weighted by digit `t` of their current scalars. -/
theorem windowLoop_spec (hE : E.Lawful) {ι : PointG1 E → (curveW E).toAffine.Point}
    (hι : ∀ P, IsOnCurve P = true → Rep P (ι P)) (c : ℕ) (hc1 : 1 ≤ c) (hc2 : c ≤ 62)
    (nb : ℕ) (hnb : nb + c < 2 ^ 32)
    (points : List (PointG1 E)) (hpts : ∀ P ∈ points, IsOnCurve P = true) :
    ∀ (m fuel j : ℕ) (F : List ℕ) (ws : List (PointG1 E)), ws.length = j →
      j + m = (nb + c - 1) / c → m ≤ fuel →
      ∃ ws', windowLoop E c nb (2 ^ c - 1) points fuel (c * j) j F
            (ws.map some ++ List.replicate m none) = .ok ((ws ++ ws').map some) ∧
        ws'.length = m ∧
        ∀ t < m, IsOnCurve (ws'.getD t (Zero E)) = true ∧
          ι (ws'.getD t (Zero E)) =
            ((points.zip F).map fun p => (p.2 / 2 ^ (c * t) % 2 ^ c) • ι p.1).sum := by
  intro m
  induction m with
  | zero =>
    intro fuel j F ws _ hj _
    have hcur : ¬ c * j < nb := by
      rw [window_count c nb j hc1]
      omega
    refine ⟨[], ?_, rfl, fun t ht => absurd ht (Nat.not_lt_zero t)⟩
    cases fuel with
    | zero => rw [windowLoop_zero, if_neg hcur]; simp
    | succ f => rw [windowLoop_succ, if_neg hcur]; simp
  | succ m ih =>
    intro fuel j F ws hlen hj hfuel
    obtain ⟨f, rfl⟩ : ∃ f, fuel = f + 1 := ⟨fuel - 1, by omega⟩
    have hcur : c * j < nb := by
      rw [window_count c nb j hc1]
      omega
    have hjlen : j < (ws.map some ++ List.replicate (m + 1) (none : Option (PointG1 E))).length := by
      simp [hlen]
    have hnext : (c * j + c) % 2 ^ 32 = c * (j + 1) := by
      rw [Nat.mod_eq_of_lt (by omega)]
      ring
    obtain ⟨hw1, hw2⟩ := windowSum_spec hE hι c hc2 points hpts F
    obtain ⟨ws', h1, h2, h3⟩ := ih f (j + 1) (F.map fun s => s / 2 ^ c)
      (ws ++ [windowSum E c (2 ^ c - 1) points F]) (by simp [hlen]) (by omega) (by omega)
    refine ⟨windowSum E c (2 ^ c - 1) points F :: ws', ?_, by simp [h2], ?_⟩
    · rw [windowLoop_succ, if_pos hcur, if_pos hjlen, hnext, ← hlen, set_filled, hlen, h1]
      simp
    · intro t ht
      cases t with
      | zero =>
        refine ⟨hw1, ?_⟩
        rw [List.getD_cons_zero, hw2]
        simp
      | succ t =>
        obtain ⟨g1, g2⟩ := h3 t (by omega)
        refine ⟨g1, ?_⟩
        rw [List.getD_cons_succ, g2, List.zip_map_right, List.map_map]
        congr 1
        apply List.map_congr_left
        intro p _
        simp only [Function.comp, Prod.map, id]
        rw [Nat.div_div_eq_div_mul, ← pow_add]
        congr 3
        ring

/-- The final loop over the windows, from the highest down: Horner evaluation
in base `2^c`. -/
theorem combine_spec (hE : E.Lawful) {ι : PointG1 E → (curveW E).toAffine.Point}
    (hι : ∀ P, IsOnCurve P = true → Rep P (ι P)) (c : ℕ)
    (ws : List (PointG1 E)) (hws : ∀ w ∈ ws, IsOnCurve w = true) :
    ∃ acc, (ws.map some).foldr
          (fun (w : Option (PointG1 E)) (acc : Res (PointG1 E)) =>
            acc.bind fun acc =>
              match w with
              | none => .error (.panic "nil pointer dereference")
              | some w => .ok (Add (Double^[c] acc) w))
          (.ok (Zero E)) = .ok acc ∧
      IsOnCurve acc = true ∧
      ι acc = ∑ j in Finset.range ws.length, 2 ^ (c * j) • ι (ws.getD j (Zero E)) := by
  induction ws with
  | nil =>
    refine ⟨Zero E, rfl, isOnCurve_zero, ?_⟩
    simp [interp_zero hE hι]
  | cons w ws ih =>
    obtain ⟨acc, h1, h2, h3⟩ := ih (fun q hq => hws q (List.mem_cons_of_mem _ hq))
    obtain ⟨d1, d2⟩ := interp_double_iter hE hι c h2
    obtain ⟨a1, a2⟩ := interp_add hE hι d1 (hws w (List.mem_cons_self _ _))
    refine ⟨Add (Double^[c] acc) w, ?_, a1, ?_⟩
    · rw [List.map_cons, List.foldr_cons, h1]
      rfl
    · rw [a2, d2, h3, List.length_cons, Finset.sum_range_succ', Finset.smul_sum]
      simp only [List.getD_cons_succ, List.getD_cons_zero, mul_zero, pow_zero, one_nsmul]
      congr 1
      apply Finset.sum_congr rfl
      intro j _
      rw [← mul_nsmul, ← pow_add, Nat.mul_succ]

omit [Fact E.p.Prime] in
theorem digits_sum (c s W : ℕ) :
    ∑ j in Finset.range W, 2 ^ (c * j) * (s / 2 ^ (c * j) % 2 ^ c) = s % 2 ^ (c * W) := by
  induction W with
  | zero => simp [Nat.mod_one]
  | succ W ih =>
    rw [Finset.sum_range_succ, ih]
    have e : 2 ^ (c * (W + 1)) = (2 ^ c) ^ (W + 1) := by rw [← pow_mul]
    have e' : 2 ^ (c * W) = (2 ^ c) ^ W := by rw [← pow_mul]
    rw [e, e', Nat.mod_pow_succ]

/-- Exchanging the sum over the windows with the sum over the pairs. -/
theorem windows_total {ι : PointG1 E → (curveW E).toAffine.Point} (c W : ℕ)
    (ps : List (PointG1 E × ℕ)) :
    ∑ j in Finset.range W,
        2 ^ (c * j) • ((ps.map fun p => (p.2 / 2 ^ (c * j) % 2 ^ c) • ι p.1).sum) =
      (ps.map fun p => (p.2 % 2 ^ (c * W)) • ι p.1).sum := by
  induction ps with
  | nil =>
    simp only [List.map_nil, List.sum_nil, nsmul_zero]
    exact Finset.sum_const_zero
  | cons p ps ih =>
    simp only [List.map_cons, List.sum_cons, nsmul_add, Finset.sum_add_distrib]
    rw [ih]
    congr 1
    rw [← digits_sum c p.2 W, Finset.sum_smul]
    apply Finset.sum_congr rfl
    intro j _
    rw [smul_smul]

omit [Fact E.p.Prime] in
theorem bitLenAux_le (f n k : ℕ) (h : n < 2 ^ k) : bitLenAux f n ≤ k := by
  induction f generalizing n k with
  | zero => simp [bitLenAux]
  | succ f ih =>
    by_cases h0 : n = 0
    · simp [bitLenAux, h0]
    · simp only [bitLenAux, h0, if_false]
      obtain ⟨k', rfl⟩ : ∃ k', k = k' + 1 := by
        cases k with
        | zero =>
          exfalso
          simp at h
          exact h0 h
        | succ k' => exact ⟨k', rfl⟩
      have h1 : n / 2 < 2 ^ k' := by
        apply Nat.div_lt_of_lt_mul
        rw [pow_succ] at h
        omega
      have := ih (n / 2) k' h1
      omega

/-- The naive sum: every product is a point, and the total stands for the sum
of the reduced scalars times the points. -/
theorem naive_spec (hE : E.Lawful) {ι : PointG1 E → (curveW E).toAffine.Point}
    (hι : ∀ P, IsOnCurve P = true → Rep P (ι P)) (fuel : ℕ)
    (ps : List (PointG1 E × ℕ)) (hps : ∀ p ∈ ps, IsOnCurve p.1 = true) :
    ∀ acc : PointG1 E, IsOnCurve acc = true →
      ∃ N, (ps.map (Prod.map id fun n : ℕ => (n : ℤ))).foldlM
            (fun (acc : PointG1 E) (pe : PointG1 E × ℤ) =>
              (MulScalar E (fuel + 4) pe.1 pe.2).bind fun m => Except.ok (Add acc m)) acc =
          .ok N ∧
        IsOnCurve N = true ∧
        ι N = ι acc + (ps.map fun p => (p.2 % E.q) • ι p.1).sum := by
  induction ps with
  | nil =>
    intro acc hacc
    exact ⟨acc, rfl, hacc, by simp⟩
  | cons p ps ih =>
    intro acc hacc
    have hp : IsOnCurve p.1 = true := hps p (List.mem_cons_self _ _)
    obtain ⟨R, hR, hrep⟩ := mulScalar_rep hE fuel p.1 p.2 (ι p.1) (hι _ hp)
    have hRon := rep_isOnCurve hrep
    have hιR : ι R = (p.2 % E.q) • ι p.1 := rep_unique hE (hι _ hRon) hrep
    obtain ⟨a1, a2⟩ := interp_add hE hι hacc hRon
    obtain ⟨N, h1, h2, h3⟩ := ih (fun q hq => hps q (List.mem_cons_of_mem _ hq)) (Add acc R) a1
    refine ⟨N, ?_, h2, ?_⟩
    · rw [List.map_cons, List.foldlM_cons]
      simp only [Prod.map, id, hR, Except.bind, bind]
      exact h1
    · rw [h3, a2, hιR, List.map_cons, List.sum_cons, add_assoc]

omit [Fact E.p.Prime] in
theorem mem_getD (ws : List (PointG1 E)) (w : PointG1 E) (hw : w ∈ ws) :
    ∃ t, t < ws.length ∧ ws.getD t (Zero E) = w := by
  obtain ⟨t, ht, rfl⟩ := List.mem_iff_getElem.1 hw
  exact ⟨t, ht, List.getD_eq_getElem _ _ ht⟩

/-- The body of `MultiExp` for a window size between 1 and 62: it returns a
point on the curve that stands for the sum of the reduced scalars times the
points. -/
theorem multiExpWith_rep (hE : E.Lawful) {ι : PointG1 E → (curveW E).toAffine.Point}
    (hι : ∀ P, IsOnCurve P = true → Rep P (ι P)) (c : ℕ) (hc1 : 1 ≤ c) (hc2 : c ≤ 62)
    (points : List (PointG1 E)) (hpts : ∀ P ∈ points, IsOnCurve P = true)
    (scalars : List ℕ) :
    ∃ R, multiExpWith E c points (scalars.map fun n : ℕ => (n : ℤ)) = .ok R ∧
      IsOnCurve R = true ∧
      ι R = ((points.zip scalars).map fun p => (p.2 % E.q) • ι p.1).sum := by
  have hq := hE.q_lt
  have hnb255 : BitLen E.q ≤ 255 := bitLenAux_le _ _ _ hq
  have hnb : BitLen E.q % 2 ^ 32 = BitLen E.q := Nat.mod_eq_of_lt (by omega)
  have hF : ((scalars.map fun n : ℕ => (n : ℤ)).map fun p : ℤ => (p % (E.q : ℤ)).toNat) =
      scalars.map fun n => n % E.q := by
    rw [List.map_map]
    apply List.map_congr_left
    intro n _
    exact toNat_emod n E.q
  have hW : (BitLen E.q + c - 1) % 2 ^ 32 / c = (BitLen E.q + c - 1) / c := by
    rw [Nat.mod_eq_of_lt (by omega)]
  have hmask : (2 ^ c + 2 ^ 64 - 1) % 2 ^ 64 = 2 ^ c - 1 := by
    have h1 : 0 < 2 ^ c := by positivity
    have h2 : 2 ^ c ≤ 2 ^ 62 := Nat.pow_le_pow_right (by norm_num) hc2
    have e : 2 ^ c + 2 ^ 64 - 1 = (2 ^ c - 1) + 2 ^ 64 := by omega
    rw [e, Nat.add_mod_right, Nat.mod_eq_of_lt]
    have : (2 : ℕ) ^ 62 < 2 ^ 64 := by norm_num
    omega
  have hWle : (BitLen E.q + c - 1) / c ≤ BitLen E.q := by
    apply Nat.le_of_lt_succ
    rw [Nat.div_lt_iff_lt_mul (by omega)]
    have : BitLen E.q * 1 ≤ BitLen E.q * c := Nat.mul_le_mul_left _ hc1
    have e : (BitLen E.q).succ * c = BitLen E.q * c + c := by
      rw [Nat.succ_mul]
    rw [e]
    omega
  obtain ⟨ws, h1, h2, h3⟩ := windowLoop_spec hE hι c hc1 hc2 (BitLen E.q) (by omega) points hpts
    ((BitLen E.q + c - 1) / c) (BitLen E.q) 0 (scalars.map fun n => n % E.q) []
    rfl (by omega) hWle
  have hws : ∀ w ∈ ws, IsOnCurve w = true := by
    intro w hw
    obtain ⟨t, ht, rfl⟩ := mem_getD ws w hw
    exact (h3 t (by omega)).1
  obtain ⟨acc, g1, g2, g3⟩ := combine_spec hE hι c ws hws
  refine ⟨acc, ?_, g2, ?_⟩
  · unfold multiExpWith
    dsimp only
    rw [if_neg (by omega), if_neg (by omega), hF, hnb, hW, hmask]
    simp only [List.map_nil, List.nil_append, mul_zero] at h1
    rw [h1]
    exact g1
  · rw [g3, h2]
    have e1 : ∀ j ∈ Finset.range ((BitLen E.q + c - 1) / c),
        2 ^ (c * j) • ι (ws.getD j (Zero E)) =
          2 ^ (c * j) • ((points.zip (scalars.map fun n => n % E.q)).map
            fun p => (p.2 / 2 ^ (c * j) % 2 ^ c) • ι p.1).sum := by
      intro j hj
      rw [(h3 j (Finset.mem_range.1 hj)).2]
    rw [Finset.sum_congr rfl e1, windows_total, List.zip_map_right, List.map_map]
    apply congrArg List.sum
    apply List.map_congr_left
    intro p _
    simp only [Function.comp, Prod.map, id]
    apply congrArg (fun n : ℕ => n • ι p.1)
    apply Nat.mod_eq_of_lt
    have hcW : BitLen E.q ≤ c * ((BitLen E.q + c - 1) / c) := by
      by_contra hcon
      exact absurd ((window_count c _ _ hc1).1 (not_le.1 hcon)) (lt_irrefl _)
    calc p.2 % E.q < E.q := Nat.mod_lt _ (by have := hE.q_gt; omega)
      _ < 2 ^ BitLen E.q := lt_two_pow_bitLen _
      _ ≤ 2 ^ (c * ((BitLen E.q + c - 1) / c)) := Nat.pow_le_pow_right (by norm_num) hcW

theorem multiExpWith_eq_naive (hE : E.Lawful) (fuel c : ℕ) (hc1 : 1 ≤ c) (hc2 : c ≤ 62)
    (points : List (PointG1 E)) (hpts : ∀ P ∈ points, IsOnCurve P = true)
    (scalars : List ℕ) :
    ∃ R N, multiExpWith E c points (scalars.map fun n : ℕ => (n : ℤ)) = .ok R ∧
      naiveMultiExp E (fuel + 4) points (scalars.map fun n : ℕ => (n : ℤ)) = .ok N ∧
      Equal R N = true := by
  obtain ⟨ι, hι⟩ := exists_interp hE
  obtain ⟨R, h1, h2, h3⟩ := multiExpWith_rep hE hι c hc1 hc2 points hpts scalars
  have hps : ∀ p ∈ points.zip scalars, IsOnCurve p.1 = true := by
    intro p hp
    exact hpts _ (List.of_mem_zip hp).1
  obtain ⟨N, g1, g2, g3⟩ := naive_spec hE hι fuel (points.zip scalars) hps (Zero E)
    isOnCurve_zero
  refine ⟨R, N, h1, ?_, ?_⟩
  · unfold naiveMultiExp
    rw [List.zip_map_right]
    exact g1
  · rw [interp_zero hE hι, zero_add] at g3
    exact (rep_equal hE (hι R h2) (hι N g2)).2 (h3.trans g3.symm)

end MultiExpFacts

/-- C9. For equal-length vectors of points on the curve and non-negative
scalars, of any length, `MultiExp` returns a point `Equal` to the naive sum of
the products `MulScalar points[i] scalars[i]` accumulated with `Add`; so does
its body for every window size from 1 to 62, which covers every value the
heuristic selects (3 below 32 pairs). When the lengths differ, `MultiExp`
returns an error. -/
theorem multiExp_eq_naive (E : Params) (hE : E.Lawful) (fuel : ℕ) (ceilLog10 : ℕ → ℕ)
    (hceil : ∀ n, 32 ≤ n → 1 ≤ ceilLog10 n ∧ ceilLog10 n ≤ 62)
    (points : List (PointG1 E)) (scalars : List ℕ)
    (hlen : points.length = scalars.length) (hon : ∀ P ∈ points, IsOnCurve P = true) :
    (∃ R N, MultiExp E ceilLog10 points (scalars.map fun n : ℕ => (n : ℤ)) = .ok R ∧
        naiveMultiExp E (fuel + 4) points (scalars.map fun n : ℕ => (n : ℤ)) = .ok N ∧
        Equal R N = true) ∧
    (∀ c, 1 ≤ c → c ≤ 62 →
      ∃ R N, multiExpWith E c points (scalars.map fun n : ℕ => (n : ℤ)) = .ok R ∧
        naiveMultiExp E (fuel + 4) points (scalars.map fun n : ℕ => (n : ℤ)) = .ok N ∧
        Equal R N = true) ∧
    (∀ powers : List ℤ, points.length ≠ powers.length →
      MultiExp E ceilLog10 points powers =
        .error (.err "point and scalar vectors should be in same length")) := by
  haveI : Fact E.p.Prime := ⟨hE.prime⟩
  refine ⟨?_, fun c hc1 hc2 => multiExpWith_eq_naive hE fuel c hc1 hc2 points hon scalars,
    fun powers hne => by simp [MultiExp, hne]⟩
  have hl : ¬ points.length ≠ (scalars.map fun n : ℕ => (n : ℤ)).length := by
    simp [hlen]
  unfold MultiExp
  rw [if_neg hl]
  dsimp only
  by_cases h32 : (scalars.map fun n : ℕ => (n : ℤ)).length ≥ 32
  · rw [if_pos h32]
    obtain ⟨c1, c2⟩ := hceil _ h32
    rw [Nat.mod_eq_of_lt (by omega)]
    exact multiExpWith_eq_naive hE fuel _ c1 c2 points hon scalars
  · rw [if_neg h32]
    exact multiExpWith_eq_naive hE fuel 3 (by norm_num) (by norm_num) points hon scalars

set_option maxRecDepth 100000 in
/-- Witness for C9: three points of the small curve, one of them in a Jacobian
form with `Z = 2`, with the scalars 5, 9 and 3. -/
theorem multiExp_eq_naive_witness :
    toy.Lawful ∧
    (∀ n, 32 ≤ n → 1 ≤ (fun _ : ℕ => 2) n ∧ (fun _ : ℕ => 2) n ≤ 62) ∧
    ([⟨4, 15, 2⟩, ⟨0, 2, 1⟩, ⟨4, 7, 1⟩] : List (PointG1 toy)).length = [5, 9, 3].length ∧
    (∀ P ∈ ([⟨4, 15, 2⟩, ⟨0, 2, 1⟩, ⟨4, 7, 1⟩] : List (PointG1 toy)), IsOnCurve P = true) ∧
    ((∃ R N, MultiExp toy (fun _ => 2) [⟨4, 15, 2⟩, ⟨0, 2, 1⟩, ⟨4, 7, 1⟩]
          ([5, 9, 3].map fun n : ℕ => (n : ℤ)) = .ok R ∧
        naiveMultiExp toy (0 + 4) [⟨4, 15, 2⟩, ⟨0, 2, 1⟩, ⟨4, 7, 1⟩]
          ([5, 9, 3].map fun n : ℕ => (n : ℤ)) = .ok N ∧
        Equal R N = true) ∧
      (∀ c, 1 ≤ c → c ≤ 62 →
        ∃ R N, multiExpWith toy c [⟨4, 15, 2⟩, ⟨0, 2, 1⟩, ⟨4, 7, 1⟩]
            ([5, 9, 3].map fun n : ℕ => (n : ℤ)) = .ok R ∧
          naiveMultiExp toy (0 + 4) [⟨4, 15, 2⟩, ⟨0, 2, 1⟩, ⟨4, 7, 1⟩]
            ([5, 9, 3].map fun n : ℕ => (n : ℤ)) = .ok N ∧
          Equal R N = true) ∧
      (∀ powers : List ℤ,
        ([⟨4, 15, 2⟩, ⟨0, 2, 1⟩, ⟨4, 7, 1⟩] : List (PointG1 toy)).length ≠ powers.length →
        MultiExp toy (fun _ => 2) [⟨4, 15, 2⟩, ⟨0, 2, 1⟩, ⟨4, 7, 1⟩] powers =
          .error (.err "point and scalar vectors should be in same length"))) :=
  ⟨toy_lawful, fun _ _ => ⟨by norm_num, by norm_num⟩, rfl, by decide,
    multiExp_eq_naive toy toy_lawful 0 (fun _ => 2) (fun _ _ => ⟨by norm_num, by norm_num⟩)
      [⟨4, 15, 2⟩, ⟨0, 2, 1⟩, ⟨4, 7, 1⟩] [5, 9, 3] rfl (by decide)⟩

/-! ## The concrete instances satisfy the field contract -/

theorem fpow_eq_pow {p : ℕ} (x : ZMod p) (f n : ℕ) (h : n < 2 ^ f) : fpow x f n = x ^ n := by
  induction f generalizing n with
  | zero =>
    have : n = 0 := by simpa using h
    subst this
    simp [fpow]
  | succ f ih =>
    by_cases h0 : n = 0
    · subst h0
      simp [fpow]
    · have h1 : n / 2 < 2 ^ f := by
        apply Nat.div_lt_of_lt_mul
        rw [pow_succ] at h
        omega
      simp only [fpow, h0, if_false]
      rw [ih _ h1]
      by_cases hodd : n % 2 = 1
      · rw [if_pos hodd, ← pow_add, ← pow_succ]
        congr 1
        omega
      · rw [if_neg hodd, ← pow_add]
        congr 1
        omega

/-- The instance `mkParams p q` satisfies the contract of the field layer
whenever `p` is a prime that is 3 modulo 4, above 3 and below `2^381`, and
`1 < q < 2^255`; this is the shape of the BLS12-381 parameters. -/
theorem mkParams_lawful (p q : ℕ) (hp : p.Prime) (h4 : p % 4 = 3) (h3 : 3 < p)
    (hlt : p < 2 ^ 381) (hq1 : 1 < q) (hq2 : q < 2 ^ 255) : (mkParams p q).Lawful := by
  haveI : Fact p.Prime := ⟨hp⟩
  have hpow : ∀ (x : ZMod p) (n : ℕ), fpow x n n = x ^ n :=
    fun x n => fpow_eq_pow x n n (Nat.lt_two_pow n)
  refine ⟨hp, h3, hlt, ?_, hq1, hq2, ?_, ?_, ?_, ?_⟩
  · show (4 : ZMod p) ≠ 0
    intro h
    have h2 : ((4 : ℕ) : ZMod p) = 0 := by exact_mod_cast h
    rw [ZMod.natCast_zmod_eq_zero_iff_dvd] at h2
    have := (Nat.Prime.dvd_mul hp (m := 2) (n := 2)).1 (by simpa using h2)
    have h5 : p ∣ 2 := by tauto
    have := Nat.le_of_dvd (by norm_num) h5
    omega
  · intro (x : ZMod p) hx
    show x * fpow x (p - 2) (p - 2) = 1
    rw [hpow, ← pow_succ']
    have e : p - 2 + 1 = p - 1 := by omega
    rw [e]
    exact ZMod.pow_card_sub_one_eq_one hx
  · intro (a : ZMod p) (y : ZMod p) h
    have h' : (if fpow a ((p + 1) / 4) ((p + 1) / 4) * fpow a ((p + 1) / 4) ((p + 1) / 4) = a
        then some (fpow a ((p + 1) / 4) ((p + 1) / 4)) else none) = some y := h
    by_cases hc : fpow a ((p + 1) / 4) ((p + 1) / 4) * fpow a ((p + 1) / 4) ((p + 1) / 4) = a
    · rw [if_pos hc] at h'
      cases h'
      exact hc
    · rw [if_neg hc] at h'
      cases h'
  · intro (y : ZMod p)
    have hc : fpow (y * y) ((p + 1) / 4) ((p + 1) / 4) *
        fpow (y * y) ((p + 1) / 4) ((p + 1) / 4) = y * y := by
      rw [hpow, ← pow_two y, ← pow_mul, ← pow_add]
      have e : 2 * ((p + 1) / 4) + 2 * ((p + 1) / 4) = p + 1 := by omega
      rw [e, pow_succ]
      have hc0 : (y : ZMod p) ^ p = y := ZMod.pow_card y
      rw [hc0, pow_two]
    show (if fpow (y * y) ((p + 1) / 4) ((p + 1) / 4) *
        fpow (y * y) ((p + 1) / 4) ((p + 1) / 4) = y * y
        then some (fpow (y * y) ((p + 1) / 4) ((p + 1) / 4)) else none).isSome = true
    rw [if_pos hc]
    rfl
  · intro (y : ZMod p) hy
    show decide (ZMod.val (-y) ≤ ZMod.val (- -y)) = !decide (ZMod.val y ≤ ZMod.val (-y))
    have hv : 0 < ZMod.val y := by
      rcases Nat.eq_zero_or_pos (ZMod.val y) with h | h
      · exact absurd ((ZMod.val_eq_zero y).1 h) hy
      · exact h
    have hlt' : ZMod.val y < p := ZMod.val_lt y
    have hneg : ZMod.val (-y) = p - ZMod.val y := by
      rw [ZMod.neg_val y, if_neg hy]
    rw [neg_neg, hneg]
    have hodd : p % 2 = 1 := by omega
    by_cases h : ZMod.val y ≤ p - ZMod.val y
    · have h' : ¬ p - ZMod.val y ≤ ZMod.val y := by omega
      simp [h, h']
    · have h' : p - ZMod.val y ≤ ZMod.val y := by omega
      simp [h, h']

/-- The BLS12-381 instance satisfies the contract of the field layer as soon as
its base-field modulus is prime: every other clause is checked here. -/
theorem bls12381_lawful (hp : Nat.Prime P381) : bls12381.Lawful :=
  mkParams_lawful P381 R255 hp (by norm_num [P381]) (by norm_num [P381])
    (by norm_num [P381]) (by norm_num [R255]) (by norm_num [R255])

/-! ## Equality is an equivalence; the group axioms -/

section EqualFacts

variable {E : Params}

theorem equal_refl (P : PointG1 E) : Equal P P = true := by
  rw [equal_iff]
  by_cases hz : P.z = 0
  · exact Or.inl ⟨hz, hz⟩
  · exact Or.inr ⟨hz, hz, rfl, rfl⟩

theorem equal_symm {P Q : PointG1 E} (h : Equal P Q = true) : Equal Q P = true := by
  rw [equal_iff] at h ⊢
  rcases h with ⟨h1, h2⟩ | ⟨h1, h2, h3, h4⟩
  · exact Or.inl ⟨h2, h1⟩
  · exact Or.inr ⟨h2, h1, h3.symm, h4.symm⟩

theorem equal_comm (P Q : PointG1 E) : Equal P Q = Equal Q P := by
  cases h : Equal P Q with
  | true => exact (equal_symm h).symm
  | false =>
    cases h' : Equal Q P with
    | true => rw [equal_symm h'] at h; cases h
    | false => rfl

theorem equal_trans (hE : E.Lawful) {P Q R : PointG1 E} (h1 : Equal P Q = true)
    (h2 : Equal Q R = true) : Equal P R = true := by
  haveI : Fact E.p.Prime := ⟨hE.prime⟩
  rw [equal_iff] at h1 h2 ⊢
  rcases h1 with ⟨a1, a2⟩ | ⟨a1, a2, a3, a4⟩
  · rcases h2 with ⟨b1, b2⟩ | ⟨b1, _, _, _⟩
    · exact Or.inl ⟨a1, b2⟩
    · exact absurd a2 b1
  · rcases h2 with ⟨b1, _⟩ | ⟨_, b2, b3, b4⟩
    · exact absurd b1 a2
    · refine Or.inr ⟨a1, b2, ?_, ?_⟩
      · apply mul_right_cancel₀ (pow_ne_zero 2 a2)
        linear_combination (R.z ^ 2) * a3 + (P.z ^ 2) * b3
      · apply mul_right_cancel₀ (pow_ne_zero 3 a2)
        linear_combination (R.z ^ 3) * a4 + (P.z ^ 3) * b4

theorem add_self (P : PointG1 E) : Add P P = Double P := by
  by_cases hz : P.z = 0
  · simp [Add, Double, IsZero, hz]
  · simp [Add, IsZero, hz]

theorem double_of_z_eq_zero (P : PointG1 E) (hz : P.z = 0) : Double P = P := by
  simp [Double, IsZero, hz]

theorem double_equal (hE : E.Lawful) {P Q : PointG1 E} (hz1 : P.z ≠ 0) (hz2 : Q.z ≠ 0)
    (hx : Q.x * P.z ^ 2 = P.x * Q.z ^ 2) (hy : Q.y * P.z ^ 3 = P.y * Q.z ^ 3) :
    Equal (Double P) (Double Q) = true := by
  haveI : Fact E.p.Prime := ⟨hE.prime⟩
  have h2 := two_ne_zero_fe hE
  rw [double_of_z_ne_zero P hz1, double_of_z_ne_zero Q hz2, equal_iff]
  obtain ⟨x1, y1, z1⟩ := P
  obtain ⟨x2, y2, z2⟩ := Q
  simp only at hz1 hz2 hx hy ⊢
  obtain ⟨l, hl⟩ : ∃ l, z2 = l * z1 := ⟨z2 / z1, by field_simp⟩
  subst hl
  have hl0 : l ≠ 0 := left_ne_zero_of_mul hz2
  have ex : x2 = l ^ 2 * x1 := by
    apply mul_right_cancel₀ (pow_ne_zero 2 hz1)
    linear_combination hx
  have ey : y2 = l ^ 3 * y1 := by
    apply mul_right_cancel₀ (pow_ne_zero 3 hz1)
    linear_combination hy
  subst ex
  subst ey
  by_cases hy1 : y1 = 0
  · left
    subst hy1
    constructor <;> ring
  · right
    refine ⟨mul_ne_zero (mul_ne_zero h2 hy1) hz1,
      mul_ne_zero (mul_ne_zero h2 (mul_ne_zero (pow_ne_zero 3 hl0) hy1)) hz2, ?_, ?_⟩ <;> ring

end EqualFacts

/-- C11. For all points `P`, `Q` and `R` on the curve, `Add (Add P Q) R` is
`Equal` to `Add P (Add Q R)`. -/
theorem add_assoc_equal (E : Params) (hE : E.Lawful) (P Q R : PointG1 E)
    (hP : IsOnCurve P = true)
    (hQ : IsOnCurve Q = true) (hR : IsOnCurve R = true) :
    Equal (Add (Add P Q) R) (Add P (Add Q R)) = true := by
  haveI : Fact E.p.Prime := ⟨hE.prime⟩
  obtain ⟨A, hA⟩ := rep_exists hE P hP
  obtain ⟨B, hB⟩ := rep_exists hE Q hQ
  obtain ⟨C, hC⟩ := rep_exists hE R hR
  exact (rep_equal hE (rep_add hE (rep_add hE hA hB) hC)
    (rep_add hE hA (rep_add hE hB hC))).2 (add_assoc A B C)

/-- Witness for C11: three points of the small curve, one of them in a Jacobian
representation with `Z = 2`. -/
theorem add_assoc_equal_witness :
    toy.Lawful ∧ IsOnCurve (⟨4, 15, 2⟩ : PointG1 toy) = true ∧
    IsOnCurve (⟨0, 2, 1⟩ : PointG1 toy) = true ∧ IsOnCurve (⟨7, 9, 1⟩ : PointG1 toy) = true ∧
    Equal (Add (Add (⟨4, 15, 2⟩ : PointG1 toy) ⟨0, 2, 1⟩) ⟨7, 9, 1⟩)
      (Add ⟨4, 15, 2⟩ (Add ⟨0, 2, 1⟩ ⟨7, 9, 1⟩)) = true :=
  ⟨toy_lawful, by decide, by decide, by decide,
    add_assoc_equal toy toy_lawful ⟨4, 15, 2⟩ ⟨0, 2, 1⟩ ⟨7, 9, 1⟩ (by decide) (by decide)
      (by decide)⟩

/-- C12. For all points `P` and `Q`, on the curve or not and in any Jacobian
representation, `Add P Q` is `Equal` to `Add Q P`. -/
theorem add_comm_equal (E : Params) (hE : E.Lawful) (P Q : PointG1 E) :
    Equal (Add P Q) (Add Q P) = true := by
  haveI : Fact E.p.Prime := ⟨hE.prime⟩
  by_cases hP : P.z = 0
  · have e1 : Add P Q = Q := by simp [Add, IsZero, hP]
    by_cases hQ : Q.z = 0
    · have e2 : Add Q P = P := by simp [Add, IsZero, hQ]
      rw [e1, e2, equal_iff]
      exact Or.inl ⟨hQ, hP⟩
    · have e2 : Add Q P = Q := by simp [Add, IsZero, hP, hQ]
      rw [e1, e2]
      exact equal_refl Q
  · by_cases hQ : Q.z = 0
    · have e1 : Add P Q = P := by simp [Add, IsZero, hP, hQ]
      have e2 : Add Q P = P := by simp [Add, IsZero, hQ]
      rw [e1, e2]
      exact equal_refl P
    · rw [add_of_finite P Q hP hQ, add_of_finite Q P hQ hP]
      by_cases c1 : Q.x * P.z ^ 2 = P.x * Q.z ^ 2
      · rw [if_pos c1, if_pos c1.symm]
        by_cases c2 : Q.y * P.z ^ 3 = P.y * Q.z ^ 3
        · rw [if_pos c2, if_pos c2.symm]
          exact double_equal hE hP hQ c1 c2
        · rw [if_neg c2, if_neg (fun h => c2 h.symm)]
          exact equal_refl _
      · rw [if_neg c1, if_neg (fun h => c1 h.symm), equal_iff]
        simp only
        by_cases hz : 2 * P.z * Q.z * (Q.x * P.z ^ 2 - P.x * Q.z ^ 2) = 0
        · left
          exact ⟨hz, by linear_combination -hz⟩
        · right
          refine ⟨hz, ?_, ?_, ?_⟩
          · intro h
            exact hz (by linear_combination -h)
          · ring
          · ring

/-- Witness for C12: a point of the small curve and a triple that is not on it. -/
theorem add_comm_equal_witness :
    toy.Lawful ∧ IsOnCurve (⟨0, 2, 2⟩ : PointG1 toy) = false ∧
    Equal (Add (⟨4, 15, 2⟩ : PointG1 toy) ⟨0, 2, 2⟩) (Add ⟨0, 2, 2⟩ ⟨4, 15, 2⟩) = true :=
  ⟨toy_lawful, by decide, add_comm_equal toy toy_lawful ⟨4, 15, 2⟩ ⟨0, 2, 2⟩⟩

/-- C13. For every point `P`, `Add P P` returns the same point as `Double P`,
and `Double` of an infinity is an infinity; for every `P` on the curve,
`MulScalar P 2` returns a point `Equal` to `Double P`. The group order is above
two. -/
theorem add_self_eq_double (E : Params) (hE : E.Lawful) (hq : 2 < E.q) (fuel : ℕ)
    (P : PointG1 E) :
    Add P P = Double P ∧ (P.z = 0 → (Double P).z = 0) ∧
    (IsOnCurve P = true →
      ∃ R, MulScalar E (fuel + 4) P 2 = .ok R ∧ Equal R (Double P) = true) := by
  haveI : Fact E.p.Prime := ⟨hE.prime⟩
  refine ⟨add_self P, ?_, ?_⟩
  · intro hz
    rw [double_of_z_eq_zero P hz]
    exact hz
  · intro hP
    obtain ⟨A, hA⟩ := rep_exists hE P hP
    obtain ⟨R, hR, hrep⟩ := mulScalar_rep hE fuel P 2 A hA
    rw [Nat.cast_ofNat] at hR
    rw [Nat.mod_eq_of_lt hq, two_nsmul] at hrep
    exact ⟨R, hR, (rep_equal hE hrep (rep_double hE hA)).2 rfl⟩

set_option maxRecDepth 100000 in
/-- Witness for C13: the Jacobian triple `(4, 15, 2)` of the small curve. -/
theorem add_self_eq_double_witness :
    toy.Lawful ∧ 2 < toy.q ∧
    Add (⟨4, 15, 2⟩ : PointG1 toy) ⟨4, 15, 2⟩ = Double ⟨4, 15, 2⟩ ∧
    ((⟨4, 15, 2⟩ : PointG1 toy).z = 0 → (Double (⟨4, 15, 2⟩ : PointG1 toy)).z = 0) ∧
    (IsOnCurve (⟨4, 15, 2⟩ : PointG1 toy) = true →
      ∃ R, MulScalar toy (0 + 4) (⟨4, 15, 2⟩ : PointG1 toy) 2 = .ok R ∧
        Equal R (Double ⟨4, 15, 2⟩) = true) :=
  ⟨toy_lawful, by decide, add_self_eq_double toy toy_lawful (by decide) 0 ⟨4, 15, 2⟩⟩

/-! ## The flag byte -/

section Flags

variable {E : Params}

theorem beValue_toBytes (hE : E.Lawful) (a : fe E) : beValue (toBytes E a) = ZMod.val a := by
  rw [toBytes, beValue_beBytes]
  apply Nat.mod_eq_of_lt
  calc ZMod.val a < E.p := val_lt_of_lawful hE a
    _ < 2 ^ 381 := hE.lt_pow
    _ ≤ 256 ^ 48 := by norm_num

theorem toUncompressed_of_z_eq_zero (P : PointG1 E) (hz : P.z = 0) :
    ToUncompressed P = .ok (0x40 :: List.replicate 95 0) := by
  have hon : IsOnCurve P = true := (isOnCurve_iff P).2 (Or.inl hz)
  simp [ToUncompressed, hon, IsZero, hz, orHead, List.replicate_succ]

theorem toUncompressed_of_z_ne_zero (P : PointG1 E) (hon : IsOnCurve P = true)
    (hz : P.z ≠ 0) :
    ToUncompressed P = .ok (toBytes E (Affine P).x ++ toBytes E (Affine P).y) := by
  simp [ToUncompressed, hon, IsZero, hz]

theorem any_enumFrom (f : ℕ) (t : List ℕ) (k : ℕ) :
    (t.enumFrom (k + 1)).any
        (fun iv => (iv.1 == 0 && iv.2 != f) || (iv.1 != 0 && iv.2 != 0)) =
      t.any (fun v => v != 0) := by
  induction t generalizing k with
  | nil => rfl
  | cons v t ih =>
    rw [List.enumFrom_cons, List.any_cons, List.any_cons, ih]
    simp

theorem badInfinity_cons (f v : ℕ) (t : List ℕ) :
    badInfinity f (v :: t) = (v != f || t.any (fun v => v != 0)) := by
  unfold badInfinity
  rw [List.enum, List.enumFrom_cons, List.any_cons, any_enumFrom]
  simp

theorem eq_of_badInfinity_false (f v : ℕ) (t : List ℕ) (h : badInfinity f (v :: t) = false) :
    v :: t = f :: List.replicate t.length 0 := by
  rw [badInfinity_cons, Bool.or_eq_false_iff] at h
  obtain ⟨h1, h2⟩ := h
  have hv : v = f := by simpa using h1
  have ht : t = List.replicate t.length 0 := by
    rw [List.eq_replicate_iff]
    refine ⟨rfl, fun b hb => ?_⟩
    by_contra hne
    have : t.any (fun v => v != 0) = true := List.any_eq_true.2 ⟨b, hb, by simpa using hne⟩
    rw [this] at h2
    cases h2
  rw [hv, ← ht]

end Flags

/-- C14. For every point with `Z = 0`, `ToCompressed` is the byte `0xc0`
followed by 47 zero bytes and `ToUncompressed` is `0x40` followed by 95 zero
bytes; `FromCompressed` and `FromUncompressed` of these strings return the
canonical infinity `(0, 1, 0)`. -/
theorem infinity_encoding (E : Params) (fuel : ℕ) (P : PointG1 E) (hz : P.z = 0) :
    ToCompressed P = 0xc0 :: List.replicate 47 0 ∧
    ToUncompressed P = .ok (0x40 :: List.replicate 95 0) ∧
    FromCompressed E fuel (0xc0 :: List.replicate 47 0) = .ok ⟨0, 1, 0⟩ ∧
    FromUncompressed E fuel (0x40 :: List.replicate 95 0) = .ok ⟨0, 1, 0⟩ := by
  refine ⟨toCompressed_of_z_eq_zero P hz, toUncompressed_of_z_eq_zero P hz, ?_, ?_⟩
  · exact fromCompressed_infinity fuel
  · exact fromUncompressed_infinity fuel

/-- Witness for C14: the all-zero triple over the BLS12-381 field, an infinity
other than the canonical one. -/
theorem infinity_encoding_witness :
    (PointG1.blank bls12381).z = 0 ∧
    ToCompressed (PointG1.blank bls12381) = 0xc0 :: List.replicate 47 0 ∧
    ToUncompressed (PointG1.blank bls12381) = .ok (0x40 :: List.replicate 95 0) ∧
    FromCompressed bls12381 0 (0xc0 :: List.replicate 47 0) = .ok ⟨0, 1, 0⟩ ∧
    FromUncompressed bls12381 0 (0x40 :: List.replicate 95 0) = .ok ⟨0, 1, 0⟩ :=
  ⟨rfl, infinity_encoding bls12381 0 (PointG1.blank bls12381) rfl⟩

/-- C15. For every finite point `P`, `ToCompressed P` is 48 bytes; byte 0 has
bit 7 set and bit 6 clear, bit 5 is set exactly when `signBE` of the affine `Y`
is false, and with the three flag bits cleared the bytes are the big-endian
encoding of the affine `X`, where the affine coordinates are `X / Z²` and
`Y / Z³`. For every finite `P` on the curve, `ToUncompressed P` is 96 bytes, the
encodings of the affine `X` and `Y`, with bits 7, 6 and 5 of byte 0 clear. -/
theorem finite_encoding_flags (E : Params) (hE : E.Lawful) (P : PointG1 E) (hz : P.z ≠ 0) :
    (Affine P).x * P.z ^ 2 = P.x ∧ (Affine P).y * P.z ^ 3 = P.y ∧
    (∃ h t, ToCompressed P = h :: t ∧ t.length = 47 ∧
      h &&& 0x80 ≠ 0 ∧ h &&& 0x40 = 0 ∧
      (h &&& 0x20 ≠ 0 ↔ E.signBE (Affine P).y = false) ∧
      (h &&& 0x1f) :: t = toBytes E (Affine P).x ∧
      beValue ((h &&& 0x1f) :: t) = ZMod.val (Affine P).x) ∧
    (IsOnCurve P = true →
      ∃ h t, ToUncompressed P = .ok (h :: t) ∧ t.length = 95 ∧
        h &&& 0x80 = 0 ∧ h &&& 0x40 = 0 ∧ h &&& 0x20 = 0 ∧
        h :: t = toBytes E (Affine P).x ++ toBytes E (Affine P).y) := by
  obtain ⟨_, hx, hy⟩ := affine_spec hE P hz
  obtain ⟨v, t, ht, hv, hlen⟩ := toBytes_cons hE (Affine P).x
  obtain ⟨e1, e2, e3, _, f1, f2, f3, f4, g1, g2, g3, g4⟩ := flag_facts v hv
  have hval := beValue_toBytes hE (Affine P).x
  refine ⟨hx, hy, ?_, ?_⟩
  · rw [toCompressed_of_z_ne_zero hE P hz, ht]
    cases hs : E.signBE (Affine P).y
    · refine ⟨v ||| 32 ||| 128, t, by simp [orHead], hlen, g1, g2, ?_, ?_, ?_⟩
      · exact ⟨fun _ => rfl, fun _ => g3⟩
      · rw [g4]
      · rw [g4, ← ht, hval]
    · refine ⟨v ||| 128, t, by simp [orHead], hlen, f1, f2, ?_, ?_, ?_⟩
      · constructor
        · intro h
          exact absurd f3 h
        · intro h
          cases h
      · rw [f4]
      · rw [f4, ← ht, hval]
  · intro hon
    rw [toUncompressed_of_z_ne_zero P hon hz, ht]
    refine ⟨v, t ++ toBytes E (Affine P).y, rfl, ?_, e1, e2, e3, rfl⟩
    rw [List.length_append, hlen, toBytes_length]

/-- Witness for C15: the Jacobian triple `(4, 15, 2)` of the small curve. -/
theorem finite_encoding_flags_witness :
    toy.Lawful ∧ (⟨4, 15, 2⟩ : PointG1 toy).z ≠ 0 ∧
    ((Affine (⟨4, 15, 2⟩ : PointG1 toy)).x * (⟨4, 15, 2⟩ : PointG1 toy).z ^ 2 =
        (⟨4, 15, 2⟩ : PointG1 toy).x ∧
      (Affine (⟨4, 15, 2⟩ : PointG1 toy)).y * (⟨4, 15, 2⟩ : PointG1 toy).z ^ 3 =
        (⟨4, 15, 2⟩ : PointG1 toy).y ∧
      (∃ h t, ToCompressed (⟨4, 15, 2⟩ : PointG1 toy) = h :: t ∧ t.length = 47 ∧
        h &&& 0x80 ≠ 0 ∧ h &&& 0x40 = 0 ∧
        (h &&& 0x20 ≠ 0 ↔ toy.signBE (Affine (⟨4, 15, 2⟩ : PointG1 toy)).y = false) ∧
        (h &&& 0x1f) :: t = toBytes toy (Affine (⟨4, 15, 2⟩ : PointG1 toy)).x ∧
        beValue ((h &&& 0x1f) :: t) = ZMod.val (Affine (⟨4, 15, 2⟩ : PointG1 toy)).x) ∧
      (IsOnCurve (⟨4, 15, 2⟩ : PointG1 toy) = true →
        ∃ h t, ToUncompressed (⟨4, 15, 2⟩ : PointG1 toy) = .ok (h :: t) ∧ t.length = 95 ∧
          h &&& 0x80 = 0 ∧ h &&& 0x40 = 0 ∧ h &&& 0x20 = 0 ∧
          h :: t = toBytes toy (Affine (⟨4, 15, 2⟩ : PointG1 toy)).x ++
            toBytes toy (Affine (⟨4, 15, 2⟩ : PointG1 toy)).y)) :=
  ⟨toy_lawful, by decide, finite_encoding_flags toy toy_lawful ⟨4, 15, 2⟩ (by decide)⟩

/-- C16. `FromCompressed` returns an error for every input whose length is not
48, for every 48-byte input whose byte 0 has bit 7 clear, and for every 48-byte
input whose byte 0 has bit 6 set unless the input is `0xc0` followed by 47 zero
bytes. `FromUncompressed` returns an error for every input shorter than 96
bytes, for every input whose byte 0 has bit 7 or bit 5 set, and for every input
whose byte 0 has bit 6 set unless its first 96 bytes are `0x40` followed by 95
zero bytes. -/
theorem decoder_flag_errors (E : Params) (fuel : ℕ) (input : List ℕ) :
    (input.length ≠ 48 → ∃ m, FromCompressed E fuel input = .error (.err m)) ∧
    (input.length = 48 → input.headD 0 &&& 0x80 = 0 →
      ∃ m, FromCompressed E fuel input = .error (.err m)) ∧
    (input.length = 48 → input.headD 0 &&& 0x40 ≠ 0 →
      input ≠ 0xc0 :: List.replicate 47 0 →
      ∃ m, FromCompressed E fuel input = .error (.err m)) ∧
    (input.length < 96 → ∃ m, FromUncompressed E fuel input = .error (.err m)) ∧
    (input.headD 0 &&& 0x80 ≠ 0 ∨ input.headD 0 &&& 0x20 ≠ 0 →
      ∃ m, FromUncompressed E fuel input = .error (.err m)) ∧
    (input.headD 0 &&& 0x40 ≠ 0 → input.take 96 ≠ 0x40 :: List.replicate 95 0 →
      ∃ m, FromUncompressed E fuel input = .error (.err m)) := by
  have hhead : 96 ≤ input.length → (input.take 96).headD 0 = input.headD 0 := by
    intro h
    cases input with
    | nil => rfl
    | cons v t => rfl
  have hlen96 : 96 ≤ input.length → (input.take 96).length = 96 := by
    intro h
    rw [List.length_take]
    omega
  refine ⟨?_, ?_, ?_, ?_, ?_, ?_⟩
  · intro h
    exact ⟨_, by unfold FromCompressed; rw [if_pos h]⟩
  · intro h h7
    have h7' : input.headD 0 &&& 2 ^ 7 = 0 := h7
    exact ⟨_, by unfold FromCompressed; dsimp only; rw [if_neg (not_not.2 h), if_pos h7']⟩
  · intro h h6 hne
    have h6' : input.headD 0 &&& 2 ^ 6 ≠ 0 := h6
    unfold FromCompressed
    dsimp only
    rw [if_neg (not_not.2 h)]
    by_cases h7 : input.headD 0 &&& 2 ^ 7 = 0
    · exact ⟨_, by rw [if_pos h7]⟩
    · rw [if_neg h7, if_pos h6']
      cases hb : badInfinity 0xc0 input
      · exfalso
        cases input with
        | nil => simp at h
        | cons v t =>
          have ht : t.length = 47 := by simpa using h
          have := eq_of_badInfinity_false _ _ _ hb
          rw [ht] at this
          exact hne this
      · exact ⟨_, by rw [if_pos rfl]⟩
  · intro h
    exact ⟨_, by unfold FromUncompressed; rw [if_pos h]⟩
  · intro h
    by_cases hl : input.length < 96
    · exact ⟨_, by unfold FromUncompressed; rw [if_pos hl]⟩
    · unfold FromUncompressed
      dsimp only
      rw [if_neg hl, hhead (not_lt.1 hl)]
      by_cases h7 : input.headD 0 &&& 2 ^ 7 ≠ 0
      · exact ⟨_, by rw [if_pos h7]⟩
      · rw [if_neg h7]
        have h5 : input.headD 0 &&& 2 ^ 5 ≠ 0 := by
          rcases h with h | h
          · exact absurd h h7
          · exact h
        exact ⟨_, by rw [if_pos h5]⟩
  · intro h6 hne
    have h6' : input.headD 0 &&& 2 ^ 6 ≠ 0 := h6
    by_cases hl : input.length < 96
    · exact ⟨_, by unfold FromUncompressed; rw [if_pos hl]⟩
    · unfold FromUncompressed
      dsimp only
      rw [if_neg hl, hhead (not_lt.1 hl)]
      by_cases h7 : input.headD 0 &&& 2 ^ 7 ≠ 0
      · exact ⟨_, by rw [if_pos h7]⟩
      · rw [if_neg h7]
        by_cases h5 : input.headD 0 &&& 2 ^ 5 ≠ 0
        · exact ⟨_, by rw [if_pos h5]⟩
        · rw [if_neg h5, if_pos h6']
          cases hb : badInfinity 0x40 (input.take 96)
          · exfalso
            have hl' := hlen96 (not_lt.1 hl)
            cases ht : input.take 96 with
            | nil => rw [ht] at hl'; simp at hl'
            | cons v t =>
              rw [ht] at hb hl'
              have ht' : t.length = 95 := by simpa using hl'
              have := eq_of_badInfinity_false _ _ _ hb
              rw [ht'] at this
              exact hne (ht.trans this)
          · exact ⟨_, by rw [if_pos rfl]⟩

/-- Witness for C16: a 48-byte input with bit 6 set and a non-zero last byte,
and a 96-byte input with bit 5 set. -/
theorem decoder_flag_errors_witness :
    (∃ m, FromCompressed bls12381 0 (0xc0 :: (List.replicate 46 0 ++ [1])) = .error (.err m)) ∧
    (∃ m, FromUncompressed bls12381 0 (0x20 :: List.replicate 95 0) = .error (.err m)) :=
  ⟨(decoder_flag_errors bls12381 0 (0xc0 :: (List.replicate 46 0 ++ [1]))).2.2.1
      (by decide) (by decide) (by decide),
    (decoder_flag_errors bls12381 0 (0x20 :: List.replicate 95 0)).2.2.2.2.1
      (Or.inr (by decide))⟩

/-! ## Scalar multiplication of a triple that is not on the curve -/

set_option maxRecDepth 100000 in
/-- C17, evaluated on the code. The triple `(0, 1, 1)` over the BLS12-381 field
is not on the curve. With the scalar 1 the re-decoding of the accumulator
fails, the accumulator becomes nil and the final copy dereferences it; with the
scalar 3 the same failure in the first iteration makes the second iteration
dereference nil. -/
theorem mulScalar_offCurve_panics :
    IsOnCurve (⟨0, 1, 1⟩ : PointG1 bls12381) = false ∧
    (∀ fuel, fromBytesJacobi bls12381 (fuel + 1)
        (toBytesJacobi (⟨0, 1, 1⟩ : PointG1 bls12381)) =
      .error (.err "point not on curve")) ∧
    (∀ fuel, MulScalar bls12381 (fuel + 2) ⟨0, 1, 1⟩ 1 =
      .error (.panic "nil pointer dereference")) ∧
    (∀ fuel, MulScalar bls12381 (fuel + 2) ⟨0, 1, 1⟩ 3 =
      .error (.panic "nil pointer dereference")) := by
  refine ⟨by decide, ?_, ?_, ?_⟩
  · intro fuel
    rfl
  · intro fuel
    rfl
  · intro fuel
    rfl

/-! ## Equality and the affine form -/

section AffineFacts

variable {E : Params}

theorem affine_affine (hE : E.Lawful) (P : PointG1 E) : Affine (Affine P) = Affine P := by
  by_cases hz : P.z = 0
  · rw [affine_of_z_eq_zero P hz, affine_of_z_eq_zero P hz]
  · have h1 := (affine_spec hE P hz).1
    have h0 : (Affine P).z ≠ 0 := by
      rw [h1]
      exact one_ne_zero_fe hE
    generalize Affine P = A at h1 h0
    simp [Affine, IsZero, IsAffine, h1]

theorem affine_of_z_eq_one (P : PointG1 E) (hz : P.z = 1) : Affine P = P := by
  by_cases h0 : P.z = 0
  · exact affine_of_z_eq_zero P h0
  · simp [Affine, IsZero, IsAffine, hz]

end AffineFacts

/-- C18. `Equal P Q` is true exactly when both points have `Z = 0`, or both
have `Z ≠ 0` and the affine coordinates `X / Z²` and `Y / Z³` agree; `Equal` is
reflexive, symmetric and transitive. -/
theorem equal_iff_affine (E : Params) (hE : E.Lawful) (P Q R : PointG1 E) :
    (Equal P Q = true ↔
      (P.z = 0 ∧ Q.z = 0) ∨
        (P.z ≠ 0 ∧ Q.z ≠ 0 ∧ P.x * (P.z ^ 2)⁻¹ = Q.x * (Q.z ^ 2)⁻¹ ∧
          P.y * (P.z ^ 3)⁻¹ = Q.y * (Q.z ^ 3)⁻¹)) ∧
    Equal P P = true ∧ Equal P Q = Equal Q P ∧
    (Equal P Q = true → Equal Q R = true → Equal P R = true) := by
  haveI : Fact E.p.Prime := ⟨hE.prime⟩
  refine ⟨?_, equal_refl P, equal_comm P Q, equal_trans hE⟩
  rw [equal_iff]
  constructor
  · rintro (h | ⟨h1, h2, h3, h4⟩)
    · exact Or.inl h
    · refine Or.inr ⟨h1, h2, ?_, ?_⟩
      · field_simp
        linear_combination h3
      · field_simp
        linear_combination h4
  · rintro (h | ⟨h1, h2, h3, h4⟩)
    · exact Or.inl h
    · refine Or.inr ⟨h1, h2, ?_, ?_⟩
      · field_simp at h3
        linear_combination h3
      · field_simp at h4
        linear_combination h4

/-- Witness for C18: two Jacobian triples of the same point of the small curve
and a third triple for the transitivity. -/
theorem equal_iff_affine_witness :
    toy.Lawful ∧
    ((Equal (⟨4, 15, 2⟩ : PointG1 toy) ⟨1, 9, 1⟩ = true ↔
      ((⟨4, 15, 2⟩ : PointG1 toy).z = 0 ∧ (⟨1, 9, 1⟩ : PointG1 toy).z = 0) ∨
        ((⟨4, 15, 2⟩ : PointG1 toy).z ≠ 0 ∧ (⟨1, 9, 1⟩ : PointG1 toy).z ≠ 0 ∧
          (⟨4, 15, 2⟩ : PointG1 toy).x * ((⟨4, 15, 2⟩ : PointG1 toy).z ^ 2)⁻¹ =
            (⟨1, 9, 1⟩ : PointG1 toy).x * ((⟨1, 9, 1⟩ : PointG1 toy).z ^ 2)⁻¹ ∧
          (⟨4, 15, 2⟩ : PointG1 toy).y * ((⟨4, 15, 2⟩ : PointG1 toy).z ^ 3)⁻¹ =
            (⟨1, 9, 1⟩ : PointG1 toy).y * ((⟨1, 9, 1⟩ : PointG1 toy).z ^ 3)⁻¹)) ∧
    Equal (⟨4, 15, 2⟩ : PointG1 toy) ⟨4, 15, 2⟩ = true ∧
    Equal (⟨4, 15, 2⟩ : PointG1 toy) ⟨1, 9, 1⟩ = Equal (⟨1, 9, 1⟩ : PointG1 toy) ⟨4, 15, 2⟩ ∧
    (Equal (⟨4, 15, 2⟩ : PointG1 toy) ⟨1, 9, 1⟩ = true →
      Equal (⟨1, 9, 1⟩ : PointG1 toy) ⟨9, 15, 3⟩ = true →
      Equal (⟨4, 15, 2⟩ : PointG1 toy) ⟨9, 15, 3⟩ = true)) :=
  ⟨toy_lawful, equal_iff_affine toy toy_lawful ⟨4, 15, 2⟩ ⟨1, 9, 1⟩ ⟨9, 15, 3⟩⟩

/-- C19. For every point `P`, `Affine (Affine P)` has the coordinates of
`Affine P`, `Affine P` is `Equal` to `P`, has `Z = 1` when `P` is finite, and is
`P` unchanged when `P` is an infinity or has `Z = 1`; `Equal P Q` implies
`Equal (Affine P) (Affine Q)`. -/
theorem affine_idempotent_equal (E : Params) (hE : E.Lawful) (P Q : PointG1 E) :
    Affine (Affine P) = Affine P ∧ Equal (Affine P) P = true ∧
    (P.z ≠ 0 → (Affine P).z = 1) ∧ (P.z = 0 ∨ P.z = 1 → Affine P = P) ∧
    (Equal P Q = true → Equal (Affine P) (Affine Q) = true) := by
  refine ⟨affine_affine hE P, equal_affine hE P, fun hz => (affine_spec hE P hz).1, ?_, ?_⟩
  · rintro (hz | hz)
    · exact affine_of_z_eq_zero P hz
    · exact affine_of_z_eq_one P hz
  · intro h
    exact equal_trans hE (equal_trans hE (equal_affine hE P) h)
      (equal_symm (equal_affine hE Q))

/-- Witness for C19: two Jacobian triples of the same point of the small curve. -/
theorem affine_idempotent_equal_witness :
    toy.Lawful ∧
    Affine (Affine (⟨4, 15, 2⟩ : PointG1 toy)) = Affine ⟨4, 15, 2⟩ ∧
    Equal (Affine (⟨4, 15, 2⟩ : PointG1 toy)) ⟨4, 15, 2⟩ = true ∧
    ((⟨4, 15, 2⟩ : PointG1 toy).z ≠ 0 → (Affine (⟨4, 15, 2⟩ : PointG1 toy)).z = 1) ∧
    ((⟨4, 15, 2⟩ : PointG1 toy).z = 0 ∨ (⟨4, 15, 2⟩ : PointG1 toy).z = 1 →
      Affine (⟨4, 15, 2⟩ : PointG1 toy) = ⟨4, 15, 2⟩) ∧
    (Equal (⟨4, 15, 2⟩ : PointG1 toy) ⟨9, 15, 3⟩ = true →
      Equal (Affine (⟨4, 15, 2⟩ : PointG1 toy)) (Affine ⟨9, 15, 3⟩) = true) :=
  ⟨toy_lawful, affine_idempotent_equal toy toy_lawful ⟨4, 15, 2⟩ ⟨9, 15, 3⟩⟩

/-! ## The flagless decoder on zero bytes and on long inputs -/

theorem fromBytes_long_error {E : Params} (fuel : ℕ) (input : List ℕ) (h : 96 < input.length) :
    ∃ m, FromBytes E fuel input = .error (.err m) := by
  have hl : ¬ input.length < 96 := by omega
  have h48 : (input.drop 48).length ≠ 48 := by
    rw [List.length_drop]
    omega
  unfold FromBytes
  rw [if_neg hl]
  cases h1 : fromBytes E (input.take 48) with
  | error f =>
    have : ∃ m, f = .err m := by
      unfold fromBytes at h1
      split_ifs at h1 <;> cases h1 <;> exact ⟨_, rfl⟩
    obtain ⟨m, rfl⟩ := this
    exact ⟨m, rfl⟩
  | ok p0 =>
    have h2 : fromBytes E (input.drop 48) =
        .error (.err "input string should be equal 48 bytes") := by
      unfold fromBytes
      rw [if_pos h48]
    exact ⟨"input string should be equal 48 bytes", by simp only [Except.bind, h2]⟩

/-- C20, evaluated on the code. Over the BLS12-381 field `FromBytes` returns the
canonical infinity for 96 zero bytes and `FromUncompressed` rejects them as off
the curve; for 97 zero bytes `FromBytes` hands the 49 bytes after the first 48
to the field decoder and returns its length error. -/
theorem fromBytes_zero_input :
    (∀ fuel, FromBytes bls12381 fuel (List.replicate 96 0) = .ok ⟨0, 1, 0⟩) ∧
    (∀ fuel, FromUncompressed bls12381 fuel (List.replicate 96 0) =
      .error (.err "point not on curve")) ∧
    (∀ fuel, FromBytes bls12381 fuel (List.replicate 97 0) =
      .error (.err "input string should be equal 48 bytes")) := by
  refine ⟨?_, ?_, ?_⟩
  · intro fuel
    rfl
  · intro fuel
    rfl
  · intro fuel
    rfl

/-! ## The curve equation is preserved; multiples of the group order -/

section Preserved

variable {E : Params}

theorem isOnCurve_neg (P : PointG1 E) (hP : IsOnCurve P = true) : IsOnCurve (Neg P) = true := by
  rw [isOnCurve_iff] at hP ⊢
  rcases hP with h | h
  · exact Or.inl h
  · right
    show -P.y * -P.y = _
    rw [neg_mul_neg]
    exact h

theorem isOnCurve_affine_point (hE : E.Lawful) (P : PointG1 E) (hP : IsOnCurve P = true) :
    IsOnCurve (Affine P) = true := by
  by_cases hz : P.z = 0
  · rw [affine_of_z_eq_zero P hz]
    exact hP
  · rw [affine_eta hE P hz]
    exact affine_on_curve hE P hP hz

variable [Fact E.p.Prime]

theorem mulScalar_int_rep (hE : E.Lawful) (fuel : ℕ) (P : PointG1 E) (e : ℤ)
    (A : (curveW E).toAffine.Point) (hA : Rep P A) :
    ∃ R, MulScalar E (fuel + 4) P e = .ok R ∧ Rep R ((e % (E.q : ℤ)).toNat • A) := by
  obtain ⟨Q, N, hfold, hQ, _⟩ :=
    mulLoop_spec hE fuel (e % (E.q : ℤ)).toNat P A hA (BitLen (e % (E.q : ℤ)).toNat)
  refine ⟨Q, ?_, ?_⟩
  · rw [mulScalar_succ, hfold]
    rfl
  · rwa [Nat.mod_eq_of_lt (lt_two_pow_bitLen _)] at hQ

end Preserved

/-- C22. For all points `P` and `Q` on the curve and every integer scalar `e`,
each of `Add P Q`, `Double P`, `Neg P`, `Sub P Q`, `Affine P` and the point
returned by `MulScalar P e` satisfies `IsOnCurve`; a point satisfies
`IsOnCurve` exactly when `Z = 0` or `Y² = X³ + b·Z⁶`. -/
theorem isOnCurve_preserved (E : Params) (hE : E.Lawful) (fuel : ℕ) (P Q : PointG1 E) (e : ℤ)
    (hP : IsOnCurve P = true) (hQ : IsOnCurve Q = true) :
    IsOnCurve (Add P Q) = true ∧ IsOnCurve (Double P) = true ∧ IsOnCurve (Neg P) = true ∧
    IsOnCurve (Sub P Q) = true ∧ IsOnCurve (Affine P) = true ∧
    (∃ R, MulScalar E (fuel + 4) P e = .ok R ∧ IsOnCurve R = true) ∧
    ∀ R : PointG1 E, IsOnCurve R = true ↔ R.z = 0 ∨ R.y ^ 2 = R.x ^ 3 + E.b * R.z ^ 6 := by
  haveI : Fact E.p.Prime := ⟨hE.prime⟩
  obtain ⟨A, hA⟩ := rep_exists hE P hP
  obtain ⟨B, hB⟩ := rep_exists hE Q hQ
  obtain ⟨B', hB'⟩ := rep_exists hE (Neg Q) (isOnCurve_neg Q hQ)
  obtain ⟨R, hR, hrep⟩ := mulScalar_int_rep hE fuel P e A hA
  refine ⟨rep_isOnCurve (rep_add hE hA hB), rep_isOnCurve (rep_double hE hA),
    isOnCurve_neg P hP, rep_isOnCurve (rep_add hE hA hB'), isOnCurve_affine_point hE P hP,
    ⟨R, hR, rep_isOnCurve hrep⟩, ?_⟩
  intro R
  rw [isOnCurve_iff]
  constructor
  · rintro (h | h)
    · exact Or.inl h
    · exact Or.inr (by linear_combination h)
  · rintro (h | h)
    · exact Or.inl h
    · exact Or.inr (by linear_combination h)

set_option maxRecDepth 100000 in
/-- Witness for C22: two points of the small curve and a negative scalar. -/
theorem isOnCurve_preserved_witness :
    toy.Lawful ∧ IsOnCurve (⟨4, 15, 2⟩ : PointG1 toy) = true ∧
    IsOnCurve (⟨0, 2, 1⟩ : PointG1 toy) = true ∧
    (IsOnCurve (Add (⟨4, 15, 2⟩ : PointG1 toy) ⟨0, 2, 1⟩) = true ∧
      IsOnCurve (Double (⟨4, 15, 2⟩ : PointG1 toy)) = true ∧
      IsOnCurve (Neg (⟨4, 15, 2⟩ : PointG1 toy)) = true ∧
      IsOnCurve (Sub (⟨4, 15, 2⟩ : PointG1 toy) ⟨0, 2, 1⟩) = true ∧
      IsOnCurve (Affine (⟨4, 15, 2⟩ : PointG1 toy)) = true ∧
      (∃ R, MulScalar toy (0 + 4) (⟨4, 15, 2⟩ : PointG1 toy) (-3) = .ok R ∧
        IsOnCurve R = true) ∧
      ∀ R : PointG1 toy, IsOnCurve R = true ↔ R.z = 0 ∨ R.y ^ 2 = R.x ^ 3 + toy.b * R.z ^ 6) :=
  ⟨toy_lawful, by decide, by decide,
    isOnCurve_preserved toy toy_lawful 0 ⟨4, 15, 2⟩ ⟨0, 2, 1⟩ (-3) (by decide) (by decide)⟩

/-- C23. For every point `P`, on the curve or not, and every integer multiple
`e` of the group order, the reduced scalar has bit length zero, so that the
loop of `MulScalar` runs no iteration, and `MulScalar P e` returns the all-zero
triple, which `IsZero` accepts. -/
theorem mulScalar_multiple_of_order (E : Params) (fuel : ℕ) (P : PointG1 E) (k : ℤ) :
    BitLen ((k * (E.q : ℤ)) % (E.q : ℤ)).toNat = 0 ∧
    MulScalar E (fuel + 1) P (k * (E.q : ℤ)) = .ok ⟨0, 0, 0⟩ ∧
    MulScalar E (fuel + 1) P (E.q : ℤ) = .ok ⟨0, 0, 0⟩ ∧
    IsZero (⟨0, 0, 0⟩ : PointG1 E) = true := by
  have h0 : ((k * (E.q : ℤ)) % (E.q : ℤ)).toNat = 0 := by
    rw [Int.mul_emod_left]
    rfl
  refine ⟨by rw [h0]; rfl, ?_, mulScalar_order fuel P, by simp [IsZero]⟩
  rw [mulScalar_succ, h0]
  rfl

/-! ## Compressed encodings are canonical -/

section Canonical

variable {E : Params}

theorem beBytes_add_mul (n a r : ℕ) : beBytes n (a * 256 ^ n + r) = beBytes n r := by
  induction n generalizing a with
  | zero => rfl
  | succ n ih =>
    have e : a * 256 ^ (n + 1) + r = (a * 256) * 256 ^ n + r := by ring
    have hpos : 0 < 256 ^ n := pow_pos (by norm_num) _
    have hd : ((a * 256) * 256 ^ n + r) / 256 ^ n = a * 256 + r / 256 ^ n := by
      rw [add_comm, Nat.add_mul_div_right _ _ hpos, add_comm]
    show ((a * 256 ^ (n + 1) + r) / 256 ^ n % 256) :: beBytes n (a * 256 ^ (n + 1) + r) =
      (r / 256 ^ n % 256) :: beBytes n r
    have hm : (a * 256 + r / 256 ^ n) % 256 = r / 256 ^ n % 256 := by omega
    rw [e, ih, hd, hm]

theorem beValue_lt (l : List ℕ) (h : ∀ v ∈ l, v < 256) : beValue l < 256 ^ l.length := by
  induction l with
  | nil => simp [beValue]
  | cons a t ih =>
    have ha : a < 256 := h a (List.mem_cons_self _ _)
    have ht := ih (fun v hv => h v (List.mem_cons_of_mem _ hv))
    rw [beValue_cons, List.length_cons, pow_succ]
    nlinarith

theorem beBytes_beValue (l : List ℕ) (h : ∀ v ∈ l, v < 256) :
    beBytes l.length (beValue l) = l := by
  induction l with
  | nil => rfl
  | cons a t ih =>
    have ha : a < 256 := h a (List.mem_cons_self _ _)
    have hlt := beValue_lt t (fun v hv => h v (List.mem_cons_of_mem _ hv))
    have ht := ih (fun v hv => h v (List.mem_cons_of_mem _ hv))
    have hpos : 0 < 256 ^ t.length := pow_pos (by norm_num) _
    have hd : (a * 256 ^ t.length + beValue t) / 256 ^ t.length = a := by
      rw [add_comm, Nat.add_mul_div_right _ _ hpos, Nat.div_eq_of_lt hlt, zero_add]
    show ((beValue (a :: t)) / 256 ^ t.length % 256) :: beBytes t.length (beValue (a :: t)) =
      a :: t
    rw [beValue_cons, hd, beBytes_add_mul, ht, Nat.mod_eq_of_lt ha]

theorem toBytes_of_fromBytes (l : List ℕ) (x : fe E) (hb : ∀ v ∈ l, v < 256)
    (h : fromBytes E l = .ok x) : toBytes E x = l := by
  unfold fromBytes at h
  by_cases c1 : l.length ≠ 48
  · rw [if_pos c1] at h
    cases h
  · rw [if_neg c1] at h
    by_cases c2 : beValue l < E.p
    · rw [if_pos c2] at h
      cases h
      have hl : l.length = 48 := not_not.1 c1
      rw [toBytes, ZMod.val_natCast, Nat.mod_eq_of_lt c2, ← hl]
      exact beBytes_beValue l hb
    · rw [if_neg c2] at h
      cases h

set_option maxRecDepth 100000 in
theorem flag_byte : ∀ v, v < 256 → v &&& 128 ≠ 0 → v &&& 64 = 0 →
    v &&& 31 < 256 ∧
    (v &&& 32 ≠ 0 → (v &&& 31 ||| 32) ||| 128 = v) ∧
    (v &&& 32 = 0 → (v &&& 31) ||| 128 = v) := by
  decide

theorem toCompressed_fromCompressed (hE : E.Lawful) (fuel : ℕ) (b : List ℕ) (R : PointG1 E)
    (hb : ∀ v ∈ b, v < 256) (h : FromCompressed E fuel b = .ok R)
    (hy : R.z = 0 ∨ R.y ≠ 0) : ToCompressed R = b := by
  haveI : Fact E.p.Prime := ⟨hE.prime⟩
  unfold FromCompressed at h
  dsimp only at h
  by_cases c1 : b.length ≠ 48
  · rw [if_pos c1] at h; cases h
  rw [if_neg c1] at h
  have hlen : b.length = 48 := not_not.1 c1
  cases b with
  | nil => simp at hlen
  | cons v t =>
  have ht : t.length = 47 := by simpa using hlen
  have hv : v < 256 := hb v (List.mem_cons_self _ _)
  rw [List.headD_cons] at h
  by_cases c2 : v &&& 2 ^ 7 = 0
  · rw [if_pos c2] at h; cases h
  rw [if_neg c2] at h
  by_cases c4 : v &&& 2 ^ 6 ≠ 0
  · rw [if_pos c4] at h
    by_cases c5 : badInfinity 0xc0 (v :: t) = true
    · rw [if_pos c5] at h; cases h
    · rw [if_neg c5] at h
      cases h
      have := eq_of_badInfinity_false _ _ _ (Bool.not_eq_true _ ▸ c5)
      rw [ht] at this
      rw [this]
      exact toCompressed_of_z_eq_zero _ rfl
  rw [if_neg c4] at h
  obtain ⟨hm, f1, f0⟩ := flag_byte v hv c2 (not_not.1 c4)
  have hand : andHead (v :: t) 0x1f = (v &&& 31) :: t := rfl
  rw [hand] at h
  cases hx : fromBytes E ((v &&& 31) :: t) with
  | error f => rw [hx] at h; cases h
  | ok x =>
    rw [hx] at h
    simp only [Except.bind] at h
    cases hr : E.sqrt (x * x * x + E.b) with
    | none => rw [hr] at h; cases h
    | some r =>
      rw [hr] at h
      obtain ⟨rfl, _⟩ := checked_ok fuel _ _ h
      have hbytes : toBytes E x = (v &&& 31) :: t := by
        apply toBytes_of_fromBytes _ _ _ hx
        intro w hw
        rcases List.mem_cons.1 hw with rfl | hw
        · exact hm
        · exact hb w (List.mem_cons_of_mem _ hw)
      have h1 : (1 : fe E) ≠ 0 := one_ne_zero_fe hE
      have hy' : (if E.signBE r = decide (v &&& 2 ^ 5 ≠ 0) then -r else r) ≠ 0 := by
        rcases hy with hz | hy
        · exact absurd hz h1
        · exact hy
      have hr0 : r ≠ 0 := by
        intro h0
        apply hy'
        rw [h0]
        simp
      have hneg := hE.signBE_neg r hr0
      rw [toCompressed_of_z_ne_zero hE _ h1, affine_of_z_eq_one _ rfl]
      simp only
      rw [hbytes]
      by_cases c5 : v &&& 2 ^ 5 ≠ 0
      · have e5 : decide (v &&& 2 ^ 5 ≠ 0) = true := decide_eq_true c5
        rw [e5]
        cases hs : E.signBE r
        · rw [hs] at hneg
          simp only [Bool.false_eq_true, if_false, hs, Bool.not_false, if_true, orHead]
          show (v &&& 31 ||| 32 ||| 128) :: t = v :: t
          rw [f1 c5]
        · rw [hs] at hneg
          simp only [if_true, hneg, Bool.not_true, Bool.not_false, orHead]
          show (v &&& 31 ||| 32 ||| 128) :: t = v :: t
          rw [f1 c5]
      · have e5 : decide (v &&& 2 ^ 5 ≠ 0) = false := decide_eq_false c5
        rw [e5]
        cases hs : E.signBE r
        · rw [hs] at hneg
          simp only [if_true, hneg, Bool.not_true, Bool.false_eq_true, if_false, orHead]
          show (v &&& 31 ||| 128) :: t = v :: t
          rw [f0 (not_not.1 c5)]
        · rw [hs] at hneg
          simp only [Bool.true_eq_false, if_false, hs, Bool.not_true, Bool.false_eq_true,
            orHead]
          show (v &&& 31 ||| 128) :: t = v :: t
          rw [f0 (not_not.1 c5)]

theorem eq_of_equal_decoded (hE : E.Lawful) {R R' : PointG1 E}
    (hR : R = Zero E ∨ (R.z = 1 ∧ R.y * R.y = R.x * R.x * R.x + E.b))
    (hR' : R' = Zero E ∨ (R'.z = 1 ∧ R'.y * R'.y = R'.x * R'.x * R'.x + E.b))
    (h : Equal R R' = true) : R = R' := by
  have h1 : (1 : fe E) ≠ 0 := one_ne_zero_fe hE
  rw [equal_iff] at h
  rcases hR with rfl | ⟨hz, _⟩
  · rcases hR' with rfl | ⟨hz', _⟩
    · rfl
    · rcases h with ⟨_, h0⟩ | ⟨h0, _⟩
      · rw [hz'] at h0
        exact absurd h0 h1
      · exact absurd rfl h0
  · rcases hR' with rfl | ⟨hz', _⟩
    · rcases h with ⟨h0, _⟩ | ⟨_, h0, _⟩
      · rw [hz] at h0
        exact absurd h0 h1
      · exact absurd rfl h0
    · rcases h with ⟨h0, _⟩ | ⟨_, _, hx, hy⟩
      · rw [hz] at h0
        exact absurd h0 h1
      · rw [hz, hz'] at hx hy
        obtain ⟨x, y, z⟩ := R
        obtain ⟨x', y', z'⟩ := R'
        simp only at hz hz' hx hy
        subst hz
        subst hz'
        have ex : x = x' := by simpa using hx
        have ey : y = y' := by simpa using hy
        rw [ex, ey]

end Canonical

/-- C24. For every input of bytes that `FromCompressed` accepts and whose
decoded point is an infinity or has `Y ≠ 0`, the input has 48 bytes and
`ToCompressed` of the decoded point is the input again; hence two such inputs
whose decoded points are `Equal` are the same byte string. -/
theorem compressed_canonical (E : Params) (hE : E.Lawful) (fuel : ℕ) (b : List ℕ)
    (R : PointG1 E) (hb : ∀ v ∈ b, v < 256) (h : FromCompressed E fuel b = .ok R)
    (hy : R.z = 0 ∨ R.y ≠ 0) :
    b.length = 48 ∧ ToCompressed R = b ∧
    ∀ (fuel' : ℕ) (b' : List ℕ) (R' : PointG1 E), (∀ v ∈ b', v < 256) →
      FromCompressed E fuel' b' = .ok R' → (R'.z = 0 ∨ R'.y ≠ 0) →
      Equal R R' = true → b = b' := by
  have hcan := toCompressed_fromCompressed hE fuel b R hb h hy
  refine ⟨?_, hcan, ?_⟩
  · by_contra hl
    unfold FromCompressed at h
    rw [if_pos hl] at h
    cases h
  · intro fuel' b' R' hb' h' hy' heq
    have hcan' := toCompressed_fromCompressed hE fuel' b' R' hb' h' hy'
    have e := eq_of_equal_decoded hE (fromCompressed_shape hE fuel b R h)
      (fromCompressed_shape hE fuel' b' R' h') heq
    rw [← hcan, ← hcan', e]

/-- Witness for C24: the compressed encoding of the point `(1, 9)` of the small
curve. -/
theorem compressed_canonical_witness :
    toy.Lawful ∧ (∀ v ∈ 0x80 :: (List.replicate 46 0 ++ [1]), v < 256) ∧
    FromCompressed toy 2 (0x80 :: (List.replicate 46 0 ++ [1])) = .ok ⟨1, 9, 1⟩ ∧
    ((⟨1, 9, 1⟩ : PointG1 toy).z = 0 ∨ (⟨1, 9, 1⟩ : PointG1 toy).y ≠ 0) ∧
    ((0x80 :: (List.replicate 46 0 ++ [1])).length = 48 ∧
      ToCompressed (⟨1, 9, 1⟩ : PointG1 toy) = 0x80 :: (List.replicate 46 0 ++ [1]) ∧
      ∀ (fuel' : ℕ) (b' : List ℕ) (R' : PointG1 toy), (∀ v ∈ b', v < 256) →
        FromCompressed toy fuel' b' = .ok R' → (R'.z = 0 ∨ R'.y ≠ 0) →
        Equal (⟨1, 9, 1⟩ : PointG1 toy) R' = true →
        0x80 :: (List.replicate 46 0 ++ [1]) = b') :=
  ⟨toy_lawful, by decide, by rfl, Or.inr (by decide),
    compressed_canonical toy toy_lawful 2 (0x80 :: (List.replicate 46 0 ++ [1])) ⟨1, 9, 1⟩
      (by decide) (by rfl) (Or.inr (by decide))⟩

/-! ## Addition on a curve with a linear term -/

section GeneralCurve

variable {E : Params}

theorem curveAB_equation_iff (A B x y : fe E) :
    (curveAB E A B).toAffine.Equation x y ↔ y ^ 2 = x ^ 3 + A * x + B := by
  rw [Affine.equation_iff]
  simp only [curveAB]
  constructor
  · intro h; linear_combination h
  · intro h; linear_combination h

theorem curveAB_nonsingular (hE : E.Lawful) (A B x y : fe E)
    (hΔ : 4 * A ^ 3 + 27 * B ^ 2 ≠ 0) (h : y ^ 2 = x ^ 3 + A * x + B) :
    (curveAB E A B).toAffine.Nonsingular x y := by
  haveI : Fact E.p.Prime := ⟨hE.prime⟩
  have h2 := two_ne_zero_fe hE
  have e : (curveAB E A B).Δ = -(2 ^ 4 * (4 * A ^ 3 + 27 * B ^ 2)) := by
    simp only [WeierstrassCurve.Δ, WeierstrassCurve.b₂, WeierstrassCurve.b₄,
      WeierstrassCurve.b₆, WeierstrassCurve.b₈, curveAB]
    ring
  apply Affine.nonsingular_of_Δ_ne_zero _ ((curveAB_equation_iff A B x y).2 h)
  rw [e]
  exact neg_ne_zero.2 (mul_ne_zero (pow_ne_zero _ h2) hΔ)

theorem isOnCurveAB_iff (A B : fe E) (P : PointG1 E) :
    IsOnCurveAB A B P = true ↔
      P.z = 0 ∨ P.y ^ 2 = P.x ^ 3 + A * P.x * P.z ^ 4 + B * P.z ^ 6 := by
  simp [IsOnCurveAB]

theorem repAB_isOnCurve {A B : fe E} {P : PointG1 E} {C : (curveAB E A B).toAffine.Point}
    (h : RepAB A B P C) : IsOnCurveAB A B P = true := by
  rw [isOnCurveAB_iff]
  rcases h with ⟨hz, _⟩ | ⟨_, x, y, hns, hx, hy, _⟩
  · exact Or.inl hz
  · right
    have he := (curveAB_equation_iff A B x y).1 hns.1
    rw [hx, hy]
    linear_combination (P.z ^ 6) * he

variable [Fact E.p.Prime]

theorem repAB_add (hE : E.Lawful) (A B x1 y1 x2 y2 : fe E)
    (h1 : (curveAB E A B).toAffine.Nonsingular x1 y1)
    (h2 : (curveAB E A B).toAffine.Nonsingular x2 y2)
    (hne : ¬ (x1 = x2 ∧ y1 = y2 ∧ y1 ≠ 0)) :
    RepAB A B (Add ⟨x1, y1, 1⟩ ⟨x2, y2, 1⟩) (Affine.Point.some h1 + Affine.Point.some h2) := by
  have h2' := two_ne_zero_fe hE
  have one : (1 : fe E) ≠ 0 := one_ne_zero_fe hE
  rw [add_of_finite _ _ one one]
  simp only [one_pow, mul_one]
  by_cases c1 : x2 = x1
  · subst c1
    rw [if_pos rfl]
    by_cases c2 : y2 = y1
    · subst c2
      rw [if_pos rfl]
      have hy0 : y2 = 0 := by
        by_contra hcon
        exact hne ⟨rfl, rfl, hcon⟩
      subst hy0
      have hneg : (0 : fe E) = (curveAB E A B).toAffine.negY x2 0 := by
        simp [Affine.negY, curveAB]
      rw [Affine.Point.add_self_of_Y_eq hneg]
      refine Or.inl ⟨?_, rfl⟩
      rw [double_of_z_ne_zero _ one]
      simp
    · rw [if_neg c2]
      have hneg : y1 = (curveAB E A B).toAffine.negY x2 y2 := by
        by_contra hcon
        exact c2 (Affine.Y_eq_of_Y_ne h1.1 h2.1 rfl hcon).symm
      rw [Affine.Point.add_of_Y_eq rfl hneg]
      exact Or.inl ⟨rfl, rfl⟩
  · rw [if_neg c1]
    have hxne : x1 ≠ x2 := fun h => c1 h.symm
    have hd : x1 - x2 ≠ 0 := sub_ne_zero.2 hxne
    have hH : x2 - x1 ≠ 0 := sub_ne_zero.2 c1
    rw [Affine.Point.add_of_X_ne hxne]
    have hzD : 2 * (x2 - x1) ≠ 0 := mul_ne_zero h2' hH
    refine Or.inr ⟨hzD, _, _, Affine.nonsingular_add h1 h2 (fun h => absurd h hxne),
      ?_, ?_, rfl⟩
    · simp only
      rw [Affine.slope_of_X_ne hxne]
      simp only [Affine.addX, curveAB, mul_zero, sub_zero, zero_mul, add_zero]
      field_simp
      ring
    · simp only
      rw [Affine.slope_of_X_ne hxne]
      simp only [Affine.addY, Affine.negAddY, Affine.addX, Affine.negY, curveAB, mul_zero,
        sub_zero, zero_mul, add_zero]
      field_simp
      ring

end GeneralCurve

/-- C21, amended. For every two finite affine points `P₀` and `P₁` of a short
Weierstrass curve `y² = x³ + A·x + B`, other than `P₀ = P₁` with `Y ≠ 0`,
`Add P₀ P₁` is a point of that curve (`Z = 0`, or
`Y² = X³ + A·X·Z⁴ + B·Z⁶`) and stands for the group sum `P₀ + P₁`. -/
theorem add_on_general_curve (E : Params) (hE : E.Lawful) (A B x1 y1 x2 y2 : fe E)
    (h1 : (curveAB E A B).toAffine.Nonsingular x1 y1)
    (h2 : (curveAB E A B).toAffine.Nonsingular x2 y2)
    (hne : ¬ (x1 = x2 ∧ y1 = y2 ∧ y1 ≠ 0)) :
    haveI : Fact E.p.Prime := ⟨hE.prime⟩
    IsOnCurveAB A B (Add ⟨x1, y1, 1⟩ ⟨x2, y2, 1⟩) = true ∧
    RepAB A B (Add ⟨x1, y1, 1⟩ ⟨x2, y2, 1⟩)
      (Affine.Point.some h1 + Affine.Point.some h2) := by
  haveI : Fact E.p.Prime := ⟨hE.prime⟩
  have hrep := repAB_add hE A B x1 y1 x2 y2 h1 h2 hne
  exact ⟨repAB_isOnCurve hrep, hrep⟩

/-- The claim C21 fails when the two points are equal: on `y² = x³ + x - 1`
over the BLS12-381 field, a curve of non-zero discriminant, the point `(1, 1)`
added to itself gives `(1, 1, 2)`, which is finite and not on that curve. -/
theorem add_equal_points_off_curve :
    (1 : fe bls12381) ≠ 0 ∧ 4 * (1 : fe bls12381) ^ 3 + 27 * (-1) ^ 2 ≠ 0 ∧
    IsOnCurveAB (1 : fe bls12381) (-1) ⟨1, 1, 1⟩ = true ∧
    Add (⟨1, 1, 1⟩ : PointG1 bls12381) ⟨1, 1, 1⟩ = ⟨1, 1, 2⟩ ∧
    IsOnCurveAB (1 : fe bls12381) (-1) (Add ⟨1, 1, 1⟩ ⟨1, 1, 1⟩) = false := by
  decide

/-- Witness for C21: the points `(1, 1)` and `(2, 3)` of `y² = x³ + x - 1` over
the field of 19 elements. -/
theorem add_on_general_curve_witness :
    toy.Lawful ∧ ¬ ((1 : fe toy) = 2 ∧ (1 : fe toy) = 3 ∧ (1 : fe toy) ≠ 0) ∧
    ∃ (h1 : (curveAB toy 1 18).toAffine.Nonsingular 1 1)
      (h2 : (curveAB toy 1 18).toAffine.Nonsingular 2 3),
      haveI : Fact toy.p.Prime := ⟨toy_lawful.prime⟩
      IsOnCurveAB (1 : fe toy) 18 (Add ⟨1, 1, 1⟩ ⟨2, 3, 1⟩) = true ∧
      RepAB (1 : fe toy) 18 (Add ⟨1, 1, 1⟩ ⟨2, 3, 1⟩)
        (Affine.Point.some h1 + Affine.Point.some h2) :=
  ⟨toy_lawful, by decide,
    curveAB_nonsingular toy_lawful 1 18 1 1 (by decide) (by decide),
    curveAB_nonsingular toy_lawful 1 18 2 3 (by decide) (by decide),
    add_on_general_curve toy toy_lawful 1 18 1 1 2 3 _ _ (by decide)⟩

end G1
